import Mathlib

/-! The L-BFGS acceleration layer (`include/lbfgs.h`)

A shallow embedding of the class template `lbfgs<SOLVER, VECTOR, REAL>`.

* `REAL` and `double` are modelled by `ℚ` (exact arithmetic), `VECTOR` by `List ℚ`;
  all vectors of one optimizer have the common length `nr_layers()`.
* The step-size search has a second embedding in which the result of every arithmetic
  operation is rounded (`search_with_rounded`); with `round_binary64` it is the search
  with `REAL = double`.
* `std::deque` is modelled by `List`, the front of the deque being the head.
* The base class `SOLVER` is an arbitrary record of operations over an arbitrary
  state type.
* Wall-clock durations measured with `steady_clock` are inputs of the calls.

The functions `generate_random_inequality`, `min_cost_impl` and `min_cost` of
`test/test_random_inequality_to_bdd.cpp` are embedded as well.

* The values drawn by `d(gen)` from the generator default-seeded in each call are fixed by
  the standard library; they are a parameter. `int` is modelled by `Int`.
* A `double` which may be infinite is modelled by `WithTop ℚ`.
* The reference `best_current_sol` and the vector `sol` are passed and returned.
-/

namespace LPMP

/-- The type `VECTOR`: a sequence of reals. -/
abbrev Vec := List ℚ

/-- The call `std::inner_product(a.begin(), a.end(), b.begin(), (REAL) 0.0)`:
a left-to-right accumulation of the products, starting from zero. -/
def inner_product (a b : Vec) : ℚ :=
  (List.zip a b).foldl (fun acc p => acc + p.1 * p.2) 0

/-- The call `std::transform(a.begin(), a.end(), b.begin(), out, std::minus<REAL>())`. -/
def minus (a b : Vec) : Vec :=
  List.zipWith (fun x y => x - y) a b

/-- The struct `history`: a curvature pair with its inner product. -/
structure history_entry where
  s : Vec
  y : Vec
  rho_inv : ℚ
deriving DecidableEq, Repr

/-- The functor `update_q` applied to the indices `0 .. n-1`:
`q[idx] -= alpha * y[idx]`. -/
def update_q (alpha : ℚ) (y q : Vec) : Vec :=
  List.zipWith (fun qj yj => qj - alpha * yj) q y

/-- The functor `update_r` applied to the indices `0 .. n-1`:
`r[idx] += s[idx] * (alpha - beta)`. -/
def update_r (alpha beta : ℚ) (s r : Vec) : Vec :=
  List.zipWith (fun rj sj => rj + sj * (alpha - beta)) r s

/-- One pass of the first loop of `compute_update_direction` for the entry `h`:
computes `alpha`, records it with `push_back` and updates `direction`. -/
def first_loop_body (acc : Vec × List ℚ) (h : history_entry) : Vec × List ℚ :=
  let alpha := inner_product h.s acc.1 / h.rho_inv
  (update_q alpha h.y acc.1, acc.2 ++ [alpha])

/-- The first loop of `compute_update_direction`:
`for (int i = history.size()-1; i >= 0; i--)`, from the newest entry to the oldest.
Returns the direction and `alpha_history` in the order in which it was pushed. -/
def first_loop (history : List history_entry) (direction : Vec) : Vec × List ℚ :=
  history.reverse.foldl first_loop_body (direction, [])

/-- One pass of the second loop of `compute_update_direction` at index `i`,
for the entry `h` and the recorded `alpha = alpha_history[i]`. -/
def second_loop_body (initial_H_diag_multiplier : ℚ) (direction : Vec)
    (x : Nat × history_entry × ℚ) : Vec :=
  let current_rho := 1 / x.2.1.rho_inv
  let current_rho := if x.1 = 0 then current_rho * initial_H_diag_multiplier else current_rho
  let beta := current_rho * inner_product x.2.1.y direction
  update_r x.2.2 beta x.2.1.s direction

/-- The second loop of `compute_update_direction`:
`for (int i = 0; i < history.size(); i++)`, from the oldest entry to the newest. -/
def second_loop (history : List history_entry) (alpha_history : List ℚ)
    (initial_H_diag_multiplier : ℚ) (direction : Vec) : Vec :=
  (List.enum (List.zip history alpha_history)).foldl
    (second_loop_body initial_H_diag_multiplier) direction

/-- The method `compute_update_direction`, as a function of the history and of the
vector returned by `bdds_solution_vec()`. It is undefined on an empty history
(`history.back()`). -/
def compute_update_direction (history : List history_entry) (bdds_solution_vec : Vec) :
    Option Vec :=
  match history.getLast? with
  | none => none
  | some back =>
    let p := first_loop history bdds_solution_vec
    let direction := p.1
    let alpha_history := p.2.reverse
    let last_y_norm := inner_product back.y back.y
    let initial_H_diag_multiplier := back.rho_inv / (1 / 100000000 + last_y_norm)
    some (second_loop history alpha_history initial_H_diag_multiplier direction)

/-- The scalar multiple `c * v` of a vector. -/
def scale (c : ℚ) (v : Vec) : Vec :=
  v.map (fun x => c * x)

/-- One pass of the second loop of the reference recursion:
`beta = (1 / rho_inv) * <y, r>` and `r += s * (alpha - beta)`. -/
def reference_second_loop_body (r : Vec) (x : history_entry × ℚ) : Vec :=
  let beta := (1 / x.1.rho_inv) * inner_product x.1.y r
  update_r x.2 beta x.1.s r

/-- The reference L-BFGS two-loop recursion, following the words of the specification:
the first loop as in the code, then the second loop started from `r = gamma * q`
with `gamma = rho_inv_last / (1e-8 + <y_last, y_last>)`, every `beta_i` being
`(1 / rho_inv_i) * <y_i, r>`. -/
def reference_two_loop (history : List history_entry) (g : Vec) : Option Vec :=
  match history.getLast? with
  | none => none
  | some last =>
    let p := first_loop history g
    let gamma := last.rho_inv / (1 / 100000000 + inner_product last.y last.y)
    some ((List.zip history p.2.reverse).foldl reference_second_loop_body (scale gamma p.1))

/-- The operations which the class `lbfgs` calls on its base class `SOLVER`, over an
arbitrary solver state `σ`. -/
structure Solver (σ : Type) where
  nr_layers : σ → Nat
  lower_bound : σ → ℚ
  net_solver_costs : σ → Vec
  bdds_solution_vec : σ → Vec
  make_dual_feasible : σ → Vec → Vec
  gradient_step : σ → Vec → ℚ → σ
  iteration : σ → σ
  update_costs : σ → Vec → Vec → σ

/-- The enumeration `solver_type`. -/
inductive solver_type where
  | mma
  | lbfgs
deriving DecidableEq, Repr

/-- The data members of an object of class `lbfgs`, with its base class sub-object
`solver`. The member `m` is a `const int` which the constructor asserts to be larger
than one; it is kept as a natural number, as are the counters. -/
structure lbfgs (σ : Type) where
  solver : σ
  history : List history_entry
  prev_x : Vec
  prev_grad_f : Vec
  m : Nat
  step_size : ℚ
  required_relative_lb_increase : ℚ
  step_size_decrease_factor : ℚ
  step_size_increase_factor : ℚ
  num_unsuccessful_lbfgs_updates_ : Nat
  initial_rho_inv : ℚ
  lb_history : List ℚ
  prev_states_stored : Bool
  initial_rho_inv_valid : Bool
  mma_lb_increase_per_time : ℚ
  lbfgs_lb_increase_per_time : ℚ
  mma_iterations : Nat
  lbfgs_iterations : Nat

variable {σ : Type}

/-- The constructor of `lbfgs`, on the solver state built by `SOLVER(bdd_col)`. -/
def lbfgs.construct (S : Solver σ) (solver : σ) (_history_size : Nat)
    (_init_step_size _req_rel_lb_increase _step_size_decrease_factor
      _step_size_increase_factor : ℚ) : lbfgs σ where
  solver := solver
  history := []
  prev_x := List.replicate (S.nr_layers solver) 0
  prev_grad_f := List.replicate (S.nr_layers solver) 0
  m := _history_size
  step_size := _init_step_size
  required_relative_lb_increase := _req_rel_lb_increase
  step_size_decrease_factor := _step_size_decrease_factor
  step_size_increase_factor := _step_size_increase_factor
  num_unsuccessful_lbfgs_updates_ := 0
  initial_rho_inv := 0
  lb_history := []
  prev_states_stored := false
  initial_rho_inv_valid := false
  mma_lb_increase_per_time := 0
  lbfgs_lb_increase_per_time := 0
  mma_iterations := 0
  lbfgs_iterations := 0

/-- The conditions asserted by the constructor. -/
def constructor_asserts (o : lbfgs σ) : Prop :=
  o.step_size > 0 ∧
  (o.step_size_decrease_factor > 0 ∧ o.step_size_decrease_factor < 1) ∧
  o.step_size_increase_factor > 1 ∧
  o.required_relative_lb_increase > 0 ∧
  o.m > 1

/-- The history after `push_back(e)` followed by
`if(history.size() > m) history.pop_front();`. -/
def push_history (history : List history_entry) (m : Nat) (e : history_entry) :
    List history_entry :=
  let pushed := history ++ [e]
  if pushed.length > m then pushed.tail else pushed

/-- The method `store_iterate`. -/
def store_iterate (S : Solver σ) (o : lbfgs σ) : lbfgs σ :=
  let cur_x := S.net_solver_costs o.solver
  let cur_grad_f := S.bdds_solution_vec o.solver
  if !o.prev_states_stored then
    { o with prev_x := cur_x, prev_grad_f := cur_grad_f, prev_states_stored := true }
  else
    let cur_s := minus cur_x o.prev_x
    let cur_y := minus o.prev_grad_f cur_grad_f
    let rho_inv := inner_product cur_s cur_y
    let o1 : lbfgs σ :=
      if !o.initial_rho_inv_valid then
        { o with initial_rho_inv := rho_inv, initial_rho_inv_valid := true }
      else o
    let o2 : lbfgs σ :=
      if rho_inv > 1 / 100000000 then
        { o1 with history := push_history o1.history o1.m ⟨cur_s, cur_y, rho_inv⟩ }
      else o1
    { o2 with prev_x := cur_x, prev_grad_f := cur_grad_f }

/-- The method `flush_lbfgs_states`. -/
def flush_lbfgs_states (o : lbfgs σ) : lbfgs σ :=
  { o with
    num_unsuccessful_lbfgs_updates_ := 0
    history := []
    prev_states_stored := false
    initial_rho_inv := 0
    initial_rho_inv_valid := false }

/-- The method `lbfgs_update_possible`. -/
def lbfgs_update_possible (o : lbfgs σ) : Bool :=
  if o.history.length < o.m ∨ o.num_unsuccessful_lbfgs_updates_ > 5 then false else true

/-- The method `update_costs`. -/
def update_costs (S : Solver σ) (o : lbfgs σ) (cost_delta_0 cost_delta_1 : Vec) : lbfgs σ :=
  let o1 := flush_lbfgs_states o
  { o1 with solver := S.update_costs o1.solver cost_delta_0 cost_delta_1 }

/-- The method `choose_solver`. -/
def choose_solver (o : lbfgs σ) : solver_type :=
  if !lbfgs_update_possible o then solver_type.mma
  else if (o.lbfgs_iterations : ℚ) / ((o.mma_iterations : ℚ) + 1 / 1000000000) > 50 then
    solver_type.mma
  else if (o.mma_iterations : ℚ) / ((o.lbfgs_iterations : ℚ) + 1 / 1000000000) > 50 then
    solver_type.lbfgs
  else if o.mma_lb_increase_per_time > 2 * o.lbfgs_lb_increase_per_time then solver_type.mma
  else solver_type.lbfgs

/-- The local variables of `search_step_size_and_apply`, with two records of what the
search did: the scales passed to `gradient_step`, in the order of the calls, and the
trials, in their order, each with the step size applied and the value returned by its
evaluation of `calculate_rel_change`. -/
structure search_locals where
  prev_step_size : ℚ
  curr_rel_change : ℚ
  best_step_size : ℚ
  best_rel_improvement : ℚ
  gradient_step_scales : List ℚ
  trials : List (ℚ × ℚ)
deriving DecidableEq, Repr

/-- The local variables at the start of the search. -/
def search_locals.init : search_locals where
  prev_step_size := 0
  curr_rel_change := 0
  best_step_size := 0
  best_rel_improvement := 0
  gradient_step_scales := []
  trials := []

/-- The element `*(d.rbegin() + k)` of a deque; undefined outside of the deque. -/
def rbegin_plus (d : List ℚ) (k : Int) : Option ℚ :=
  if k < 0 then none else d.reverse[k.toNat]?

/-- The value `past_lb_increase` of the lambda `calculate_rel_change`:
`*(lb_history.rbegin()+m-2) - *(lb_history.rbegin()+m-1)`. -/
def past_lb_increase (o : lbfgs σ) : Option ℚ :=
  match rbegin_plus o.lb_history ((o.m : Int) - 2), rbegin_plus o.lb_history ((o.m : Int) - 1) with
  | some a, some b => some (a - b)
  | _, _ => none

/-- The lambda `calculate_rel_change`, given the value of `past_lb_increase`. -/
def calculate_rel_change (S : Solver σ) (lb_pre past_lb_increase : ℚ) (o : lbfgs σ) : ℚ :=
  let cur_lb_increase := S.lower_bound o.solver - lb_pre
  cur_lb_increase / (1 / 1000000000 + past_lb_increase)

/-- The lambda `apply_update`, in exact arithmetic: the subtraction is not rounded (see
`apply_update_rounded` for the subtraction in binary64). -/
def apply_update (S : Solver σ) (update : Vec) (new_step_size : ℚ)
    (p : lbfgs σ × search_locals) : lbfgs σ × search_locals :=
  let net_step_size := new_step_size - p.2.prev_step_size
  if net_step_size ≠ 0 then
    ({ p.1 with solver := S.gradient_step p.1.solver update net_step_size },
     { p.2 with
       prev_step_size := new_step_size
       gradient_step_scales := p.2.gradient_step_scales ++ [net_step_size] })
  else
    (p.1, { p.2 with prev_step_size := new_step_size })

/-- The first part of the body of the `do`-loop: the trial at the current step size,
the record of the best trial, and the adaptation of the step size. -/
def search_trial (S : Solver σ) (update : Vec) (lb_pre past_lb_increase : ℚ)
    (p : lbfgs σ × search_locals) : lbfgs σ × search_locals :=
  let p1 := apply_update S update p.1.step_size p
  let o1 := p1.1
  let curr_rel_change := calculate_rel_change S lb_pre past_lb_increase o1
  let l1 : search_locals :=
    { p1.2 with
      curr_rel_change := curr_rel_change
      trials := p1.2.trials ++ [(o1.step_size, curr_rel_change)] }
  let l2 : search_locals :=
    if l1.best_rel_improvement < curr_rel_change then
      { l1 with best_rel_improvement := curr_rel_change, best_step_size := o1.step_size }
    else l1
  let decreased := o1.step_size * o1.step_size_decrease_factor
  let increased := o1.step_size * o1.step_size_increase_factor
  let o2 : lbfgs σ :=
    if curr_rel_change ≤ 0 then { o1 with step_size := decreased }
    else if curr_rel_change < o1.required_relative_lb_increase then
      { o1 with step_size := increased }
    else o1
  (o2, l2)

/-- The block of the `do`-loop guarded by `if (num_updates > 5)`, which ends with
`return`. -/
def retry_budget_exit (S : Solver σ) (update : Vec) (p : lbfgs σ × search_locals) :
    lbfgs σ × search_locals :=
  if p.2.best_rel_improvement > p.1.required_relative_lb_increase / 10 then
    apply_update S update p.2.best_step_size p
  else
    let p1 := apply_update S update 0 p
    ({ p1.1 with num_unsuccessful_lbfgs_updates_ := p1.1.num_unsuccessful_lbfgs_updates_ + 1 },
     p1.2)

/-- The way the `do`-loop was left, with the state in which it was left. -/
structure search_exit (σ : Type) where
  o : lbfgs σ
  locals : search_locals
  num_updates : Nat
  returned : Bool

/-- The control flow of the `do`-loop of `search_step_size_and_apply`, entered with the
counter `num_updates`: one pass runs `trial`; then `if (num_updates > 5)` the block
`budget_block` is run and the method returns; otherwise `num_updates++` and the loop is
repeated `while` the condition `again` holds. The result tells the state, the counter and
whether the method returned from inside of the loop. -/
def do_while_loop {α : Type} (trial budget_block : α → α) (again : α → Prop)
    [DecidablePred again] (num_updates : Nat) (p : α) : α × Nat × Bool :=
  let p1 := trial p
  if num_updates > 5 then (budget_block p1, num_updates, true)
  else if again p1 then do_while_loop trial budget_block again (num_updates + 1) p1
  else (p1, num_updates + 1, false)
termination_by 6 - num_updates
decreasing_by omega

/-- The `do { ... } while(curr_rel_change < required_relative_lb_increase)` loop of
`search_step_size_and_apply`, entered with the counter `num_updates`. -/
def search_loop (S : Solver σ) (update : Vec) (lb_pre past_lb_increase : ℚ)
    (num_updates : Nat) (p : lbfgs σ × search_locals) : search_exit σ :=
  let r := do_while_loop (search_trial S update lb_pre past_lb_increase)
    (retry_budget_exit S update)
    (fun p1 => p1.2.curr_rel_change < p1.1.required_relative_lb_increase) num_updates p
  ⟨r.1.1, r.1.2, r.2.1, r.2.2⟩

/-- The statements of `search_step_size_and_apply` which follow the `do`-loop. -/
def search_finish (e : search_exit σ) : lbfgs σ × search_locals :=
  if e.returned then (e.o, e.locals)
  else
    let o := e.o
    let increased := o.step_size * o.step_size_increase_factor
    let o1 : lbfgs σ :=
      if e.num_updates = 1 ∧ o.num_unsuccessful_lbfgs_updates_ = 0 then
        { o with step_size := increased }
      else o
    ({ o1 with num_unsuccessful_lbfgs_updates_ := 0 }, e.locals)

/-- The method `search_step_size_and_apply`, given the value of `past_lb_increase`,
which the search reads at every trial and never changes. -/
def search_with (S : Solver σ) (update : Vec) (past_lb_increase : ℚ) (o : lbfgs σ) :
    lbfgs σ × search_locals :=
  let lb_pre := S.lower_bound o.solver
  search_finish (search_loop S update lb_pre past_lb_increase 0 (o, search_locals.init))

/-- The method `search_step_size_and_apply`. It is undefined when the reads of
`lb_history` fall outside of the deque. -/
def search_step_size_and_apply (S : Solver σ) (update : Vec) (o : lbfgs σ) :
    Option (lbfgs σ × search_locals) :=
  match past_lb_increase o with
  | none => none
  | some past => some (search_with S update past o)

/-- The method `mma_iteration`, which takes the duration `dt` between `pre` and `post`. -/
def mma_iteration (S : Solver σ) (dt : ℚ) (o : lbfgs σ) : lbfgs σ :=
  let lb_before := S.lower_bound o.solver
  let o1 : lbfgs σ := { o with solver := S.iteration o.solver }
  let lb_after := S.lower_bound o1.solver
  { o1 with
    mma_lb_increase_per_time := (lb_after - lb_before) / dt
    mma_iterations := o1.mma_iterations + 1 }

/-- The method `lbfgs_iteration`, which takes the duration `dt` between `pre` and `post`. -/
def lbfgs_iteration (S : Solver σ) (dt : ℚ) (o : lbfgs σ) : Option (lbfgs σ) :=
  let lb_before := S.lower_bound o.solver
  match compute_update_direction o.history (S.bdds_solution_vec o.solver) with
  | none => none
  | some direction =>
    let grad_lbfgs := S.make_dual_feasible o.solver direction
    match search_step_size_and_apply S grad_lbfgs o with
    | none => none
    | some r =>
      let o1 : lbfgs σ := { r.1 with solver := S.iteration r.1.solver }
      let lb_after := S.lower_bound o1.solver
      some { o1 with
        lbfgs_lb_increase_per_time := (lb_after - lb_before) / dt
        lbfgs_iterations := o1.lbfgs_iterations + 1 }

/-- The method `iteration`, which takes the duration `dt` measured inside of it. -/
def iteration (S : Solver σ) (dt : ℚ) (o : lbfgs σ) : Option (lbfgs σ) :=
  let o1 : lbfgs σ :=
    if o.lb_history.isEmpty then { o with lb_history := o.lb_history ++ [S.lower_bound o.solver] }
    else o
  let step : Option (lbfgs σ) :=
    if choose_solver o1 = solver_type.lbfgs then lbfgs_iteration S dt o1
    else some (mma_iteration S dt o1)
  match step with
  | none => none
  | some o2 =>
    let o3 := store_iterate S o2
    some { o3 with lb_history := o3.lb_history ++ [S.lower_bound o3.solver] }

/-- A call of one of the two public methods. -/
inductive call where
  | iteration (dt : ℚ)
  | update_costs (cost_delta_0 cost_delta_1 : Vec)

/-- The effect of one call of a public method. -/
def call.apply (S : Solver σ) (o : lbfgs σ) : call → Option (lbfgs σ)
  | call.iteration dt => LPMP.iteration S dt o
  | call.update_costs c0 c1 => some (LPMP.update_costs S o c0 c1)

/-- The effect of a sequence of calls of public methods, in their order. -/
def run (S : Solver σ) : lbfgs σ → List call → Option (lbfgs σ)
  | o, [] => some o
  | o, c :: cs =>
    match c.apply S o with
    | none => none
    | some o1 => run S o1 cs

/-- An optimizer with `m = 2` and the default parameters of the constructor, with the
given solver state, history, counters and rate samples. -/
def sample_state (solver : σ) (history : List history_entry) (num_unsuccessful mma_iterations
    lbfgs_iterations : Nat) (mma_rate lbfgs_rate : ℚ) : lbfgs σ where
  solver := solver
  history := history
  prev_x := [0, 0]
  prev_grad_f := [0, 0]
  m := 2
  step_size := 1 / 1000000
  required_relative_lb_increase := 1 / 1000000
  step_size_decrease_factor := 4 / 5
  step_size_increase_factor := 11 / 10
  num_unsuccessful_lbfgs_updates_ := num_unsuccessful
  initial_rho_inv := 1
  lb_history := [0, 1, 2, 3]
  prev_states_stored := true
  initial_rho_inv_valid := true
  mma_lb_increase_per_time := mma_rate
  lbfgs_lb_increase_per_time := lbfgs_rate
  mma_iterations := mma_iterations
  lbfgs_iterations := lbfgs_iterations

/-- A solver whose state is the net scale applied by `gradient_step`, with the lower bound
a given function of it. -/
def scale_solver (lower_bound : ℚ → ℚ) : Solver ℚ where
  nr_layers := fun _ => 2
  lower_bound := lower_bound
  net_solver_costs := fun s => [s, 0]
  bdds_solution_vec := fun s => [0, s]
  make_dual_feasible := fun _ v => v
  gradient_step := fun s _ c => s + c
  iteration := fun s => s
  update_costs := fun s _ _ => s

/-- A solver whose state is one real `x`, with the costs `(x, 0)`, the gradient-like vector
`(-x, 0)` and the lower bound `x`; its iteration adds one to `x`. -/
def ascent_solver : Solver ℚ where
  nr_layers := fun _ => 2
  lower_bound := fun x => x
  net_solver_costs := fun x => [x, 0]
  bdds_solution_vec := fun x => [-x, 0]
  make_dual_feasible := fun _ v => v
  gradient_step := fun x _ c => x + c
  iteration := fun x => x + 1
  update_costs := fun x _ _ => x

/-- A lower bound which is `1` for the net scales in `(0, 3e-7]` and `0` for the others. -/
def narrow_lower_bound (s : ℚ) : ℚ :=
  if 0 < s ∧ s ≤ 3 / 10000000 then 1 else 0

/-- The relation between two states of one optimizer which differ at most in the solver
state, the step size and the number of unsuccessful updates. -/
def same_parameters (a b : lbfgs σ) : Prop :=
  b = { a with
    solver := b.solver
    step_size := b.step_size
    num_unsuccessful_lbfgs_updates_ := b.num_unsuccessful_lbfgs_updates_ }

/-- The value of `curr_rel_change` measured by the trial made from the loop state `p`. -/
def trial_rel_change (S : Solver σ) (update : Vec) (lb_pre past_lb_increase : ℚ)
    (p : lbfgs σ × search_locals) : ℚ :=
  calculate_rel_change S lb_pre past_lb_increase (apply_update S update p.1.step_size p).1

/-- The invariant of the `do`-loop of a search started from the optimizer `o`, at the head
of the loop with the counter `n`: `n` trials have been made and none of them reached the
required relative change, the scales passed to `gradient_step` add up to `prev_step_size`,
and `best_rel_improvement` is the maximum of zero and of the measured relative changes,
`best_step_size` being the step size of a trial which measured it (zero if there is none). -/
def search_invariant (o : lbfgs σ) (n : Nat) (p : lbfgs σ × search_locals) : Prop :=
  same_parameters o p.1 ∧
  p.1.num_unsuccessful_lbfgs_updates_ = o.num_unsuccessful_lbfgs_updates_ ∧
  p.2.trials.length = n ∧
  p.2.gradient_step_scales.sum = p.2.prev_step_size ∧
  (∀ t ∈ p.2.trials, t.2 < o.required_relative_lb_increase) ∧
  (∀ t ∈ p.2.trials, t.2 ≤ p.2.best_rel_improvement) ∧
  (p.2.best_rel_improvement = 0 ∧ p.2.best_step_size = 0 ∨
    0 < p.2.best_rel_improvement ∧
      (p.2.best_step_size, p.2.best_rel_improvement) ∈ p.2.trials)

/-- The invariant of the optimizer states which the public methods maintain, for an
optimizer constructed with the history size `m`: the history holds at most `m` entries and
no more entries than `lb_history`, and each entry has `rho_inv = <s, y> > 1e-8`. -/
def history_invariant (m : Nat) (o : lbfgs σ) : Prop :=
  o.m = m ∧ o.history.length ≤ m ∧ o.history.length ≤ o.lb_history.length ∧
  ∀ e ∈ o.history, e.rho_inv > 1 / 100000000 ∧ e.rho_inv = inner_product e.s e.y

/-- The optimizer after the first statement of `iteration`:
`if (lb_history.empty()) lb_history.push_back(this->lower_bound());`. -/
def seed_lb_history (S : Solver σ) (o : lbfgs σ) : lbfgs σ :=
  if o.lb_history.isEmpty then { o with lb_history := o.lb_history ++ [S.lower_bound o.solver] }
  else o

/-- The iteration which `iteration` runs according to `choose_solver`. -/
def chosen_iteration (S : Solver σ) (dt : ℚ) (o : lbfgs σ) : Option (lbfgs σ) :=
  if choose_solver o = solver_type.lbfgs then lbfgs_iteration S dt o
  else some (mma_iteration S dt o)

/-- The last two statements of `iteration`: `store_iterate` and the `push_back` of the
lower bound. -/
def record_iterate (S : Solver σ) (o : lbfgs σ) : lbfgs σ :=
  let o3 := store_iterate S o
  { o3 with lb_history := o3.lb_history ++ [S.lower_bound o3.solver] }

/-- The constructor of `lbfgs` with its assertions, a failed assertion being fatal: the data
members are initialised from the arguments, `_history_size` being an `int`, and the five
assertions are checked in their order. -/
def lbfgs.construct_checked (S : Solver σ) (solver : σ) (_history_size : Int)
    (_init_step_size _req_rel_lb_increase _step_size_decrease_factor
      _step_size_increase_factor : ℚ) : Option (lbfgs σ) :=
  if ¬ _init_step_size > 0 then none
  else if ¬ (_step_size_decrease_factor > 0 ∧ _step_size_decrease_factor < 1) then none
  else if ¬ _step_size_increase_factor > 1 then none
  else if ¬ _req_rel_lb_increase > 0 then none
  else if ¬ _history_size > 1 then none
  else some (lbfgs.construct S solver _history_size.toNat _init_step_size _req_rel_lb_increase
    _step_size_decrease_factor _step_size_increase_factor)

/-- The invariant of the step size: the step size and the two factors are positive. -/
def step_size_invariant (o : lbfgs σ) : Prop :=
  0 < o.step_size ∧ 0 < o.step_size_decrease_factor ∧ 0 < o.step_size_increase_factor

/-- The state of the history after `j` calls of `iteration()` since construction or since
the last flush: before the first call the history is empty and no iterate is stored, and
after `j >= 1` calls the history holds at most `j - 1` entries. -/
def warming_up (j : Nat) (o : lbfgs σ) : Prop :=
  (j = 0 ∧ o.history = [] ∧ o.prev_states_stored = false) ∨ o.history.length + 1 ≤ j

/-- The number of calls of `iteration()` in a sequence of calls. -/
def count_iterations : List call → Nat
  | [] => 0
  | call.iteration _ :: cs => count_iterations cs + 1
  | call.update_costs _ _ :: cs => count_iterations cs

/-- The number of entries of `lb_history` after `n` calls of `iteration()`: none before the
first call, and `n + 1` after `n >= 1` calls. -/
def lb_history_after (n : Nat) (o : lbfgs σ) : Prop :=
  (n = 0 ∧ o.lb_history = []) ∨ (1 ≤ n ∧ o.lb_history.length = n + 1)

/-- A call of one of the methods of the base solver which change its state. -/
inductive solver_call where
  | gradient_step
  | iteration
  | update_costs
deriving DecidableEq, Repr

/-- The solver `S` with a record of the calls of its state-changing methods, in their
order. -/
def traced (S : Solver σ) : Solver (σ × List solver_call) where
  nr_layers := fun s => S.nr_layers s.1
  lower_bound := fun s => S.lower_bound s.1
  net_solver_costs := fun s => S.net_solver_costs s.1
  bdds_solution_vec := fun s => S.bdds_solution_vec s.1
  make_dual_feasible := fun s v => S.make_dual_feasible s.1 v
  gradient_step := fun s d c => (S.gradient_step s.1 d c, s.2 ++ [solver_call.gradient_step])
  iteration := fun s => (S.iteration s.1, s.2 ++ [solver_call.iteration])
  update_costs := fun s c0 c1 => (S.update_costs s.1 c0 c1, s.2 ++ [solver_call.update_costs])

/-- The record of calls `t` extends the record `t0` by calls of `gradient_step` only. -/
def gradient_steps_since (t0 t : List solver_call) : Prop :=
  ∃ l : List solver_call, (∀ e ∈ l, e = solver_call.gradient_step) ∧ t = t0 ++ l

/-- The sum `a + b` of two vectors. -/
def plus (a b : Vec) : Vec :=
  List.zipWith (fun x y => x + y) a b

/-- The vector `q_i` of the recurrence stated by the specification, for the entries
`h_i .. h_{k-1}` given oldest first: `q_k = g`, and
`q_i = q_{i+1} - alpha_i * y_i` with `alpha_i = <s_i, q_{i+1}> / rho_inv_i`. -/
def recurrence_q : List history_entry → Vec → Vec
  | [], g => g
  | e :: rest, g =>
    let q := recurrence_q rest g
    let alpha := inner_product e.s q / e.rho_inv
    minus q (scale alpha e.y)

/-- The scalar `alpha_i = <s_i, q_{i+1}> / rho_inv_i` of the recurrence stated by the
specification, for the history `h_0 .. h_{k-1}` and `i < k`. -/
def recurrence_alpha (history : List history_entry) (g : Vec) (i : Nat) : ℚ :=
  match history.drop i with
  | [] => 0
  | e :: rest => inner_product e.s (recurrence_q rest g) / e.rho_inv

/-- The vector `r_i` of the recurrence stated by the specification, for the history
`h_0 .. h_{k-1}`: `r_0 = q_0`, and `r_{i+1} = r_i + (alpha_i - beta_i) * s_i` with
`beta_i = c_i * <y_i, r_i>`, where `c_0 = gamma / rho_inv_0` and `c_i = 1 / rho_inv_i`
for `i > 0`. -/
def recurrence_r (history : List history_entry) (g : Vec) (gamma : ℚ) : Nat → Vec
  | 0 => recurrence_q history g
  | i + 1 =>
    let r := recurrence_r history g gamma i
    match history[i]? with
    | none => r
    | some e =>
      let c := if i = 0 then gamma / e.rho_inv else 1 / e.rho_inv
      let beta := c * inner_product e.y r
      plus r (scale (recurrence_alpha history g i - beta) e.s)

/-- The result `r_k` of the recurrence stated by the specification, with
`gamma = rho_inv_{k-1} / (1e-8 + <y_{k-1}, y_{k-1}>)`; it is stated for a history which is
not empty. -/
def recurrence_two_loop (history : List history_entry) (g : Vec) : Option Vec :=
  match history.getLast? with
  | none => none
  | some last =>
    let gamma := last.rho_inv / (1 / 100000000 + inner_product last.y last.y)
    some (recurrence_r history g gamma history.length)

/-- Modelled from the spec: the enumeration `ILP_input::inequality_type`, whose
declaration is not among the sources; its three enumerators are the ones which the test
file names. -/
inductive inequality_type where
  | equal
  | smaller_equal
  | greater_equal
deriving DecidableEq, Repr

/-- The value returned by `min_cost_impl` when `lhs_begin == lhs_end`: zero if the
right-hand side which is left satisfies the inequality, and infinity otherwise. -/
def min_cost_leaf (ineq : inequality_type) (rhs : Int) : WithTop ℚ :=
  match ineq with
  | inequality_type.equal => if rhs = 0 then 0 else ⊤
  | inequality_type.smaller_equal => if rhs ≥ 0 then 0 else ⊤
  | inequality_type.greater_equal => if rhs ≤ 0 then 0 else ⊤

/-- The function `min_cost_impl` of the test file, on the ranges `[lhs_begin, lhs_end)`,
`[cost_begin, cost_end)` and the part of the solution which starts at `sol_begin`. A
`double` is a rational number or infinity. The result is the value returned, the part of
the solution after the call, and `best_current_sol` after the call. The function is
undefined when the costs or the solution end before the coefficients. -/
def min_cost_impl (ineq : inequality_type) :
    List Int → Int → List ℚ → List Nat → ℚ → WithTop ℚ →
      Option (WithTop ℚ × List Nat × WithTop ℚ)
  | [], rhs, _, sol, _, best_current_sol => some (min_cost_leaf ineq rhs, sol, best_current_sol)
  | a :: lhs, rhs, c :: cost, s :: sol, partial_cost, best_current_sol =>
    match min_cost_impl ineq lhs rhs cost sol partial_cost best_current_sol with
    | none => none
    | some (zero_cost, sol1, best1) =>
      match min_cost_impl ineq lhs (rhs - a) cost sol1 (partial_cost + c) best1 with
      | none => none
      | some (r, sol2, best2) =>
        let one_cost : WithTop ℚ := r + (c : WithTop ℚ)
        let sub_tree_cost := min zero_cost one_cost
        let cur_cost : WithTop ℚ := (partial_cost : WithTop ℚ) + sub_tree_cost
        if cur_cost ≤ best2 then
          some (min zero_cost one_cost, (if zero_cost < one_cost then 0 else 1) :: sol2, cur_cost)
        else
          some (min zero_cost one_cost, s :: sol2, best2)
  | _ :: _, _, _, _, _, _ => none

/-- The function `min_cost` of the test file; its assertion is not enforced. -/
def min_cost (lhs : List Int) (ineq : inequality_type) (rhs : Int) (cost : List ℚ) :
    Option (WithTop ℚ × List Nat) :=
  let sol := List.replicate lhs.length 0
  let opt_val : WithTop ℚ := ⊤
  match min_cost_impl ineq lhs rhs cost sol 0 opt_val with
  | none => none
  | some (_, sol1, opt_val1) => some (opt_val1, sol1)

/-- The left-hand side `sum_i coefficients_i * x_i` of the inequality at `x`. -/
def lhs_value : List Int → List Nat → Int
  | a :: coefficients, b :: x => a * (b : Int) + lhs_value coefficients x
  | _, _ => 0

/-- The objective `sum_i cost_i * x_i` at `x`. -/
def objective : List ℚ → List Nat → ℚ
  | c :: cost, b :: x => c * (b : ℚ) + objective cost x
  | _, _ => 0

/-- The inequality of the given type between a left-hand side and a right-hand side. -/
def inequality_holds (ineq : inequality_type) (value rhs : Int) : Prop :=
  match ineq with
  | inequality_type.equal => value = rhs
  | inequality_type.smaller_equal => value ≤ rhs
  | inequality_type.greater_equal => value ≥ rhs

/-- A feasible 0/1 assignment of the inequality: one entry per coefficient, each of them
`0` or `1`, with the inequality satisfied. -/
def feasible (ineq : inequality_type) (coefficients : List Int) (rhs : Int) (x : List Nat) :
    Prop :=
  x.length = coefficients.length ∧ (∀ b ∈ x, b = 0 ∨ b = 1) ∧
  inequality_holds ineq (lhs_value coefficients x) rhs

/-- A solver like `ascent_solver`, with the lower bound constantly zero. -/
def flat_solver : Solver ℚ where
  nr_layers := fun _ => 2
  lower_bound := fun _ => 0
  net_solver_costs := fun x => [x, 0]
  bdds_solution_vec := fun x => [-x, 0]
  make_dual_feasible := fun _ v => v
  gradient_step := fun x _ c => x + c
  iteration := fun x => x + 1
  update_costs := fun x _ _ => x

/-- The state of an optimizer with `m = 2` on a solver which makes no progress, after
three base iterations and `k` accelerated iterations whose searches failed. -/
def stalled (k : Nat) (o : lbfgs ℚ) : Prop :=
  o.m = 2 ∧ o.history.length = 2 ∧ 2 ≤ o.lb_history.length ∧
  o.num_unsuccessful_lbfgs_updates_ = k ∧ o.mma_iterations = 3 ∧ o.lbfgs_iterations = k ∧
  o.mma_lb_increase_per_time = 0 ∧ o.lbfgs_lb_increase_per_time = 0 ∧
  0 < o.required_relative_lb_increase

/-- The number `floor(log2 n)` for `n >= 1`, and `0` for `n = 0`, by halving at most
`fuel` times. -/
def log2_floor : Nat → Nat → Nat
  | 0, _ => 0
  | fuel + 1, n => if n < 2 then 0 else log2_floor fuel (n / 2) + 1

/-- The exponent `e` of a positive rational `a`: the integer with `2^e <= a < 2^(e+1)`. -/
def binary_exponent (a : ℚ) : Int :=
  let e0 : Int := (log2_floor a.num.natAbs a.num.natAbs : Int) - (log2_floor a.den a.den : Int)
  if (2 : ℚ) ^ e0 ≤ a then e0 else e0 - 1

/-- The integer nearest to a non-negative rational, a tie going to the even one. -/
def round_half_even (q : ℚ) : Int :=
  let f := Rat.floor q
  let r := q - (f : ℚ)
  if r > 1 / 2 ∨ (r = 1 / 2 ∧ f % 2 = 1) then f + 1 else f

/-- The value of type `double` (IEEE 754 binary64, round to nearest, ties to even) which
represents the real number `x`, for `x` zero or in the range of the normal numbers: the
significand holds 53 bits. -/
def round_binary64 (x : ℚ) : ℚ :=
  if x = 0 then 0
  else
    let ulp := (2 : ℚ) ^ (binary_exponent |x| - 52)
    (if x < 0 then -1 else 1) * ((round_half_even (|x| / ulp) : Int) : ℚ) * ulp

/-- The value `past_lb_increase` of the lambda `calculate_rel_change`, the subtraction
being rounded by `fl`. -/
def past_lb_increase_rounded (fl : ℚ → ℚ) (o : lbfgs σ) : Option ℚ :=
  match rbegin_plus o.lb_history ((o.m : Int) - 2), rbegin_plus o.lb_history ((o.m : Int) - 1) with
  | some a, some b => some (fl (a - b))
  | _, _ => none

/-- The lambda `calculate_rel_change` with the result of every arithmetic operation
rounded by `fl`, given the value of `past_lb_increase`. -/
def calculate_rel_change_rounded (fl : ℚ → ℚ) (S : Solver σ) (lb_pre past_lb_increase : ℚ)
    (o : lbfgs σ) : ℚ :=
  let cur_lb_increase := fl (S.lower_bound o.solver - lb_pre)
  fl (cur_lb_increase / fl (fl (1 / 1000000000) + past_lb_increase))

/-- The lambda `apply_update` with the subtraction
`double net_step_size = new_step_size - prev_step_size` rounded by `fl`. -/
def apply_update_rounded (fl : ℚ → ℚ) (S : Solver σ) (update : Vec) (new_step_size : ℚ)
    (p : lbfgs σ × search_locals) : lbfgs σ × search_locals :=
  let net_step_size := fl (new_step_size - p.2.prev_step_size)
  if net_step_size ≠ 0 then
    ({ p.1 with solver := S.gradient_step p.1.solver update net_step_size },
     { p.2 with
       prev_step_size := new_step_size
       gradient_step_scales := p.2.gradient_step_scales ++ [net_step_size] })
  else
    (p.1, { p.2 with prev_step_size := new_step_size })

/-- The first part of the body of the `do`-loop, with the result of every arithmetic
operation rounded by `fl`. -/
def search_trial_rounded (fl : ℚ → ℚ) (S : Solver σ) (update : Vec)
    (lb_pre past_lb_increase : ℚ) (p : lbfgs σ × search_locals) : lbfgs σ × search_locals :=
  let p1 := apply_update_rounded fl S update p.1.step_size p
  let o1 := p1.1
  let curr_rel_change := calculate_rel_change_rounded fl S lb_pre past_lb_increase o1
  let l1 : search_locals :=
    { p1.2 with
      curr_rel_change := curr_rel_change
      trials := p1.2.trials ++ [(o1.step_size, curr_rel_change)] }
  let l2 : search_locals :=
    if l1.best_rel_improvement < curr_rel_change then
      { l1 with best_rel_improvement := curr_rel_change, best_step_size := o1.step_size }
    else l1
  let decreased := fl (o1.step_size * o1.step_size_decrease_factor)
  let increased := fl (o1.step_size * o1.step_size_increase_factor)
  let o2 : lbfgs σ :=
    if curr_rel_change ≤ 0 then { o1 with step_size := decreased }
    else if curr_rel_change < o1.required_relative_lb_increase then
      { o1 with step_size := increased }
    else o1
  (o2, l2)

/-- The block of the `do`-loop guarded by `if (num_updates > 5)`, with the result of
every arithmetic operation rounded by `fl`. -/
def retry_budget_exit_rounded (fl : ℚ → ℚ) (S : Solver σ) (update : Vec)
    (p : lbfgs σ × search_locals) : lbfgs σ × search_locals :=
  if p.2.best_rel_improvement > fl (p.1.required_relative_lb_increase / 10) then
    apply_update_rounded fl S update p.2.best_step_size p
  else
    let p1 := apply_update_rounded fl S update 0 p
    ({ p1.1 with num_unsuccessful_lbfgs_updates_ := p1.1.num_unsuccessful_lbfgs_updates_ + 1 },
     p1.2)

/-- The `do`-loop of `search_step_size_and_apply`, with the result of every arithmetic
operation rounded by `fl`. -/
def search_loop_rounded (fl : ℚ → ℚ) (S : Solver σ) (update : Vec)
    (lb_pre past_lb_increase : ℚ) (num_updates : Nat) (p : lbfgs σ × search_locals) :
    search_exit σ :=
  let r := do_while_loop (search_trial_rounded fl S update lb_pre past_lb_increase)
    (retry_budget_exit_rounded fl S update)
    (fun p1 => p1.2.curr_rel_change < p1.1.required_relative_lb_increase) num_updates p
  ⟨r.1.1, r.1.2, r.2.1, r.2.2⟩

/-- The statements of `search_step_size_and_apply` which follow the `do`-loop, with the
product rounded by `fl`. -/
def search_finish_rounded (fl : ℚ → ℚ) (e : search_exit σ) : lbfgs σ × search_locals :=
  if e.returned then (e.o, e.locals)
  else
    let o := e.o
    let increased := fl (o.step_size * o.step_size_increase_factor)
    let o1 : lbfgs σ :=
      if e.num_updates = 1 ∧ o.num_unsuccessful_lbfgs_updates_ = 0 then
        { o with step_size := increased }
      else o
    ({ o1 with num_unsuccessful_lbfgs_updates_ := 0 }, e.locals)

/-- The method `search_step_size_and_apply` with the result of every arithmetic operation
rounded by `fl`, given the value of `past_lb_increase`: with `fl = round_binary64` this is
the method instantiated with `REAL = double`, and with the identity it is `search_with`. -/
def search_with_rounded (fl : ℚ → ℚ) (S : Solver σ) (update : Vec) (past_lb_increase : ℚ)
    (o : lbfgs σ) : lbfgs σ × search_locals :=
  let lb_pre := S.lower_bound o.solver
  search_finish_rounded fl
    (search_loop_rounded fl S update lb_pre past_lb_increase 0 (o, search_locals.init))

/-- The method `search_step_size_and_apply` with the result of every arithmetic operation
rounded by `fl`. It is undefined when the reads of `lb_history` fall outside of the
deque. -/
def search_step_size_and_apply_rounded (fl : ℚ → ℚ) (S : Solver σ) (update : Vec)
    (o : lbfgs σ) : Option (lbfgs σ × search_locals) :=
  match past_lb_increase_rounded fl o with
  | none => none
  | some past => some (search_with_rounded fl S update past o)

/-- An optimizer with `m = 2` whose parameters are the values of type `double` of the
decimal literals `1e-6` (step size and required relative increase), `1.1` (increase
factor) and of the given decrease factor, on a solver in the state `0`, with a constant
history of lower bounds. -/
def binary64_state (decrease_factor : ℚ) : lbfgs ℚ where
  solver := 0
  history := [⟨[1, 0], [1, 0], 1⟩, ⟨[1, 0], [1, 0], 1⟩]
  prev_x := [0, 0]
  prev_grad_f := [0, 0]
  m := 2
  step_size := round_binary64 (1 / 1000000)
  required_relative_lb_increase := round_binary64 (1 / 1000000)
  step_size_decrease_factor := round_binary64 decrease_factor
  step_size_increase_factor := round_binary64 (11 / 10)
  num_unsuccessful_lbfgs_updates_ := 0
  initial_rho_inv := 1
  lb_history := [0, 0, 0, 0]
  prev_states_stored := true
  initial_rho_inv_valid := true
  mma_lb_increase_per_time := 0
  lbfgs_lb_increase_per_time := 0
  mma_iterations := 3
  lbfgs_iterations := 0

/-- The search with `REAL = double` run from `binary64_state decrease_factor` on a solver
whose lower bound is constantly zero, along the direction `(1, 0)`. -/
def binary64_search (decrease_factor : ℚ) : lbfgs ℚ × search_locals :=
  search_with_rounded round_binary64 (scale_solver (fun _ => 0)) [1, 0] 0
    (binary64_state decrease_factor)

/-! ## The two-loop recursion -/

/-- A history of two curvature pairs in dimension two, each with
`rho_inv = <s, y> > 1e-8`. -/
def two_entry_history : List history_entry :=
  [⟨[1, 0], [1, 0], 1⟩, ⟨[2, 0], [1, 0], 2⟩]

/-- C1, evaluated on the code: for the history `two_entry_history`, whose two entries
have `rho_inv = <s, y> > 1e-8`, and the input `g = (0, 1)`, the method
`compute_update_direction` returns `(0, 1)`, while the reference two-loop recursion,
whose second loop starts from `gamma * q`, returns `(0, 200000000/100000001)`:
the code multiplies by `gamma` the `rho` of the oldest entry only, never `q` itself. -/
theorem compute_update_direction_differs_from_reference :
    (∀ e ∈ two_entry_history, e.rho_inv = inner_product e.s e.y ∧ e.rho_inv > 1 / 100000000) ∧
    compute_update_direction two_entry_history [0, 1] = some [0, 1] ∧
    reference_two_loop two_entry_history [0, 1] = some [0, 200000000 / 100000001] ∧
    compute_update_direction two_entry_history [0, 1] ≠
      reference_two_loop two_entry_history [0, 1] := by
  have h1 : compute_update_direction two_entry_history [0, 1] = some [0, 1] := by
    norm_num [compute_update_direction, two_entry_history, first_loop, first_loop_body,
      second_loop, second_loop_body, inner_product, update_q, update_r, List.enum]
  have h2 : reference_two_loop two_entry_history [0, 1] =
      some [0, 200000000 / 100000001] := by
    norm_num [reference_two_loop, two_entry_history, first_loop, first_loop_body,
      reference_second_loop_body, inner_product, update_q, update_r, scale]
  refine ⟨?_, h1, h2, ?_⟩
  · intro e he
    simp only [two_entry_history, List.mem_cons, List.mem_singleton, List.not_mem_nil,
      or_false] at he
    rcases he with rfl | rfl <;> norm_num [inner_product]
  · rw [h1, h2]
    norm_num

/-! ## The step-size search: the trial and the loop -/

theorem same_parameters_refl (a : lbfgs σ) : same_parameters a a := rfl

theorem same_parameters_trans {a b c : lbfgs σ} (h1 : same_parameters a b)
    (h2 : same_parameters b c) : same_parameters a c := by
  unfold same_parameters at *
  rw [h2, h1]

theorem same_parameters_fields {a b : lbfgs σ} (h : same_parameters a b) :
    b.history = a.history ∧ b.m = a.m ∧ b.lb_history = a.lb_history ∧
    b.required_relative_lb_increase = a.required_relative_lb_increase ∧
    b.step_size_decrease_factor = a.step_size_decrease_factor ∧
    b.step_size_increase_factor = a.step_size_increase_factor ∧
    b.prev_states_stored = a.prev_states_stored ∧
    b.mma_iterations = a.mma_iterations ∧ b.lbfgs_iterations = a.lbfgs_iterations := by
  unfold same_parameters at h
  rw [h]
  exact ⟨rfl, rfl, rfl, rfl, rfl, rfl, rfl, rfl, rfl⟩

theorem apply_update_prev_step_size (S : Solver σ) (update : Vec) (c : ℚ)
    (p : lbfgs σ × search_locals) :
    (apply_update S update c p).2.prev_step_size = c := by
  unfold apply_update
  dsimp only
  split_ifs <;> rfl

theorem apply_update_same_parameters (S : Solver σ) (update : Vec) (c : ℚ)
    (p : lbfgs σ × search_locals) :
    same_parameters p.1 (apply_update S update c p).1 := by
  unfold apply_update
  dsimp only
  split_ifs <;> rfl

theorem apply_update_fields (S : Solver σ) (update : Vec) (c : ℚ)
    (p : lbfgs σ × search_locals) :
    (apply_update S update c p).1.step_size = p.1.step_size ∧
    (apply_update S update c p).1.num_unsuccessful_lbfgs_updates_ =
      p.1.num_unsuccessful_lbfgs_updates_ ∧
    (apply_update S update c p).2.curr_rel_change = p.2.curr_rel_change ∧
    (apply_update S update c p).2.best_step_size = p.2.best_step_size ∧
    (apply_update S update c p).2.best_rel_improvement = p.2.best_rel_improvement ∧
    (apply_update S update c p).2.trials = p.2.trials := by
  unfold apply_update
  dsimp only
  split_ifs <;> exact ⟨rfl, rfl, rfl, rfl, rfl, rfl⟩

/-- The scales passed to `gradient_step` add up to `prev_step_size`. -/
theorem apply_update_scales_sum (S : Solver σ) (update : Vec) (c : ℚ)
    (p : lbfgs σ × search_locals)
    (h : p.2.gradient_step_scales.sum = p.2.prev_step_size) :
    (apply_update S update c p).2.gradient_step_scales.sum = c := by
  unfold apply_update
  dsimp only
  split_ifs with hnet
  · simp only [List.sum_append, List.sum_cons, List.sum_nil, h]
    ring
  · simp only [h]
    push_neg at hnet
    linarith

theorem search_trial_same_parameters (S : Solver σ) (update : Vec) (lb_pre past : ℚ)
    (p : lbfgs σ × search_locals) :
    same_parameters p.1 (search_trial S update lb_pre past p).1 := by
  refine same_parameters_trans (apply_update_same_parameters S update p.1.step_size p) ?_
  unfold search_trial
  dsimp only
  split_ifs <;> rfl

theorem search_trial_locals (S : Solver σ) (update : Vec) (lb_pre past : ℚ)
    (p : lbfgs σ × search_locals) :
    (search_trial S update lb_pre past p).2.prev_step_size = p.1.step_size ∧
    (search_trial S update lb_pre past p).2.curr_rel_change =
      trial_rel_change S update lb_pre past p ∧
    (search_trial S update lb_pre past p).2.trials =
      p.2.trials ++ [(p.1.step_size, trial_rel_change S update lb_pre past p)] ∧
    (search_trial S update lb_pre past p).2.gradient_step_scales =
      (apply_update S update p.1.step_size p).2.gradient_step_scales := by
  have h := apply_update_fields S update p.1.step_size p
  have hp := apply_update_prev_step_size S update p.1.step_size p
  unfold search_trial trial_rel_change
  dsimp only
  split_ifs <;> simp only [h, hp, and_self]

theorem search_trial_object (S : Solver σ) (update : Vec) (lb_pre past : ℚ)
    (p : lbfgs σ × search_locals) :
    (search_trial S update lb_pre past p).1.solver =
      (apply_update S update p.1.step_size p).1.solver ∧
    (search_trial S update lb_pre past p).1.num_unsuccessful_lbfgs_updates_ =
      p.1.num_unsuccessful_lbfgs_updates_ ∧
    (search_trial S update lb_pre past p).1.step_size =
      (if trial_rel_change S update lb_pre past p ≤ 0 then
        p.1.step_size * p.1.step_size_decrease_factor
      else if trial_rel_change S update lb_pre past p < p.1.required_relative_lb_increase then
        p.1.step_size * p.1.step_size_increase_factor
      else p.1.step_size) := by
  have h := apply_update_fields S update p.1.step_size p
  have hs := same_parameters_fields (apply_update_same_parameters S update p.1.step_size p)
  unfold search_trial trial_rel_change
  dsimp only
  simp only [h, hs]
  split_ifs <;> simp only [h, and_self]

theorem search_trial_best (S : Solver σ) (update : Vec) (lb_pre past : ℚ)
    (p : lbfgs σ × search_locals) :
    (search_trial S update lb_pre past p).2.best_rel_improvement =
      (if p.2.best_rel_improvement < trial_rel_change S update lb_pre past p then
        trial_rel_change S update lb_pre past p else p.2.best_rel_improvement) ∧
    (search_trial S update lb_pre past p).2.best_step_size =
      (if p.2.best_rel_improvement < trial_rel_change S update lb_pre past p then
        p.1.step_size else p.2.best_step_size) := by
  have h := apply_update_fields S update p.1.step_size p
  unfold search_trial trial_rel_change
  dsimp only
  simp only [h]
  split_ifs <;> simp only [h, and_self]

theorem retry_budget_exit_same_parameters (S : Solver σ) (update : Vec)
    (p : lbfgs σ × search_locals) :
    same_parameters p.1 (retry_budget_exit S update p).1 := by
  unfold retry_budget_exit
  dsimp only
  split_ifs
  · exact apply_update_same_parameters S update _ p
  · exact same_parameters_trans (apply_update_same_parameters S update 0 p) rfl

theorem retry_budget_exit_commit (S : Solver σ) (update : Vec) (p : lbfgs σ × search_locals)
    (h : p.2.best_rel_improvement > p.1.required_relative_lb_increase / 10) :
    retry_budget_exit S update p = apply_update S update p.2.best_step_size p := by
  unfold retry_budget_exit
  rw [if_pos h]

theorem retry_budget_exit_rollback (S : Solver σ) (update : Vec) (p : lbfgs σ × search_locals)
    (h : ¬ p.2.best_rel_improvement > p.1.required_relative_lb_increase / 10) :
    (retry_budget_exit S update p).1.solver = (apply_update S update 0 p).1.solver ∧
    (retry_budget_exit S update p).1.step_size = p.1.step_size ∧
    (retry_budget_exit S update p).1.num_unsuccessful_lbfgs_updates_ =
      p.1.num_unsuccessful_lbfgs_updates_ + 1 ∧
    (retry_budget_exit S update p).2 = (apply_update S update 0 p).2 := by
  have hf := apply_update_fields S update 0 p
  unfold retry_budget_exit
  rw [if_neg h]
  dsimp only
  simp only [hf, and_self]

/-- One pass of the `do`-loop. -/
theorem search_loop_unfold (S : Solver σ) (update : Vec) (lb_pre past : ℚ) (n : Nat)
    (p : lbfgs σ × search_locals) :
    search_loop S update lb_pre past n p =
      if n > 5 then
        ⟨(retry_budget_exit S update (search_trial S update lb_pre past p)).1,
         (retry_budget_exit S update (search_trial S update lb_pre past p)).2, n, true⟩
      else if (search_trial S update lb_pre past p).2.curr_rel_change <
          (search_trial S update lb_pre past p).1.required_relative_lb_increase then
        search_loop S update lb_pre past (n + 1) (search_trial S update lb_pre past p)
      else
        ⟨(search_trial S update lb_pre past p).1, (search_trial S update lb_pre past p).2,
         n + 1, false⟩ := by
  unfold search_loop
  rw [do_while_loop]
  dsimp only
  split_ifs <;> rfl

theorem search_loop_budget (S : Solver σ) (update : Vec) (lb_pre past : ℚ) (n : Nat)
    (p : lbfgs σ × search_locals) (hn : n > 5) :
    search_loop S update lb_pre past n p =
      ⟨(retry_budget_exit S update (search_trial S update lb_pre past p)).1,
       (retry_budget_exit S update (search_trial S update lb_pre past p)).2, n, true⟩ := by
  rw [search_loop_unfold, if_pos hn]

theorem search_loop_again (S : Solver σ) (update : Vec) (lb_pre past : ℚ) (n : Nat)
    (p : lbfgs σ × search_locals) (hn : n ≤ 5)
    (hc : (search_trial S update lb_pre past p).2.curr_rel_change <
      (search_trial S update lb_pre past p).1.required_relative_lb_increase) :
    search_loop S update lb_pre past n p =
      search_loop S update lb_pre past (n + 1) (search_trial S update lb_pre past p) := by
  rw [search_loop_unfold, if_neg (by omega), if_pos hc]

theorem search_loop_done (S : Solver σ) (update : Vec) (lb_pre past : ℚ) (n : Nat)
    (p : lbfgs σ × search_locals) (hn : n ≤ 5)
    (hc : ¬ (search_trial S update lb_pre past p).2.curr_rel_change <
      (search_trial S update lb_pre past p).1.required_relative_lb_increase) :
    search_loop S update lb_pre past n p =
      ⟨(search_trial S update lb_pre past p).1, (search_trial S update lb_pre past p).2,
       n + 1, false⟩ := by
  rw [search_loop_unfold, if_neg (by omega), if_neg hc]

/-- The shape of a run of the `do`-loop entered with the counter `n`: the loop makes its last
trial from a loop state `q` with the counter `k`; either `k > 5` and the loop ends in the
block of the retry budget, or `k <= 5`, the last trial reached the required relative
change and the loop is left through its condition. A property `Inv` of the loop state which
each unsuccessful trial preserves holds of `q`. -/
theorem search_loop_exit (S : Solver σ) (update : Vec) (lb_pre past : ℚ)
    (Inv : Nat → lbfgs σ × search_locals → Prop)
    (hstep : ∀ n p, Inv n p → n ≤ 5 →
      trial_rel_change S update lb_pre past p < p.1.required_relative_lb_increase →
      Inv (n + 1) (search_trial S update lb_pre past p))
    (n : Nat) (p : lbfgs σ × search_locals) (h : Inv n p) :
    ∃ k q, n ≤ k ∧ (k ≤ 6 ∨ k = n) ∧ Inv k q ∧
      ((5 < k ∧ search_loop S update lb_pre past n p =
          ⟨(retry_budget_exit S update (search_trial S update lb_pre past q)).1,
           (retry_budget_exit S update (search_trial S update lb_pre past q)).2, k, true⟩) ∨
       (k ≤ 5 ∧
         ¬ trial_rel_change S update lb_pre past q < q.1.required_relative_lb_increase ∧
         search_loop S update lb_pre past n p =
          ⟨(search_trial S update lb_pre past q).1, (search_trial S update lb_pre past q).2,
           k + 1, false⟩)) := by
  generalize hd : 6 - n = d
  induction d generalizing n p with
  | zero =>
    have hn : n > 5 := by omega
    refine ⟨n, p, le_refl n, Or.inr rfl, h, Or.inl ⟨hn, ?_⟩⟩
    rw [search_loop_unfold, if_pos hn]
  | succ d ih =>
    have hn : ¬ n > 5 := by omega
    have hcond : (search_trial S update lb_pre past p).2.curr_rel_change <
        (search_trial S update lb_pre past p).1.required_relative_lb_increase ↔
        trial_rel_change S update lb_pre past p < p.1.required_relative_lb_increase := by
      rw [(search_trial_locals S update lb_pre past p).2.1,
        (same_parameters_fields (search_trial_same_parameters S update lb_pre past p)).2.2.2.1]
    by_cases hc : trial_rel_change S update lb_pre past p < p.1.required_relative_lb_increase
    · obtain ⟨k, q, hk, hk6, hq, hres⟩ :=
        ih (n + 1) (search_trial S update lb_pre past p) (hstep n p h (by omega) hc) (by omega)
      have hunfold : search_loop S update lb_pre past n p =
          search_loop S update lb_pre past (n + 1) (search_trial S update lb_pre past p) := by
        rw [search_loop_unfold, if_neg hn, if_pos (hcond.mpr hc)]
      refine ⟨k, q, by omega, Or.inl (by omega), hq, ?_⟩
      rw [hunfold]
      exact hres
    · refine ⟨n, p, le_refl n, Or.inr rfl, h, Or.inr ⟨by omega, hc, ?_⟩⟩
      rw [search_loop_unfold, if_neg hn, if_neg (fun hx => hc (hcond.mp hx))]

theorem search_invariant_init (o : lbfgs σ) :
    search_invariant o 0 (o, search_locals.init) := by
  refine ⟨same_parameters_refl o, rfl, rfl, rfl, ?_, ?_, Or.inl ⟨rfl, rfl⟩⟩
  · intro t ht
    simp [search_locals.init] at ht
  · intro t ht
    simp [search_locals.init] at ht

/-- The state after one more trial satisfies the invariant but for the fact that this
trial may have reached the required relative change. -/
theorem search_invariant_trial (S : Solver σ) (update : Vec) (lb_pre past : ℚ)
    (o : lbfgs σ) (n : Nat) (p : lbfgs σ × search_locals) (h : search_invariant o n p) :
    same_parameters o (search_trial S update lb_pre past p).1 ∧
    (search_trial S update lb_pre past p).1.num_unsuccessful_lbfgs_updates_ =
      o.num_unsuccessful_lbfgs_updates_ ∧
    (search_trial S update lb_pre past p).2.trials.length = n + 1 ∧
    (search_trial S update lb_pre past p).2.gradient_step_scales.sum =
      (search_trial S update lb_pre past p).2.prev_step_size ∧
    (∀ t ∈ (search_trial S update lb_pre past p).2.trials,
      t.2 ≤ (search_trial S update lb_pre past p).2.best_rel_improvement) ∧
    ((search_trial S update lb_pre past p).2.best_rel_improvement = 0 ∧
        (search_trial S update lb_pre past p).2.best_step_size = 0 ∨
      0 < (search_trial S update lb_pre past p).2.best_rel_improvement ∧
        ((search_trial S update lb_pre past p).2.best_step_size,
          (search_trial S update lb_pre past p).2.best_rel_improvement) ∈
          (search_trial S update lb_pre past p).2.trials) := by
  obtain ⟨hsame, hcount, hlen, hsum, -, hle, hbest⟩ := h
  obtain ⟨hprev, -, htrials, hscales⟩ := search_trial_locals S update lb_pre past p
  obtain ⟨-, hcount1, -⟩ := search_trial_object S update lb_pre past p
  obtain ⟨hbr, hbs⟩ := search_trial_best S update lb_pre past p
  have hnonneg : 0 ≤ p.2.best_rel_improvement := by
    rcases hbest with ⟨h0, -⟩ | ⟨hpos, -⟩
    · exact le_of_eq h0.symm
    · exact le_of_lt hpos
  refine ⟨same_parameters_trans hsame (search_trial_same_parameters S update lb_pre past p),
    hcount1.trans hcount, ?_, ?_, ?_, ?_⟩
  · rw [htrials, List.length_append, hlen]
    rfl
  · rw [hscales, hprev]
    exact apply_update_scales_sum S update p.1.step_size p hsum
  · intro t ht
    rw [htrials, List.mem_append, List.mem_singleton] at ht
    rw [hbr]
    rcases ht with ht | rfl
    · have := hle t ht
      split_ifs with hlt
      · exact le_of_lt (lt_of_le_of_lt this hlt)
      · exact this
    · split_ifs with hlt
      · exact le_refl _
      · exact not_lt.mp hlt
  · rw [hbr, hbs, htrials]
    split_ifs with hlt
    · exact Or.inr ⟨lt_of_le_of_lt hnonneg hlt, List.mem_append_right _ (List.mem_singleton.mpr rfl)⟩
    · rcases hbest with h0 | ⟨hpos, hmem⟩
      · exact Or.inl h0
      · exact Or.inr ⟨hpos, List.mem_append_left _ hmem⟩

theorem search_invariant_step (S : Solver σ) (update : Vec) (lb_pre past : ℚ)
    (o : lbfgs σ) (n : Nat) (p : lbfgs σ × search_locals) (h : search_invariant o n p)
    (hc : trial_rel_change S update lb_pre past p < p.1.required_relative_lb_increase) :
    search_invariant o (n + 1) (search_trial S update lb_pre past p) := by
  obtain ⟨h1, h2, h3, h4, h5, h6⟩ := search_invariant_trial S update lb_pre past o n p h
  refine ⟨h1, h2, h3, h4, ?_, h5, h6⟩
  intro t ht
  rw [(search_trial_locals S update lb_pre past p).2.2.1, List.mem_append,
    List.mem_singleton] at ht
  rcases ht with ht | rfl
  · exact h.2.2.2.2.1 t ht
  · rw [← (same_parameters_fields h.1).2.2.2.1]
    exact hc

theorem search_finish_returned (e : search_exit σ) (h : e.returned = true) :
    search_finish e = (e.o, e.locals) := by
  unfold search_finish
  rw [if_pos h]

theorem search_finish_fell_through (e : search_exit σ) (h : e.returned = false) :
    same_parameters e.o (search_finish e).1 ∧
    (search_finish e).1.solver = e.o.solver ∧
    (search_finish e).1.num_unsuccessful_lbfgs_updates_ = 0 ∧
    (search_finish e).2 = e.locals := by
  unfold search_finish
  rw [if_neg (by simp [h])]
  dsimp only
  split_ifs <;> exact ⟨rfl, rfl, rfl, rfl⟩

/-- The three ways in which `search_step_size_and_apply` ends. The last trial is made from
a loop state `q` satisfying the invariant, with the counter `k <= 6`, and leads to the
state `p1`. Either `k <= 5` and the trial reached the required relative change: the search
ends with the state of this trial and resets the number of unsuccessful updates. Or
`k = 6` and the best relative change exceeds a tenth of the required one: the best step
size is applied. Or `k = 6` and the update is taken back with `apply_update(0.0)`, and the
number of unsuccessful updates is incremented. A property `J` of the loop state which
every trial preserves holds of `p1`. -/
theorem search_with_cases (S : Solver σ) (update : Vec) (past : ℚ) (o : lbfgs σ)
    (J : lbfgs σ × search_locals → Prop) (hJ0 : J (o, search_locals.init))
    (hJ : ∀ p, J p → J (search_trial S update (S.lower_bound o.solver) past p)) :
    ∃ (k : Nat) (q p1 : lbfgs σ × search_locals),
      k ≤ 6 ∧ search_invariant o k q ∧ J p1 ∧
      p1 = search_trial S update (S.lower_bound o.solver) past q ∧
      (search_with S update past o).2.trials = p1.2.trials ∧
      same_parameters o (search_with S update past o).1 ∧
      (search_with S update past o).2.gradient_step_scales.sum =
        (search_with S update past o).2.prev_step_size ∧
      ((k ≤ 5 ∧ ¬ p1.2.curr_rel_change < o.required_relative_lb_increase ∧
          (search_with S update past o).2.prev_step_size = q.1.step_size ∧
          (search_with S update past o).1.num_unsuccessful_lbfgs_updates_ = 0 ∧
          (search_with S update past o).1.solver = p1.1.solver) ∨
        (k = 6 ∧ p1.2.best_rel_improvement > o.required_relative_lb_increase / 10 ∧
          (search_with S update past o).2.prev_step_size = p1.2.best_step_size ∧
          (search_with S update past o).1.num_unsuccessful_lbfgs_updates_ =
            o.num_unsuccessful_lbfgs_updates_ ∧
          (search_with S update past o).1.solver =
            (apply_update S update p1.2.best_step_size p1).1.solver ∧
          (search_with S update past o).1.step_size = p1.1.step_size) ∨
        (k = 6 ∧ ¬ p1.2.best_rel_improvement > o.required_relative_lb_increase / 10 ∧
          (search_with S update past o).2.prev_step_size = 0 ∧
          (search_with S update past o).1.num_unsuccessful_lbfgs_updates_ =
            o.num_unsuccessful_lbfgs_updates_ + 1 ∧
          (search_with S update past o).1.solver = (apply_update S update 0 p1).1.solver ∧
          (search_with S update past o).1.step_size = p1.1.step_size)) := by
  obtain ⟨k, q, -, hk, ⟨hq, hJq⟩, hres⟩ :=
    search_loop_exit S update (S.lower_bound o.solver) past
      (fun n p => search_invariant o n p ∧ J p)
      (fun n p h _ hc =>
        ⟨search_invariant_step S update (S.lower_bound o.solver) past o n p h.1 hc, hJ p h.2⟩)
      0 (o, search_locals.init) ⟨search_invariant_init o, hJ0⟩
  obtain ⟨h1, h2, -, h4, -, -⟩ :=
    search_invariant_trial S update (S.lower_bound o.solver) past o k q hq
  have hreq := (same_parameters_fields h1).2.2.2.1
  have hcurr := (search_trial_locals S update (S.lower_bound o.solver) past q).2.1
  have hprev := (search_trial_locals S update (S.lower_bound o.solver) past q).1
  have hqreq := (same_parameters_fields hq.1).2.2.2.1
  refine ⟨k, q, search_trial S update (S.lower_bound o.solver) past q, by omega, hq, hJ q hJq,
    rfl, ?_⟩
  unfold search_with
  dsimp only
  rcases hres with ⟨hk5, hloop⟩ | ⟨hk5, hc, hloop⟩
  · rw [hloop, search_finish_returned _ rfl]
    dsimp only
    by_cases hb : (search_trial S update (S.lower_bound o.solver) past q).2.best_rel_improvement >
        (search_trial S update (S.lower_bound o.solver) past q).1.required_relative_lb_increase / 10
    · have hf := apply_update_fields S update
        (search_trial S update (S.lower_bound o.solver) past q).2.best_step_size
        (search_trial S update (S.lower_bound o.solver) past q)
      rw [retry_budget_exit_commit S update _ hb]
      refine ⟨hf.2.2.2.2.2, same_parameters_trans h1 (apply_update_same_parameters S update _ _),
        ?_, Or.inr (Or.inl ⟨by omega, ?_, apply_update_prev_step_size S update _ _, ?_, rfl,
          hf.1⟩)⟩
      · rw [apply_update_scales_sum S update _ _ h4, apply_update_prev_step_size]
      · rw [← hreq]
        exact hb
      · rw [hf.2.1, h2]
    · obtain ⟨r1, r2, r3, r4⟩ := retry_budget_exit_rollback S update _ hb
      have hf := apply_update_fields S update 0
        (search_trial S update (S.lower_bound o.solver) past q)
      refine ⟨?_, same_parameters_trans h1 (retry_budget_exit_same_parameters S update _),
        ?_, Or.inr (Or.inr ⟨by omega, ?_, ?_, ?_, r1, r2⟩)⟩
      · rw [r4, hf.2.2.2.2.2]
      · rw [r4, apply_update_scales_sum S update _ _ h4, apply_update_prev_step_size]
      · rw [← hreq]
        exact hb
      · rw [r4, apply_update_prev_step_size]
      · rw [r3, h2]
  · obtain ⟨f1, f2, f3, f4⟩ := search_finish_fell_through
      (⟨(search_trial S update (S.lower_bound o.solver) past q).1,
        (search_trial S update (S.lower_bound o.solver) past q).2, k + 1, false⟩ : search_exit σ)
      rfl
    rw [hloop]
    refine ⟨?_, same_parameters_trans h1 f1, ?_, Or.inl ⟨hk5, ?_, ?_, f3, f2⟩⟩
    · rw [f4]
    · rw [f4]
      exact h4
    · rw [hcurr, ← hqreq]
      exact hc
    · rw [f4]
      exact hprev

/-! ## The step-size search: its properties -/

theorem rbegin_plus_some (d : List ℚ) (k : Int) (h0 : 0 ≤ k) (hk : k.toNat < d.length) :
    ∃ x, rbegin_plus d k = some x := by
  unfold rbegin_plus
  rw [if_neg (not_lt.mpr h0)]
  cases h : d.reverse[k.toNat]? with
  | none =>
    rw [List.getElem?_eq_none_iff, List.length_reverse] at h
    omega
  | some x => exact ⟨x, rfl⟩

/-- The reads of `lb_history` are inside of the deque when it holds at least `m > 1`
entries. -/
theorem past_lb_increase_some (o : lbfgs σ) (hm : 1 < o.m) (hlb : o.m ≤ o.lb_history.length) :
    ∃ past, past_lb_increase o = some past := by
  obtain ⟨a, ha⟩ := rbegin_plus_some o.lb_history ((o.m : Int) - 2) (by omega) (by omega)
  obtain ⟨b, hb⟩ := rbegin_plus_some o.lb_history ((o.m : Int) - 1) (by omega) (by omega)
  refine ⟨a - b, ?_⟩
  unfold past_lb_increase
  rw [ha, hb]

theorem search_with_trials_length (S : Solver σ) (update : Vec) (past : ℚ) (o : lbfgs σ) :
    (search_with S update past o).2.trials.length ≤ 7 := by
  obtain ⟨k, q, p1, hk, hq, -, hp1, htrials, -⟩ :=
    search_with_cases S update past o (fun _ => True) trivial (fun _ _ => trivial)
  have hlen := (search_invariant_trial S update (S.lower_bound o.solver) past o k q hq).2.2.1
  rw [htrials, hp1, hlen]
  omega

/-- C5: a call of `search_step_size_and_apply` in a state in which its reads of `lb_history`
are defined (`m > 1` and at least `m` entries) returns after at most 7 trials, that is,
at most 7 evaluations of the relative change, for every solver, direction and state; and
7 trials are made for the solver with a constant lower bound. -/
theorem search_makes_at_most_seven_trials (S : Solver σ) (update : Vec) (o : lbfgs σ)
    (hm : 1 < o.m) (hlb : o.m ≤ o.lb_history.length) :
    (∃ r, search_step_size_and_apply S update o = some r ∧ r.2.trials.length ≤ 7) ∧
    (∃ r, search_step_size_and_apply (scale_solver (fun _ => 0)) [1, 1]
        (sample_state 0 two_entry_history 0 0 0 0 0) = some r ∧ r.2.trials.length = 7) := by
  constructor
  · obtain ⟨past, hpast⟩ := past_lb_increase_some o hm hlb
    refine ⟨search_with S update past o, ?_, search_with_trials_length S update past o⟩
    unfold search_step_size_and_apply
    rw [hpast]
  · obtain ⟨past, hpast⟩ := past_lb_increase_some
      (sample_state (0 : ℚ) two_entry_history 0 0 0 0 0) (by decide) (by decide)
    refine ⟨search_with (scale_solver (fun _ => 0)) [1, 1] past
      (sample_state 0 two_entry_history 0 0 0 0 0), ?_, ?_⟩
    · unfold search_step_size_and_apply
      rw [hpast]
    · norm_num [search_with, search_loop_again, search_loop_budget, search_trial, apply_update,
        calculate_rel_change, retry_budget_exit, search_finish, sample_state, scale_solver,
        search_locals.init]

/-- C5 at a concrete state: the search for the solver with the lower bound
`narrow_lower_bound` returns after at most 7 trials. -/
theorem search_makes_at_most_seven_trials_witness :
    ∃ r, search_step_size_and_apply (scale_solver narrow_lower_bound) [1, 1]
      (sample_state 0 two_entry_history 1 0 0 0 0) = some r ∧ r.2.trials.length ≤ 7 :=
  (search_makes_at_most_seven_trials (scale_solver narrow_lower_bound) [1, 1]
    (sample_state 0 two_entry_history 1 0 0 0 0) (by decide) (by decide)).1

theorem search_step_size_and_apply_eq (S : Solver σ) (update : Vec) (o : lbfgs σ)
    (hm : 1 < o.m) (hlb : o.m ≤ o.lb_history.length) :
    ∃ past, past_lb_increase o = some past ∧
      search_step_size_and_apply S update o = some (search_with S update past o) := by
  obtain ⟨past, hpast⟩ := past_lb_increase_some o hm hlb
  refine ⟨past, hpast, ?_⟩
  unfold search_step_size_and_apply
  rw [hpast]

/-- The step size stays positive during the search, and so do the step sizes of the
trials. -/
theorem search_trial_positive (S : Solver σ) (update : Vec) (lb_pre past : ℚ) (o : lbfgs σ)
    (hdec : 0 < o.step_size_decrease_factor) (hinc : 0 < o.step_size_increase_factor)
    (p : lbfgs σ × search_locals)
    (h : same_parameters o p.1 ∧ 0 < p.1.step_size ∧ ∀ t ∈ p.2.trials, 0 < t.1) :
    same_parameters o (search_trial S update lb_pre past p).1 ∧
    0 < (search_trial S update lb_pre past p).1.step_size ∧
    ∀ t ∈ (search_trial S update lb_pre past p).2.trials, 0 < t.1 := by
  obtain ⟨hsame, hpos, htr⟩ := h
  obtain ⟨-, -, -, -, hd, hi, -⟩ := same_parameters_fields hsame
  refine ⟨same_parameters_trans hsame (search_trial_same_parameters S update lb_pre past p),
    ?_, ?_⟩
  · rw [(search_trial_object S update lb_pre past p).2.2]
    split_ifs
    · rw [hd]
      exact mul_pos hpos hdec
    · rw [hi]
      exact mul_pos hpos hinc
    · exact hpos
  · intro t ht
    rw [(search_trial_locals S update lb_pre past p).2.2.1, List.mem_append,
      List.mem_singleton] at ht
    rcases ht with ht | rfl
    · exact htr t ht
    · exact hpos

/-- C8, amended: in exact arithmetic, for every run of `search_step_size_and_apply` started
with `step_size > 0` and factors satisfying the constructor preconditions, in a state in
which the reads of `lb_history` are defined, the sum of all scales passed to
`gradient_step` during the search is `>= 0` on return. -/
theorem search_net_scale_nonneg (S : Solver σ) (update : Vec) (o : lbfgs σ)
    (hstep : 0 < o.step_size)
    (hdec : 0 < o.step_size_decrease_factor ∧ o.step_size_decrease_factor < 1)
    (hinc : 1 < o.step_size_increase_factor)
    (hm : 1 < o.m) (hlb : o.m ≤ o.lb_history.length) :
    ∃ r, search_step_size_and_apply S update o = some r ∧
      0 ≤ r.2.gradient_step_scales.sum := by
  obtain ⟨past, -, hsearch⟩ := search_step_size_and_apply_eq S update o hm hlb
  refine ⟨search_with S update past o, hsearch, ?_⟩
  obtain ⟨k, q, p1, -, hq, ⟨-, -, hJ⟩, hp1, htrials, -, hsum, hcases⟩ :=
    search_with_cases S update past o
      (fun p => same_parameters o p.1 ∧ 0 < p.1.step_size ∧ ∀ t ∈ p.2.trials, 0 < t.1)
      ⟨same_parameters_refl o, hstep, by simp [search_locals.init]⟩
      (search_trial_positive S update (S.lower_bound o.solver) past o hdec.1
        (lt_trans zero_lt_one hinc))
  have hinv := search_invariant_trial S update (S.lower_bound o.solver) past o k q hq
  rw [← hp1] at hinv
  rw [hsum]
  rcases hcases with ⟨-, -, hprev, -⟩ | ⟨-, -, hprev, -⟩ | ⟨-, -, hprev, -⟩
  · rw [hprev]
    have hmem : (q.1.step_size, trial_rel_change S update (S.lower_bound o.solver) past q) ∈
        p1.2.trials := by
      rw [hp1, (search_trial_locals S update (S.lower_bound o.solver) past q).2.2.1]
      exact List.mem_append_right _ (List.mem_singleton.mpr rfl)
    exact le_of_lt (hJ _ hmem)
  · rw [hprev]
    rcases hinv.2.2.2.2.2 with ⟨-, h0⟩ | ⟨-, hmem⟩
    · exact le_of_eq h0.symm
    · exact le_of_lt (hJ _ hmem)
  · exact le_of_eq hprev.symm

/-- C8, amended, at a concrete state: the search for the solver with the lower bound
`narrow_lower_bound`, started with the default parameters. -/
theorem search_net_scale_nonneg_witness :
    ∃ r, search_step_size_and_apply (scale_solver narrow_lower_bound) [1, 1]
      (sample_state 0 two_entry_history 1 0 0 0 0) = some r ∧
      0 ≤ r.2.gradient_step_scales.sum :=
  search_net_scale_nonneg (scale_solver narrow_lower_bound) [1, 1]
    (sample_state 0 two_entry_history 1 0 0 0 0) (by norm_num [sample_state])
    (by norm_num [sample_state]) (by norm_num [sample_state]) (by decide) (by decide)

/-- C6, amended: in exact arithmetic, in `search_step_size_and_apply` (with
`required_relative_lb_increase > 0`, in a state in which the reads of `lb_history` are
defined), if the first 6 trials all yield a ratio below
`required_relative_lb_increase`, then on return: when some ratio exceeds
`required_relative_lb_increase / 10`, the sum of all scales passed to `gradient_step` is
the step size of a trial whose ratio is the largest one; and when no ratio does, this sum
is `0` and `num_unsuccessful_lbfgs_updates_` has increased by exactly 1. -/
theorem search_retry_budget (S : Solver σ) (update : Vec) (o : lbfgs σ)
    (hreq : 0 < o.required_relative_lb_increase)
    (hm : 1 < o.m) (hlb : o.m ≤ o.lb_history.length) :
    ∃ r, search_step_size_and_apply S update o = some r ∧
      ((∀ i < 6, ∀ t, r.2.trials[i]? = some t → t.2 < o.required_relative_lb_increase) →
        ((∃ t ∈ r.2.trials, t.2 > o.required_relative_lb_increase / 10) →
          ∃ t ∈ r.2.trials, (∀ t' ∈ r.2.trials, t'.2 ≤ t.2) ∧
            r.2.gradient_step_scales.sum = t.1) ∧
        ((∀ t ∈ r.2.trials, t.2 ≤ o.required_relative_lb_increase / 10) →
          r.2.gradient_step_scales.sum = 0 ∧
          r.1.num_unsuccessful_lbfgs_updates_ = o.num_unsuccessful_lbfgs_updates_ + 1)) := by
  obtain ⟨past, -, hsearch⟩ := search_step_size_and_apply_eq S update o hm hlb
  refine ⟨search_with S update past o, hsearch, ?_⟩
  obtain ⟨k, q, p1, -, hq, -, hp1, htrials, -, hsum, hcases⟩ :=
    search_with_cases S update past o (fun _ => True) trivial (fun _ _ => trivial)
  obtain ⟨-, -, -, -, hle, hbest⟩ :=
    search_invariant_trial S update (S.lower_bound o.solver) past o k q hq
  obtain ⟨-, hcurr, hqtrials, -⟩ := search_trial_locals S update (S.lower_bound o.solver) past q
  rw [← hp1] at hle hbest hcurr hqtrials
  intro hfail
  rw [hsum, htrials]
  rw [htrials] at hfail
  rcases hcases with ⟨hk5, hc, -⟩ | ⟨-, hb, hprev, -⟩ | ⟨-, hb, hprev, hcount, -⟩
  · exfalso
    apply hc
    rw [hcurr]
    refine hfail k (by omega)
      (q.1.step_size, trial_rel_change S update (S.lower_bound o.solver) past q) ?_
    rw [hqtrials, ← hq.2.2.1]
    simp
  · constructor
    · intro _
      rcases hbest with ⟨h0, -⟩ | ⟨-, hmem⟩
      · rw [h0] at hb
        linarith
      · exact ⟨_, hmem, hle, hprev⟩
    · intro hall
      exfalso
      rcases hbest with ⟨h0, -⟩ | ⟨-, hmem⟩
      · rw [h0] at hb
        linarith
      · exact absurd (hall _ hmem) (not_le.mpr hb)
  · constructor
    · rintro ⟨t, ht, hgt⟩
      exact absurd (lt_of_lt_of_le hgt (hle t ht)) hb
    · intro _
      exact ⟨hprev, hcount⟩

/-- The result of the search started from the sample state, with one unsuccessful
update, for the solver with a constant lower bound. -/
theorem search_constant_lower_bound :
    ∃ r, search_step_size_and_apply (scale_solver (fun _ => 0)) [1, 1]
        (sample_state 0 two_entry_history 1 0 0 0 0) = some r ∧
      r.2.trials = [(1 / 1000000, 0), (1 / 1250000, 0), (1 / 1562500, 0), (1 / 1953125, 0),
        (4 / 9765625, 0), (16 / 48828125, 0), (64 / 244140625, 0)] := by
  refine ⟨search_with (scale_solver (fun _ => 0)) [1, 1] 1
    (sample_state 0 two_entry_history 1 0 0 0 0), ?_, ?_⟩
  · norm_num [search_step_size_and_apply, past_lb_increase, rbegin_plus, sample_state]
  · norm_num [search_with, search_loop_again, search_loop_budget, search_trial, apply_update,
      calculate_rel_change, retry_budget_exit, search_finish, sample_state, scale_solver,
      search_locals.init]

/-- C6, amended, at a concrete state: in exact arithmetic, for the solver with a constant
lower bound all trials yield the ratio zero, the update is taken back and the number of
unsuccessful updates goes from 1 to 2. -/
theorem search_retry_budget_witness :
    ∃ r, search_step_size_and_apply (scale_solver (fun _ => 0)) [1, 1]
        (sample_state 0 two_entry_history 1 0 0 0 0) = some r ∧
      r.2.gradient_step_scales.sum = 0 ∧ r.1.num_unsuccessful_lbfgs_updates_ = 2 := by
  obtain ⟨r, hr, h⟩ := search_retry_budget (scale_solver (fun _ => 0)) [1, 1]
    (sample_state 0 two_entry_history 1 0 0 0 0) (by norm_num [sample_state]) (by decide)
    (by decide)
  obtain ⟨r', hr', htrials⟩ := search_constant_lower_bound
  rw [hr] at hr'
  cases hr'
  refine ⟨r, hr, (h ?_).2 ?_⟩
  · intro i hi t ht
    have hmem := List.getElem?_mem ht
    rw [htrials] at hmem
    simp only [List.mem_cons, List.mem_singleton, List.not_mem_nil, or_false] at hmem
    rcases hmem with rfl | rfl | rfl | rfl | rfl | rfl | rfl <;> norm_num [sample_state]
  · intro t hmem
    rw [htrials] at hmem
    simp only [List.mem_cons, List.mem_singleton, List.not_mem_nil, or_false] at hmem
    rcases hmem with rfl | rfl | rfl | rfl | rfl | rfl | rfl <;> norm_num [sample_state]

theorem push_history_length (history : List history_entry) (m : Nat) (e : history_entry)
    (h : history.length ≤ m) :
    (push_history history m e).length ≤ m ∧
    (push_history history m e).length ≤ history.length + 1 := by
  unfold push_history
  dsimp only
  split_ifs with hgt
  · rw [List.length_tail, List.length_append, List.length_singleton]
    omega
  · rw [List.length_append, List.length_singleton] at hgt ⊢
    omega

theorem mem_push_history (history : List history_entry) (m : Nat) (e x : history_entry)
    (h : x ∈ push_history history m e) : x ∈ history ∨ x = e := by
  unfold push_history at h
  dsimp only at h
  split_ifs at h
  · have := List.mem_of_mem_tail h
    rw [List.mem_append, List.mem_singleton] at this
    exact this
  · rw [List.mem_append, List.mem_singleton] at h
    exact h

/-- What `store_iterate` does to the history: it leaves it unchanged, or it pushes an entry
with `rho_inv = <s, y> > 1e-8`. -/
theorem store_iterate_history (S : Solver σ) (o : lbfgs σ) :
    (store_iterate S o).m = o.m ∧ (store_iterate S o).lb_history = o.lb_history ∧
    (store_iterate S o).solver = o.solver ∧
    ((store_iterate S o).history = o.history ∨
      ∃ e : history_entry, e.rho_inv > 1 / 100000000 ∧ e.rho_inv = inner_product e.s e.y ∧
        (store_iterate S o).history = push_history o.history o.m e) := by
  unfold store_iterate
  dsimp only
  split_ifs <;>
    first
    | exact ⟨rfl, rfl, rfl, Or.inl rfl⟩
    | exact ⟨rfl, rfl, rfl, Or.inr ⟨⟨minus (S.net_solver_costs o.solver) o.prev_x,
        minus o.prev_grad_f (S.bdds_solution_vec o.solver), _⟩, by assumption, rfl, rfl⟩⟩

theorem store_iterate_invariant (S : Solver σ) (m : Nat) (o : lbfgs σ)
    (h : o.m = m ∧ o.history.length ≤ m ∧
      ∀ e ∈ o.history, e.rho_inv > 1 / 100000000 ∧ e.rho_inv = inner_product e.s e.y) :
    (store_iterate S o).m = m ∧ (store_iterate S o).history.length ≤ m ∧
    (store_iterate S o).history.length ≤ o.history.length + 1 ∧
    ∀ e ∈ (store_iterate S o).history,
      e.rho_inv > 1 / 100000000 ∧ e.rho_inv = inner_product e.s e.y := by
  obtain ⟨hm, hlen, hall⟩ := h
  obtain ⟨h1, -, -, h4⟩ := store_iterate_history S o
  rcases h4 with h4 | ⟨e, he1, he2, h4⟩
  · rw [h4, h1]
    exact ⟨hm, hlen, Nat.le_succ _, hall⟩
  · rw [h4, h1, hm]
    obtain ⟨p1, p2⟩ := push_history_length o.history m e hlen
    refine ⟨rfl, p1, p2, ?_⟩
    intro x hx
    rcases mem_push_history o.history m e x hx with hx | rfl
    · exact hall x hx
    · exact ⟨he1, he2⟩

theorem compute_update_direction_some (history : List history_entry) (g : Vec)
    (h : history ≠ []) : ∃ d, compute_update_direction history g = some d := by
  unfold compute_update_direction
  cases hl : history.getLast? with
  | none => exact absurd (List.getLast?_eq_none_iff.mp hl) h
  | some back => exact ⟨_, rfl⟩

theorem search_step_size_and_apply_same_parameters (S : Solver σ) (update : Vec)
    (o : lbfgs σ) (r : lbfgs σ × search_locals)
    (h : search_step_size_and_apply S update o = some r) : same_parameters o r.1 := by
  unfold search_step_size_and_apply at h
  cases hp : past_lb_increase o with
  | none =>
    rw [hp] at h
    cases h
  | some past =>
    rw [hp] at h
    cases h
    obtain ⟨k, q, p1, -, -, -, -, -, hsame, -⟩ :=
      search_with_cases S update past o (fun _ => True) trivial (fun _ _ => trivial)
    exact hsame

/-- The accelerated iteration is defined when the history is not empty and `lb_history`
holds at least `m > 1` entries; it changes neither the history nor `m` nor `lb_history`. -/
theorem lbfgs_iteration_history (S : Solver σ) (dt : ℚ) (o : lbfgs σ)
    (hne : o.history ≠ []) (hm : 1 < o.m) (hlb : o.m ≤ o.lb_history.length) :
    ∃ o1, lbfgs_iteration S dt o = some o1 ∧ o1.history = o.history ∧ o1.m = o.m ∧
      o1.lb_history = o.lb_history := by
  obtain ⟨d, hd⟩ := compute_update_direction_some o.history (S.bdds_solution_vec o.solver) hne
  obtain ⟨past, -, hs⟩ :=
    search_step_size_and_apply_eq S (S.make_dual_feasible o.solver d) o hm hlb
  obtain ⟨h1, h2, h3, -⟩ := same_parameters_fields
    (search_step_size_and_apply_same_parameters S _ o _ hs)
  unfold lbfgs_iteration
  dsimp only
  rw [hd]
  dsimp only
  rw [hs]
  exact ⟨_, rfl, h1, h2, h3⟩

theorem choose_solver_possible_false (o : lbfgs σ) (h : lbfgs_update_possible o = false) :
    choose_solver o = solver_type.mma := by
  unfold choose_solver
  rw [h]
  rfl

theorem choose_solver_lbfgs_history (o : lbfgs σ) (h : choose_solver o = solver_type.lbfgs) :
    o.m ≤ o.history.length := by
  by_contra hlt
  have hp : lbfgs_update_possible o = false := by
    unfold lbfgs_update_possible
    rw [if_pos (Or.inl (by omega))]
  rw [(choose_solver_possible_false o hp)] at h
  cases h

/-- The step chosen by `iteration` is defined and changes neither the history nor `m`
nor `lb_history`. -/
theorem iteration_step_history (S : Solver σ) (dt : ℚ) (o : lbfgs σ) (hm : 1 < o.m)
    (hle : o.history.length ≤ o.lb_history.length) :
    ∃ o2, (if choose_solver o = solver_type.lbfgs then lbfgs_iteration S dt o
        else some (mma_iteration S dt o)) = some o2 ∧
      o2.history = o.history ∧ o2.m = o.m ∧ o2.lb_history = o.lb_history := by
  split_ifs with hc
  · have hlen := choose_solver_lbfgs_history o hc
    have hne : o.history ≠ [] := by
      intro h0
      rw [h0] at hlen
      simp only [List.length_nil] at hlen
      omega
    exact lbfgs_iteration_history S dt o hne hm (le_trans hlen hle)
  · exact ⟨_, rfl, rfl, rfl, rfl⟩

/-- A call of `iteration` is defined and maintains the invariant. -/
theorem iteration_invariant (S : Solver σ) (dt : ℚ) (m : Nat) (hm : 1 < m) (o : lbfgs σ)
    (h : history_invariant m o) :
    ∃ o1, iteration S dt o = some o1 ∧ history_invariant m o1 := by
  obtain ⟨h1, h2, h3, h4⟩ := h
  unfold iteration
  dsimp only
  set o0 : lbfgs σ := (if o.lb_history.isEmpty = true then
    { o with lb_history := o.lb_history ++ [S.lower_bound o.solver] } else o) with ho0
  have hf : o0.history = o.history ∧ o0.m = o.m ∧
      o.lb_history.length ≤ o0.lb_history.length := by
    rw [ho0]
    split_ifs
    · refine ⟨rfl, rfl, ?_⟩
      show o.lb_history.length ≤ (o.lb_history ++ [S.lower_bound o.solver]).length
      rw [List.length_append]
      exact Nat.le_add_right _ _
    · exact ⟨rfl, rfl, le_refl _⟩
  obtain ⟨o2, hstep, g1, g2, g3⟩ := iteration_step_history S dt o0 (by rw [hf.2.1, h1]; exact hm)
    (by rw [hf.1]; exact le_trans h3 hf.2.2)
  rw [hstep]
  dsimp only
  obtain ⟨s1, s2, s3, s4⟩ := store_iterate_invariant S m o2
    ⟨by rw [g2, hf.2.1, h1], by rw [g1, hf.1]; exact h2, by rw [g1, hf.1]; exact h4⟩
  refine ⟨_, rfl, s1, s2, ?_, s4⟩
  show (store_iterate S o2).history.length ≤
    ((store_iterate S o2).lb_history ++ [S.lower_bound (store_iterate S o2).solver]).length
  rw [List.length_append, (store_iterate_history S o2).2.1, g3, List.length_singleton]
  rw [g1, hf.1] at s3
  omega

theorem update_costs_invariant (S : Solver σ) (c0 c1 : Vec) (m : Nat) (o : lbfgs σ)
    (h : history_invariant m o) : history_invariant m (update_costs S o c0 c1) := by
  refine ⟨h.1, Nat.zero_le _, Nat.zero_le _, ?_⟩
  intro e he
  simp [update_costs, flush_lbfgs_states] at he

/-- Every sequence of calls of the public methods is defined and maintains the
invariant. -/
theorem run_invariant (S : Solver σ) (m : Nat) (hm : 1 < m) (calls : List call)
    (o : lbfgs σ) (h : history_invariant m o) :
    ∃ o1, run S o calls = some o1 ∧ history_invariant m o1 := by
  induction calls generalizing o with
  | nil => exact ⟨o, rfl, h⟩
  | cons c cs ih =>
    have hc : ∃ o1, c.apply S o = some o1 ∧ history_invariant m o1 := by
      cases c with
      | iteration dt => exact iteration_invariant S dt m hm o h
      | update_costs c0 c1 => exact ⟨_, rfl, update_costs_invariant S c0 c1 m o h⟩
    obtain ⟨o1, h1, hinv⟩ := hc
    obtain ⟨o2, h2, hinv2⟩ := ih o1 hinv
    refine ⟨o2, ?_, hinv2⟩
    rw [run, h1]
    exact h2

theorem construct_invariant (S : Solver σ) (solver : σ) (m : Nat)
    (step req dec inc : ℚ) :
    history_invariant m (lbfgs.construct S solver m step req dec inc) := by
  refine ⟨rfl, Nat.zero_le _, Nat.zero_le _, ?_⟩
  intro e he
  simp [lbfgs.construct] at he

/-- C2: in every state reached from construction (with `m > 1`) by any sequence of
`iteration()` and `update_costs()` calls, for every behaviour of the base solver, every
such sequence of calls being defined, the history holds at most `m` entries. -/
theorem history_size_at_most_m (S : Solver σ) (solver : σ) (m : Nat)
    (step req dec inc : ℚ) (hm : 1 < m) (calls : List call) :
    ∃ o, run S (lbfgs.construct S solver m step req dec inc) calls = some o ∧
      o.m = m ∧ o.history.length ≤ m := by
  obtain ⟨o, hrun, h1, h2, -, -⟩ := run_invariant S m hm calls _
    (construct_invariant S solver m step req dec inc)
  exact ⟨o, hrun, h1, h2⟩

/-- C2 at a concrete run: five iterations and a change of the costs, with `m = 2`. -/
theorem history_size_at_most_m_witness :
    ∃ o, run ascent_solver
        (lbfgs.construct ascent_solver 0 2 (1 / 1000000) (1 / 1000000) (4 / 5) (11 / 10))
        [call.iteration 1, call.iteration 1, call.iteration 1, call.iteration 1,
          call.update_costs [1, 0] [0, 1], call.iteration 2] = some o ∧
      o.m = 2 ∧ o.history.length ≤ 2 :=
  history_size_at_most_m ascent_solver 0 2 (1 / 1000000) (1 / 1000000) (4 / 5) (11 / 10)
    (by decide) _

/-- C3: in every state reached from construction (with `m > 1`) by any sequence of
`iteration()` and `update_costs()` calls, every entry `e` stored in the history satisfies
`e.rho_inv > 1e-8` and `e.rho_inv = <e.s, e.y>`; and `store_iterate`, in any state, leaves
the history as it is when the inner product of the pair is `<= 1e-8`. -/
theorem history_entries_positive_curvature (S : Solver σ) (solver : σ) (m : Nat)
    (step req dec inc : ℚ) (hm : 1 < m) (calls : List call) :
    (∃ o, run S (lbfgs.construct S solver m step req dec inc) calls = some o ∧
      ∀ e ∈ o.history, e.rho_inv > 1 / 100000000 ∧ e.rho_inv = inner_product e.s e.y) ∧
    (∀ o : lbfgs σ,
      inner_product (minus (S.net_solver_costs o.solver) o.prev_x)
        (minus o.prev_grad_f (S.bdds_solution_vec o.solver)) ≤ 1 / 100000000 →
      (store_iterate S o).history = o.history) := by
  constructor
  · obtain ⟨o, hrun, -, -, -, h4⟩ := run_invariant S m hm calls _
      (construct_invariant S solver m step req dec inc)
    exact ⟨o, hrun, h4⟩
  · intro o hle
    unfold store_iterate
    dsimp only
    rw [if_neg (not_lt.mpr hle)]
    split_ifs <;> rfl

/-- C3 at a concrete run: five iterations and a change of the costs, with `m = 2`. -/
theorem history_entries_positive_curvature_witness :
    ∃ o, run ascent_solver
        (lbfgs.construct ascent_solver 0 2 (1 / 1000000) (1 / 1000000) (4 / 5) (11 / 10))
        [call.iteration 1, call.iteration 1, call.iteration 1, call.iteration 1,
          call.update_costs [1, 0] [0, 1], call.iteration 2] = some o ∧
      ∀ e ∈ o.history, e.rho_inv > 1 / 100000000 ∧ e.rho_inv = inner_product e.s e.y :=
  (history_entries_positive_curvature ascent_solver 0 2 (1 / 1000000) (1 / 1000000) (4 / 5)
    (11 / 10) (by decide) _).1

/-! ## The choice of the solver -/

/-- C9: `choose_solver` returns `mma` whenever `lbfgs_update_possible()` is false; otherwise
it returns `mma` when `lbfgs_iterations / (mma_iterations + 1e-9) > 50`; otherwise it
returns `lbfgs` when `mma_iterations / (lbfgs_iterations + 1e-9) > 50`; and in each of
these three cases the result does not depend on the two rate samples. -/
theorem choose_solver_forced_cases (o : lbfgs σ) :
    (lbfgs_update_possible o = false → choose_solver o = solver_type.mma) ∧
    (lbfgs_update_possible o = true →
      (o.lbfgs_iterations : ℚ) / ((o.mma_iterations : ℚ) + 1 / 1000000000) > 50 →
      choose_solver o = solver_type.mma) ∧
    (lbfgs_update_possible o = true →
      ¬ (o.lbfgs_iterations : ℚ) / ((o.mma_iterations : ℚ) + 1 / 1000000000) > 50 →
      (o.mma_iterations : ℚ) / ((o.lbfgs_iterations : ℚ) + 1 / 1000000000) > 50 →
      choose_solver o = solver_type.lbfgs) ∧
    (lbfgs_update_possible o = false ∨
      (o.lbfgs_iterations : ℚ) / ((o.mma_iterations : ℚ) + 1 / 1000000000) > 50 ∨
      (o.mma_iterations : ℚ) / ((o.lbfgs_iterations : ℚ) + 1 / 1000000000) > 50 →
      ∀ mma_rate lbfgs_rate : ℚ,
        choose_solver { o with mma_lb_increase_per_time := mma_rate
                               lbfgs_lb_increase_per_time := lbfgs_rate } = choose_solver o) := by
  refine ⟨?_, ?_, ?_, ?_⟩
  · intro h
    simp [choose_solver, h]
  · intro h h1
    simp only [choose_solver, h, Bool.not_true, Bool.false_eq_true, if_false, if_pos h1]
  · intro h h1 h2
    simp only [choose_solver, h, Bool.not_true, Bool.false_eq_true, if_false, if_neg h1,
      if_pos h2]
  · intro h mma_rate lbfgs_rate
    unfold choose_solver lbfgs_update_possible
    unfold lbfgs_update_possible at h
    dsimp only
    rcases h with h | h | h
    · simp only [h, Bool.not_false, if_true]
    · simp only [if_pos h]
    · simp only [if_pos h]

/-- C9 at a concrete state: a ready optimizer with 102 accelerated iterations against 2
base iterations runs the base solver. -/
theorem choose_solver_forced_cases_witness :
    choose_solver (sample_state () two_entry_history 0 2 102 0 7) = solver_type.mma :=
  (choose_solver_forced_cases (sample_state () two_entry_history 0 2 102 0 7)).2.1
    (by decide) (by norm_num [sample_state])

/-- C10 as stated fails: a ready optimizer with one iteration of each kind and both rate
samples equal to one chooses `lbfgs`, although the `mma` rate is not less than half of
the `lbfgs` rate. -/
theorem choose_solver_half_rate_counterexample :
    ¬ (∀ o : lbfgs Unit, lbfgs_update_possible o = true →
      ¬ (o.lbfgs_iterations : ℚ) / ((o.mma_iterations : ℚ) + 1 / 1000000000) > 50 →
      ¬ (o.mma_iterations : ℚ) / ((o.lbfgs_iterations : ℚ) + 1 / 1000000000) > 50 →
      (choose_solver o = solver_type.lbfgs ↔
        o.mma_lb_increase_per_time < o.lbfgs_lb_increase_per_time / 2)) := by
  intro h
  have h1 := h (sample_state () two_entry_history 0 1 1 1 1) (by decide)
    (by norm_num [sample_state]) (by norm_num [sample_state])
  have h2 : choose_solver (sample_state () two_entry_history 0 1 1 1 1) = solver_type.lbfgs := by
    norm_num [choose_solver, lbfgs_update_possible, sample_state, two_entry_history]
  have h3 := h1.mp h2
  norm_num [sample_state] at h3

/-- C10, amended: when acceleration is ready and neither iteration-count ratio exceeds 50,
`choose_solver` returns `mma` if and only if the `mma` rate is more than twice the `lbfgs`
rate, that is, it returns `lbfgs` if and only if
`mma_lb_increase_per_time <= 2 * lbfgs_lb_increase_per_time`. -/
theorem choose_solver_rate_comparison (o : lbfgs σ)
    (hready : lbfgs_update_possible o = true)
    (h1 : ¬ (o.lbfgs_iterations : ℚ) / ((o.mma_iterations : ℚ) + 1 / 1000000000) > 50)
    (h2 : ¬ (o.mma_iterations : ℚ) / ((o.lbfgs_iterations : ℚ) + 1 / 1000000000) > 50) :
    (choose_solver o = solver_type.mma ↔
      o.mma_lb_increase_per_time > 2 * o.lbfgs_lb_increase_per_time) ∧
    (choose_solver o = solver_type.lbfgs ↔
      o.mma_lb_increase_per_time ≤ 2 * o.lbfgs_lb_increase_per_time) := by
  simp only [choose_solver, hready, Bool.not_true, Bool.false_eq_true, if_false, if_neg h1,
    if_neg h2]
  by_cases h : o.mma_lb_increase_per_time > 2 * o.lbfgs_lb_increase_per_time
  · simp [h]
  · rw [if_neg h]
    simp only [reduceCtorEq, false_iff, true_iff]
    exact ⟨h, not_lt.mp h⟩

/-- C10, amended, at a concrete state: with both rate samples equal to one the accelerated
path is chosen. -/
theorem choose_solver_rate_comparison_witness :
    choose_solver (sample_state () two_entry_history 0 1 1 1 1) = solver_type.lbfgs :=
  ((choose_solver_rate_comparison (sample_state () two_entry_history 0 1 1 1 1) (by decide)
    (by norm_num [sample_state]) (by norm_num [sample_state])).2).mpr
    (by norm_num [sample_state])

/-! ## The capture of the iterate -/

/-- C11: in every state reached from construction (with `m > 1`) by any sequence of
`iteration()` and `update_costs()` calls, `lbfgs_update_possible()` is true if and only if
`history.size() == m` and `num_unsuccessful_lbfgs_updates_ <= 5`. -/
theorem update_possible_iff_history_full (S : Solver σ) (solver : σ) (m : Nat)
    (step req dec inc : ℚ) (hm : 1 < m) (calls : List call) :
    ∃ o, run S (lbfgs.construct S solver m step req dec inc) calls = some o ∧
      (lbfgs_update_possible o = true ↔
        o.history.length = o.m ∧ o.num_unsuccessful_lbfgs_updates_ ≤ 5) := by
  obtain ⟨o, hrun, h1, h2, -, -⟩ := run_invariant S m hm calls _
    (construct_invariant S solver m step req dec inc)
  refine ⟨o, hrun, ?_⟩
  unfold lbfgs_update_possible
  rw [h1]
  constructor
  · intro h
    by_contra hc
    rw [if_pos (by omega)] at h
    cases h
  · rintro ⟨h3, h4⟩
    rw [if_neg (by omega)]

/-- C11 at a concrete run: five iterations and a change of the costs, with `m = 2`. -/
theorem update_possible_iff_history_full_witness :
    ∃ o, run ascent_solver
        (lbfgs.construct ascent_solver 0 2 (1 / 1000000) (1 / 1000000) (4 / 5) (11 / 10))
        [call.iteration 1, call.iteration 1, call.iteration 1, call.iteration 1,
          call.update_costs [1, 0] [0, 1], call.iteration 2] = some o ∧
      (lbfgs_update_possible o = true ↔
        o.history.length = o.m ∧ o.num_unsuccessful_lbfgs_updates_ ≤ 5) :=
  update_possible_iff_history_full ascent_solver 0 2 (1 / 1000000) (1 / 1000000) (4 / 5)
    (11 / 10) (by decide) _

theorem minus_getElem? (a b : Vec) (i : Nat) (x p : ℚ) (ha : a[i]? = some x)
    (hb : b[i]? = some p) : (minus a b)[i]? = some (x - p) := by
  unfold minus
  rw [List.getElem?_zipWith, ha, hb]

/-- The history after an accepted pair, for `m > 0`: the oldest entry is dropped when the
history was full, and the pair is at the back. -/
theorem push_history_eq (history : List history_entry) (m : Nat) (e : history_entry)
    (hm : 0 < m) :
    push_history history m e = (if m ≤ history.length then history.tail else history) ++ [e] := by
  unfold push_history
  dsimp only
  rw [List.length_append, List.length_singleton]
  by_cases h : m ≤ history.length
  · rw [if_pos (by omega), if_pos h]
    have hne : history ≠ [] := by
      intro h0
      rw [h0] at h
      simp only [List.length_nil] at h
      omega
    exact List.tail_append_of_ne_nil hne
  · rw [if_neg (by omega), if_neg h]

theorem store_iterate_accepted (S : Solver σ) (o : lbfgs σ)
    (hprev : o.prev_states_stored = true)
    (hrho : inner_product (minus (S.net_solver_costs o.solver) o.prev_x)
      (minus o.prev_grad_f (S.bdds_solution_vec o.solver)) > 1 / 100000000) :
    (store_iterate S o).history = push_history o.history o.m
      ⟨minus (S.net_solver_costs o.solver) o.prev_x,
        minus o.prev_grad_f (S.bdds_solution_vec o.solver),
        inner_product (minus (S.net_solver_costs o.solver) o.prev_x)
          (minus o.prev_grad_f (S.bdds_solution_vec o.solver))⟩ := by
  unfold store_iterate
  dsimp only
  rw [hprev]
  simp only [Bool.not_true, Bool.false_eq_true, if_false]
  rw [if_pos hrho]
  split_ifs <;> rfl

theorem store_iterate_first_rho (S : Solver σ) (o : lbfgs σ)
    (hprev : o.prev_states_stored = true) (hvalid : o.initial_rho_inv_valid = false) :
    (store_iterate S o).initial_rho_inv =
      inner_product (minus (S.net_solver_costs o.solver) o.prev_x)
        (minus o.prev_grad_f (S.bdds_solution_vec o.solver)) := by
  unfold store_iterate
  dsimp only
  rw [hprev, hvalid]
  simp only [Bool.not_true, Bool.not_false, Bool.false_eq_true, if_false, if_true]
  split_ifs <;> rfl

/-- C12: on a call of `store_iterate` with `prev_states_stored` set, that is, on every call
after the first one since construction or flush, with `m > 1`: the candidate pair is
`s = x - prev_x` and `y = prev_grad_f - grad`, elementwise, the previous gradient minus the
current one; `rho_inv = <s, y>` (it is what the first such call caches in
`initial_rho_inv`); and when `rho_inv > 1e-8` the entry at the back of the history on
return is exactly `(s, y, rho_inv)`. -/
theorem store_iterate_candidate_pair (S : Solver σ) (o : lbfgs σ)
    (hprev : o.prev_states_stored = true) (hm : 1 < o.m) :
    (∀ (i : Nat) (x p : ℚ), (S.net_solver_costs o.solver)[i]? = some x →
      o.prev_x[i]? = some p →
      (minus (S.net_solver_costs o.solver) o.prev_x)[i]? = some (x - p)) ∧
    (∀ (i : Nat) (p g : ℚ), o.prev_grad_f[i]? = some p →
      (S.bdds_solution_vec o.solver)[i]? = some g →
      (minus o.prev_grad_f (S.bdds_solution_vec o.solver))[i]? = some (p - g)) ∧
    (o.initial_rho_inv_valid = false →
      (store_iterate S o).initial_rho_inv =
        inner_product (minus (S.net_solver_costs o.solver) o.prev_x)
          (minus o.prev_grad_f (S.bdds_solution_vec o.solver))) ∧
    (inner_product (minus (S.net_solver_costs o.solver) o.prev_x)
        (minus o.prev_grad_f (S.bdds_solution_vec o.solver)) > 1 / 100000000 →
      (store_iterate S o).history.getLast? =
        some ⟨minus (S.net_solver_costs o.solver) o.prev_x,
          minus o.prev_grad_f (S.bdds_solution_vec o.solver),
          inner_product (minus (S.net_solver_costs o.solver) o.prev_x)
            (minus o.prev_grad_f (S.bdds_solution_vec o.solver))⟩) := by
  refine ⟨?_, ?_, store_iterate_first_rho S o hprev, ?_⟩
  · intro i x p ha hb
    exact minus_getElem? _ _ i x p ha hb
  · intro i p g ha hb
    exact minus_getElem? _ _ i p g ha hb
  intro hrho
  rw [store_iterate_accepted S o hprev hrho, push_history_eq _ _ _ (by omega),
    List.getLast?_append, List.getLast?_singleton]
  rfl

/-- C12 at a concrete state: the solver at `x = 1` with the previous snapshots `(0, 0)`
gives the pair `s = (1, 0)`, `y = (1, 0)`, `rho_inv = 1`. -/
theorem store_iterate_candidate_pair_witness :
    (store_iterate ascent_solver (sample_state 1 two_entry_history 0 3 0 0 0)).history.getLast? =
      some ⟨[1, 0], [1, 0], 1⟩ := by
  have h := (store_iterate_candidate_pair ascent_solver
    (sample_state 1 two_entry_history 0 3 0 0 0) rfl (by decide)).2.2.2
    (by norm_num [ascent_solver, sample_state, minus, inner_product])
  rw [h]
  norm_num [ascent_solver, sample_state, minus, inner_product]

/-- C13: eviction is strict FIFO. When `store_iterate` accepts a new pair `e` (with
`prev_states_stored` set, `rho_inv > 1e-8` and `m > 1`): if the history holds exactly `m`
entries, the history afterwards is the old one without its oldest entry, followed by `e`;
if it holds fewer than `m` entries, the history afterwards is the old one followed by
`e`. -/
theorem store_iterate_fifo (S : Solver σ) (o : lbfgs σ)
    (hprev : o.prev_states_stored = true) (hm : 1 < o.m)
    (hrho : inner_product (minus (S.net_solver_costs o.solver) o.prev_x)
      (minus o.prev_grad_f (S.bdds_solution_vec o.solver)) > 1 / 100000000) :
    (o.history.length = o.m →
      (store_iterate S o).history = o.history.tail ++
        [⟨minus (S.net_solver_costs o.solver) o.prev_x,
          minus o.prev_grad_f (S.bdds_solution_vec o.solver),
          inner_product (minus (S.net_solver_costs o.solver) o.prev_x)
            (minus o.prev_grad_f (S.bdds_solution_vec o.solver))⟩]) ∧
    (o.history.length < o.m →
      (store_iterate S o).history = o.history ++
        [⟨minus (S.net_solver_costs o.solver) o.prev_x,
          minus o.prev_grad_f (S.bdds_solution_vec o.solver),
          inner_product (minus (S.net_solver_costs o.solver) o.prev_x)
            (minus o.prev_grad_f (S.bdds_solution_vec o.solver))⟩]) := by
  rw [store_iterate_accepted S o hprev hrho, push_history_eq _ _ _ (by omega)]
  constructor
  · intro h
    rw [if_pos (by omega)]
  · intro h
    rw [if_neg (by omega)]

/-- C13 at a concrete state: with `m = 2` and the full history `two_entry_history`, the
oldest entry is evicted and the new pair is appended. -/
theorem store_iterate_fifo_witness :
    (store_iterate ascent_solver (sample_state 1 two_entry_history 0 3 0 0 0)).history =
      [⟨[2, 0], [1, 0], 2⟩, ⟨[1, 0], [1, 0], 1⟩] := by
  have h := (store_iterate_fifo ascent_solver
    (sample_state 1 two_entry_history 0 3 0 0 0) rfl (by decide)
    (by norm_num [ascent_solver, sample_state, minus, inner_product])).1 rfl
  rw [h]
  norm_num [ascent_solver, sample_state, minus, inner_product, two_entry_history]

/-- C14: when `store_iterate` computes `rho_inv <= 1e-8`, the history is left exactly as it
was; and in every case, the pair being accepted, rejected or not formed, `prev_x` and
`prev_grad_f` are, when the call returns, the cost vector and the gradient-like vector of
the solver, whose state the call does not change. -/
theorem store_iterate_rejected_and_snapshot (S : Solver σ) (o : lbfgs σ) :
    (inner_product (minus (S.net_solver_costs o.solver) o.prev_x)
        (minus o.prev_grad_f (S.bdds_solution_vec o.solver)) ≤ 1 / 100000000 →
      (store_iterate S o).history = o.history) ∧
    (store_iterate S o).solver = o.solver ∧
    (store_iterate S o).prev_x = S.net_solver_costs (store_iterate S o).solver ∧
    (store_iterate S o).prev_grad_f = S.bdds_solution_vec (store_iterate S o).solver ∧
    (store_iterate S o).prev_states_stored = true := by
  refine ⟨?_, ?_⟩
  · intro hle
    unfold store_iterate
    dsimp only
    rw [if_neg (not_lt.mpr hle)]
    split_ifs <;> rfl
  · unfold store_iterate
    dsimp only
    split_ifs with h1 <;>
      first
      | exact ⟨rfl, rfl, rfl, rfl⟩
      | exact ⟨rfl, rfl, rfl, by simpa using h1⟩

/-- C14 at a concrete state: the solver at `x = 0` with the previous snapshots `(0, 0)`
gives `rho_inv = 0`, and the history stays `two_entry_history`. -/
theorem store_iterate_rejected_and_snapshot_witness :
    (store_iterate ascent_solver (sample_state 0 two_entry_history 0 3 0 0 0)).history =
      two_entry_history :=
  (store_iterate_rejected_and_snapshot ascent_solver
    (sample_state 0 two_entry_history 0 3 0 0 0)).1
    (by norm_num [ascent_solver, sample_state, minus, inner_product])

/-! ## The iteration -/

/-- The method `iteration` is the composition of its three parts. -/
theorem iteration_eq (S : Solver σ) (dt : ℚ) (o : lbfgs σ) :
    iteration S dt o =
      match chosen_iteration S dt (seed_lb_history S o) with
      | none => none
      | some o2 => some (record_iterate S o2) := rfl

theorem seed_lb_history_fields (S : Solver σ) (o : lbfgs σ) :
    (seed_lb_history S o).history = o.history ∧ (seed_lb_history S o).m = o.m ∧
    (seed_lb_history S o).solver = o.solver ∧
    (seed_lb_history S o).prev_states_stored = o.prev_states_stored ∧
    (seed_lb_history S o).initial_rho_inv_valid = o.initial_rho_inv_valid ∧
    (seed_lb_history S o).mma_iterations = o.mma_iterations ∧
    (seed_lb_history S o).lbfgs_iterations = o.lbfgs_iterations ∧
    (seed_lb_history S o).step_size = o.step_size ∧
    (seed_lb_history S o).step_size_decrease_factor = o.step_size_decrease_factor ∧
    (seed_lb_history S o).step_size_increase_factor = o.step_size_increase_factor ∧
    (seed_lb_history S o).num_unsuccessful_lbfgs_updates_ =
      o.num_unsuccessful_lbfgs_updates_ := by
  unfold seed_lb_history
  split_ifs <;> exact ⟨rfl, rfl, rfl, rfl, rfl, rfl, rfl, rfl, rfl, rfl, rfl⟩

theorem choose_solver_short_history (o : lbfgs σ) (h : o.history.length < o.m) :
    choose_solver o = solver_type.mma := by
  apply choose_solver_possible_false
  unfold lbfgs_update_possible
  rw [if_pos (Or.inl h)]

theorem chosen_iteration_short_history (S : Solver σ) (dt : ℚ) (o : lbfgs σ)
    (h : o.history.length < o.m) : chosen_iteration S dt o = some (mma_iteration S dt o) := by
  unfold chosen_iteration
  rw [choose_solver_short_history o h]
  rfl

theorem store_iterate_first (S : Solver σ) (o : lbfgs σ) (h : o.prev_states_stored = false) :
    store_iterate S o =
      { o with
        prev_x := S.net_solver_costs o.solver
        prev_grad_f := S.bdds_solution_vec o.solver
        prev_states_stored := true } := by
  unfold store_iterate
  dsimp only
  rw [h]
  rfl

/-- C15: immediately after `update_costs`, called in any state, the history is empty and
`num_unsuccessful_lbfgs_updates_ == 0`; and the next `store_iterate` call, whether made at
once or by the next `iteration()` (with `m > 1`), only seeds `prev_x` and `prev_grad_f`:
the history stays empty and no curvature value is computed. -/
theorem update_costs_flushes (S : Solver σ) (o : lbfgs σ) (c0 c1 : Vec) (dt : ℚ)
    (hm : 1 < o.m) :
    (update_costs S o c0 c1).history = [] ∧
    (update_costs S o c0 c1).num_unsuccessful_lbfgs_updates_ = 0 ∧
    (update_costs S o c0 c1).prev_states_stored = false ∧
    (update_costs S o c0 c1).initial_rho_inv_valid = false ∧
    ((store_iterate S (update_costs S o c0 c1)).history = [] ∧
      (store_iterate S (update_costs S o c0 c1)).initial_rho_inv_valid = false ∧
      (store_iterate S (update_costs S o c0 c1)).prev_x =
        S.net_solver_costs (update_costs S o c0 c1).solver ∧
      (store_iterate S (update_costs S o c0 c1)).prev_grad_f =
        S.bdds_solution_vec (update_costs S o c0 c1).solver) ∧
    ∃ o2, iteration S dt (update_costs S o c0 c1) = some o2 ∧
      o2.history = [] ∧ o2.initial_rho_inv_valid = false ∧ o2.prev_states_stored = true ∧
      o2.prev_x = S.net_solver_costs o2.solver ∧
      o2.prev_grad_f = S.bdds_solution_vec o2.solver := by
  have hstore : ∀ o1 : lbfgs σ, o1.prev_states_stored = false → o1.history = [] →
      o1.initial_rho_inv_valid = false →
      (store_iterate S o1).history = [] ∧ (store_iterate S o1).initial_rho_inv_valid = false ∧
      (store_iterate S o1).prev_x = S.net_solver_costs o1.solver ∧
      (store_iterate S o1).prev_grad_f = S.bdds_solution_vec o1.solver ∧
      (store_iterate S o1).prev_states_stored = true ∧
      (store_iterate S o1).solver = o1.solver := by
    intro o1 h1 h2 h3
    rw [store_iterate_first S o1 h1]
    exact ⟨h2, h3, rfl, rfl, rfl, rfl⟩
  obtain ⟨s1, s2, s3, s4, -, -⟩ := hstore (update_costs S o c0 c1) rfl rfl rfl
  refine ⟨rfl, rfl, rfl, rfl, ⟨s1, s2, s3, s4⟩, ?_⟩
  have hf := seed_lb_history_fields S (update_costs S o c0 c1)
  have hshort : (seed_lb_history S (update_costs S o c0 c1)).history.length <
      (seed_lb_history S (update_costs S o c0 c1)).m := by
    rw [hf.1, hf.2.1]
    show 0 < o.m
    omega
  obtain ⟨t1, t2, t3, t4, t5, t6⟩ := hstore
    (mma_iteration S dt (seed_lb_history S (update_costs S o c0 c1)))
    hf.2.2.2.1 hf.1 hf.2.2.2.2.1
  refine ⟨record_iterate S (mma_iteration S dt (seed_lb_history S (update_costs S o c0 c1))),
    ?_, t1, t2, t5, ?_, ?_⟩
  · rw [iteration_eq, chosen_iteration_short_history S dt _ hshort]
  · show (store_iterate S _).prev_x = S.net_solver_costs (store_iterate S _).solver
    rw [t3, t6]
  · show (store_iterate S _).prev_grad_f = S.bdds_solution_vec (store_iterate S _).solver
    rw [t4, t6]

/-- C15 at a concrete state: a change of the costs of the sample optimizer with a full
history and two unsuccessful updates. -/
theorem update_costs_flushes_witness :
    (update_costs ascent_solver (sample_state 1 two_entry_history 2 3 1 0 0) [1, 0]
      [0, 1]).history = [] ∧
    (update_costs ascent_solver (sample_state 1 two_entry_history 2 3 1 0 0) [1, 0]
      [0, 1]).num_unsuccessful_lbfgs_updates_ = 0 :=
  ⟨(update_costs_flushes ascent_solver (sample_state 1 two_entry_history 2 3 1 0 0) [1, 0]
      [0, 1] 1 (by decide)).1,
    (update_costs_flushes ascent_solver (sample_state 1 two_entry_history 2 3 1 0 0) [1, 0]
      [0, 1] 1 (by decide)).2.1⟩

/-! ## The constructor -/

/-- C20: with its assertions enabled, construction fails if and only if at least one of
these is violated: history size `m > 1`, initial step size `> 0`,
`0 < step_size_decrease_factor < 1`, `step_size_increase_factor > 1`,
`required_relative_lb_increase > 0`; and with all five satisfied construction succeeds,
with the parameters stored, an empty history, `prev_states_stored = false` and zero
counters. -/
theorem construction_fails_iff (S : Solver σ) (solver : σ) (m : Int)
    (step req dec inc : ℚ) :
    (lbfgs.construct_checked S solver m step req dec inc = none ↔
      ¬ m > 1 ∨ ¬ step > 0 ∨ ¬ (0 < dec ∧ dec < 1) ∨ ¬ inc > 1 ∨ ¬ req > 0) ∧
    (m > 1 ∧ step > 0 ∧ (0 < dec ∧ dec < 1) ∧ inc > 1 ∧ req > 0 →
      ∃ o, lbfgs.construct_checked S solver m step req dec inc = some o ∧
        constructor_asserts o ∧ (o.m : Int) = m ∧ o.step_size = step ∧
        o.required_relative_lb_increase = req ∧ o.step_size_decrease_factor = dec ∧
        o.step_size_increase_factor = inc ∧
        o.history = [] ∧ o.lb_history = [] ∧ o.prev_states_stored = false ∧
        o.initial_rho_inv_valid = false ∧ o.num_unsuccessful_lbfgs_updates_ = 0 ∧
        o.mma_iterations = 0 ∧ o.lbfgs_iterations = 0) := by
  constructor
  · unfold lbfgs.construct_checked
    by_cases h1 : step > 0
    · by_cases h2 : dec > 0 ∧ dec < 1
      · by_cases h3 : inc > 1
        · by_cases h4 : req > 0
          · by_cases h5 : m > 1
            · rw [if_neg (not_not.mpr h1), if_neg (not_not.mpr h2), if_neg (not_not.mpr h3),
                if_neg (not_not.mpr h4), if_neg (not_not.mpr h5)]
              constructor
              · intro h
                cases h
              · intro h
                rcases h with h | h | h | h | h
                · exact absurd h5 h
                · exact absurd h1 h
                · exact absurd h2 h
                · exact absurd h3 h
                · exact absurd h4 h
            · rw [if_neg (not_not.mpr h1), if_neg (not_not.mpr h2), if_neg (not_not.mpr h3),
                if_neg (not_not.mpr h4), if_pos h5]
              exact ⟨fun _ => Or.inl h5, fun _ => rfl⟩
          · rw [if_neg (not_not.mpr h1), if_neg (not_not.mpr h2), if_neg (not_not.mpr h3),
              if_pos h4]
            exact ⟨fun _ => Or.inr (Or.inr (Or.inr (Or.inr h4))), fun _ => rfl⟩
        · rw [if_neg (not_not.mpr h1), if_neg (not_not.mpr h2), if_pos h3]
          exact ⟨fun _ => Or.inr (Or.inr (Or.inr (Or.inl h3))), fun _ => rfl⟩
      · rw [if_neg (not_not.mpr h1), if_pos h2]
        exact ⟨fun _ => Or.inr (Or.inr (Or.inl h2)), fun _ => rfl⟩
    · rw [if_pos h1]
      exact ⟨fun _ => Or.inr (Or.inl h1), fun _ => rfl⟩
  · rintro ⟨hm, hstep, hdec, hinc, hreq⟩
    refine ⟨lbfgs.construct S solver m.toNat step req dec inc, ?_, ?_, ?_, rfl, rfl, rfl, rfl,
      rfl, rfl, rfl, rfl, rfl, rfl, rfl⟩
    · unfold lbfgs.construct_checked
      rw [if_neg (not_not.mpr hstep), if_neg (not_not.mpr hdec), if_neg (not_not.mpr hinc),
        if_neg (not_not.mpr hreq), if_neg (not_not.mpr hm)]
    · refine ⟨hstep, hdec, hinc, hreq, ?_⟩
      show m.toNat > 1
      omega
    · show ((m.toNat : Nat) : Int) = m
      omega

/-- C20 at concrete arguments: the default parameters with the history size 5 are accepted,
and the history size 1 is refused. -/
theorem construction_fails_iff_witness :
    (∃ o, lbfgs.construct_checked ascent_solver 0 5 (1 / 1000000) (1 / 1000000) (4 / 5)
        (11 / 10) = some o ∧ o.history = [] ∧ o.prev_states_stored = false) ∧
    lbfgs.construct_checked ascent_solver 0 1 (1 / 1000000) (1 / 1000000) (4 / 5)
        (11 / 10) = none := by
  constructor
  · obtain ⟨o, h, -, -, -, -, -, -, h1, -, h2, -⟩ :=
      (construction_fails_iff ascent_solver 0 5 (1 / 1000000) (1 / 1000000) (4 / 5)
        (11 / 10)).2 (by norm_num)
    exact ⟨o, h, h1, h2⟩
  · exact (construction_fails_iff ascent_solver 0 1 (1 / 1000000) (1 / 1000000) (4 / 5)
      (11 / 10)).1.mpr (Or.inl (by norm_num))

/-! ## The invariants of the public methods -/

/-- The fields which `store_iterate` does not change. -/
theorem store_iterate_frame (S : Solver σ) (o : lbfgs σ) :
    (store_iterate S o).solver = o.solver ∧ (store_iterate S o).m = o.m ∧
    (store_iterate S o).lb_history = o.lb_history ∧
    (store_iterate S o).step_size = o.step_size ∧
    (store_iterate S o).step_size_decrease_factor = o.step_size_decrease_factor ∧
    (store_iterate S o).step_size_increase_factor = o.step_size_increase_factor ∧
    (store_iterate S o).num_unsuccessful_lbfgs_updates_ = o.num_unsuccessful_lbfgs_updates_ ∧
    (store_iterate S o).mma_iterations = o.mma_iterations ∧
    (store_iterate S o).lbfgs_iterations = o.lbfgs_iterations := by
  unfold store_iterate
  dsimp only
  split_ifs <;> exact ⟨rfl, rfl, rfl, rfl, rfl, rfl, rfl, rfl, rfl⟩

/-- The fields which the last two statements of `iteration` do not change, and the new
`lb_history`. -/
theorem record_iterate_frame (S : Solver σ) (o : lbfgs σ) :
    (record_iterate S o).solver = o.solver ∧ (record_iterate S o).m = o.m ∧
    (record_iterate S o).lb_history = o.lb_history ++ [S.lower_bound o.solver] ∧
    (record_iterate S o).step_size = o.step_size ∧
    (record_iterate S o).step_size_decrease_factor = o.step_size_decrease_factor ∧
    (record_iterate S o).step_size_increase_factor = o.step_size_increase_factor ∧
    (record_iterate S o).num_unsuccessful_lbfgs_updates_ = o.num_unsuccessful_lbfgs_updates_ ∧
    (record_iterate S o).mma_iterations = o.mma_iterations ∧
    (record_iterate S o).lbfgs_iterations = o.lbfgs_iterations ∧
    (record_iterate S o).history = (store_iterate S o).history := by
  obtain ⟨h1, h2, h3, h4, h5, h6, h7, h8, h9⟩ := store_iterate_frame S o
  refine ⟨h1, h2, ?_, h4, h5, h6, h7, h8, h9, rfl⟩
  show (store_iterate S o).lb_history ++ [S.lower_bound (store_iterate S o).solver] =
    o.lb_history ++ [S.lower_bound o.solver]
  rw [h1, h3]

/-- The shape of the result of the accelerated iteration. -/
theorem lbfgs_iteration_eq_some (S : Solver σ) (dt : ℚ) (o o1 : lbfgs σ)
    (h : lbfgs_iteration S dt o = some o1) :
    ∃ d past, compute_update_direction o.history (S.bdds_solution_vec o.solver) = some d ∧
      past_lb_increase o = some past ∧
      o1 =
        { (search_with S (S.make_dual_feasible o.solver d) past o).1 with
          solver :=
            S.iteration (search_with S (S.make_dual_feasible o.solver d) past o).1.solver
          lbfgs_lb_increase_per_time :=
            (S.lower_bound
              (S.iteration (search_with S (S.make_dual_feasible o.solver d) past o).1.solver) -
              S.lower_bound o.solver) / dt
          lbfgs_iterations :=
            (search_with S (S.make_dual_feasible o.solver d) past o).1.lbfgs_iterations + 1 } := by
  unfold lbfgs_iteration at h
  dsimp only at h
  cases hd : compute_update_direction o.history (S.bdds_solution_vec o.solver) with
  | none =>
    rw [hd] at h
    cases h
  | some d =>
    rw [hd] at h
    dsimp only at h
    unfold search_step_size_and_apply at h
    cases hp : past_lb_increase o with
    | none =>
      rw [hp] at h
      cases h
    | some past =>
      rw [hp] at h
      dsimp only at h
      cases h
      exact ⟨d, past, rfl, rfl, rfl⟩

/-- The step size is positive when the search returns. -/
theorem search_with_step_size_positive (S : Solver σ) (update : Vec) (past : ℚ) (o : lbfgs σ)
    (h : step_size_invariant o) :
    step_size_invariant (search_with S update past o).1 ∧
    ∀ t ∈ (search_with S update past o).2.trials, 0 < t.1 := by
  obtain ⟨hstep, hdec, hinc⟩ := h
  obtain ⟨k, q, p1, -, -, ⟨hsame1, hpos1, htr1⟩, hp1, htrials, hsame, -, -⟩ :=
    search_with_cases S update past o
      (fun p => same_parameters o p.1 ∧ 0 < p.1.step_size ∧ ∀ t ∈ p.2.trials, 0 < t.1)
      ⟨same_parameters_refl o, hstep, by simp [search_locals.init]⟩
      (search_trial_positive S update (S.lower_bound o.solver) past o hdec hinc)
  obtain ⟨-, -, -, -, hd, hi, -⟩ := same_parameters_fields hsame
  refine ⟨⟨?_, by rw [hd]; exact hdec, by rw [hi]; exact hinc⟩, by rw [htrials]; exact htr1⟩
  obtain ⟨k', q', -, -, ⟨hqs, hqp, hqt⟩, hres⟩ :=
    search_loop_exit S update (S.lower_bound o.solver) past
      (fun _ p => same_parameters o p.1 ∧ 0 < p.1.step_size ∧ ∀ t ∈ p.2.trials, 0 < t.1)
      (fun _ p hp _ _ =>
        search_trial_positive S update (S.lower_bound o.solver) past o hdec hinc p hp)
      0 (o, search_locals.init)
      ⟨same_parameters_refl o, hstep, by simp [search_locals.init]⟩
  obtain ⟨hts, htp, -⟩ := search_trial_positive S update (S.lower_bound o.solver) past o hdec
    hinc q' ⟨hqs, hqp, hqt⟩
  unfold search_with
  dsimp only
  rcases hres with ⟨-, hloop⟩ | ⟨-, -, hloop⟩
  · rw [hloop, search_finish_returned _ rfl]
    dsimp only
    by_cases hb : (search_trial S update (S.lower_bound o.solver) past q').2.best_rel_improvement >
        (search_trial S update (S.lower_bound o.solver) past q').1.required_relative_lb_increase / 10
    · rw [retry_budget_exit_commit S update _ hb, (apply_update_fields S update _ _).1]
      exact htp
    · rw [(retry_budget_exit_rollback S update _ hb).2.1]
      exact htp
  · rw [hloop]
    unfold search_finish
    dsimp only
    rw [if_neg (by simp)]
    dsimp only
    split_ifs
    · show 0 < (search_trial S update (S.lower_bound o.solver) past q').1.step_size *
        (search_trial S update (S.lower_bound o.solver) past q').1.step_size_increase_factor
      rw [(same_parameters_fields hts).2.2.2.2.2.1]
      exact mul_pos htp hinc
    · exact htp

theorem iteration_eq_some (S : Solver σ) (dt : ℚ) (o o1 : lbfgs σ)
    (h : iteration S dt o = some o1) :
    ∃ o2, chosen_iteration S dt (seed_lb_history S o) = some o2 ∧ o1 = record_iterate S o2 := by
  rw [iteration_eq] at h
  cases hc : chosen_iteration S dt (seed_lb_history S o) with
  | none =>
    rw [hc] at h
    cases h
  | some o2 =>
    rw [hc] at h
    cases h
    exact ⟨o2, rfl, rfl⟩

theorem chosen_iteration_cases (S : Solver σ) (dt : ℚ) (o o2 : lbfgs σ)
    (h : chosen_iteration S dt o = some o2) :
    (choose_solver o = solver_type.mma ∧ o2 = mma_iteration S dt o) ∨
    (choose_solver o = solver_type.lbfgs ∧ lbfgs_iteration S dt o = some o2) := by
  unfold chosen_iteration at h
  split_ifs at h with hc
  · exact Or.inr ⟨hc, h⟩
  · cases h
    refine Or.inl ⟨?_, rfl⟩
    cases hs : choose_solver o with
    | mma => rfl
    | lbfgs => exact absurd hs hc

/-- Every sequence of calls of the public methods, from a state which satisfies the
invariant of the history, is defined and maintains a property which each of the two
methods maintains. -/
theorem run_invariant_with (S : Solver σ) (m : Nat) (hm : 1 < m) (Q : lbfgs σ → Prop)
    (hit : ∀ dt o o1, history_invariant m o → Q o → iteration S dt o = some o1 → Q o1)
    (huc : ∀ c0 c1 o, history_invariant m o → Q o → Q (update_costs S o c0 c1))
    (calls : List call) (o : lbfgs σ) (h : history_invariant m o) (hQ : Q o) :
    ∃ o1, run S o calls = some o1 ∧ history_invariant m o1 ∧ Q o1 := by
  induction calls generalizing o with
  | nil => exact ⟨o, rfl, h, hQ⟩
  | cons c cs ih =>
    have hc : ∃ o1, c.apply S o = some o1 ∧ history_invariant m o1 ∧ Q o1 := by
      cases c with
      | iteration dt =>
        obtain ⟨o1, h1, h2⟩ := iteration_invariant S dt m hm o h
        exact ⟨o1, h1, h2, hit dt o o1 h hQ h1⟩
      | update_costs c0 c1 =>
        exact ⟨_, rfl, update_costs_invariant S c0 c1 m o h, huc c0 c1 o h hQ⟩
    obtain ⟨o1, h1, hinv, hQ1⟩ := hc
    obtain ⟨o2, h2, hinv2, hQ2⟩ := ih o1 hinv hQ1
    refine ⟨o2, ?_, hinv2, hQ2⟩
    rw [run, h1]
    exact h2

theorem iteration_step_size_invariant (S : Solver σ) (dt : ℚ) (o o1 : lbfgs σ)
    (h : step_size_invariant o) (hit : iteration S dt o = some o1) :
    step_size_invariant o1 := by
  obtain ⟨o2, hc, rfl⟩ := iteration_eq_some S dt o o1 hit
  obtain ⟨-, -, -, r4, r5, r6, -⟩ := record_iterate_frame S o2
  have hseed : step_size_invariant (seed_lb_history S o) := by
    obtain ⟨-, -, -, -, -, -, -, s1, s2, s3, -⟩ := seed_lb_history_fields S o
    unfold step_size_invariant
    rw [s1, s2, s3]
    exact h
  have h2 : step_size_invariant o2 := by
    rcases chosen_iteration_cases S dt _ o2 hc with ⟨-, rfl⟩ | ⟨-, hl⟩
    · exact hseed
    · obtain ⟨d, past, -, -, rfl⟩ := lbfgs_iteration_eq_some S dt _ o2 hl
      exact (search_with_step_size_positive S _ past _ hseed).1
  unfold step_size_invariant
  rw [r4, r5, r6]
  exact h2

/-- C19: if the constructor preconditions hold (`m > 1`, initial step size `> 0`, decrease
factor in `(0, 1)`, increase factor `> 1`), then `step_size > 0` in every state reached by
`iteration()` and `update_costs()` calls, and in every search started by `iteration()` in
such a state, whatever the direction and the past gap: the step size of every trial is
positive and so is the step size when the search returns. -/
theorem step_size_stays_positive (S : Solver σ) (solver : σ) (m : Nat)
    (step req dec inc : ℚ) (hm : 1 < m) (hstep : 0 < step) (hdec : 0 < dec ∧ dec < 1)
    (hinc : 1 < inc) (calls : List call) :
    ∃ o, run S (lbfgs.construct S solver m step req dec inc) calls = some o ∧
      0 < o.step_size ∧
      ∀ update past,
        (∀ t ∈ (search_with S update past (seed_lb_history S o)).2.trials, 0 < t.1) ∧
        0 < (search_with S update past (seed_lb_history S o)).1.step_size := by
  obtain ⟨o, hrun, -, hpos⟩ := run_invariant_with S m hm step_size_invariant
    (fun dt o o1 _ hQ h => iteration_step_size_invariant S dt o o1 hQ h)
    (fun _ _ _ _ hQ => hQ) calls _ (construct_invariant S solver m step req dec inc)
    ⟨hstep, hdec.1, lt_trans zero_lt_one hinc⟩
  refine ⟨o, hrun, hpos.1, ?_⟩
  intro update past
  have hseed : step_size_invariant (seed_lb_history S o) := by
    obtain ⟨-, -, -, -, -, -, -, s1, s2, s3, -⟩ := seed_lb_history_fields S o
    unfold step_size_invariant
    rw [s1, s2, s3]
    exact hpos
  obtain ⟨h1, h2⟩ := search_with_step_size_positive S update past _ hseed
  exact ⟨h2, h1.1⟩

/-- C19 at a concrete run: five iterations, two of them accelerated, and a change of the
costs, with the default parameters. -/
theorem step_size_stays_positive_witness :
    ∃ o, run ascent_solver
        (lbfgs.construct ascent_solver 0 2 (1 / 1000000) (1 / 1000000) (4 / 5) (11 / 10))
        [call.iteration 1, call.iteration 1, call.iteration 1, call.iteration 1,
          call.iteration 1, call.update_costs [1, 0] [0, 1]] = some o ∧
      0 < o.step_size ∧
      ∀ update past,
        (∀ t ∈ (search_with ascent_solver update past
          (seed_lb_history ascent_solver o)).2.trials, 0 < t.1) ∧
        0 < (search_with ascent_solver update past
          (seed_lb_history ascent_solver o)).1.step_size :=
  step_size_stays_positive ascent_solver 0 2 (1 / 1000000) (1 / 1000000) (4 / 5) (11 / 10)
    (by decide) (by norm_num) (by norm_num) (by norm_num) _

/-! ## The first iterations -/

theorem mma_iteration_fields (S : Solver σ) (dt : ℚ) (o : lbfgs σ) :
    (mma_iteration S dt o).history = o.history ∧ (mma_iteration S dt o).m = o.m ∧
    (mma_iteration S dt o).lb_history = o.lb_history ∧
    (mma_iteration S dt o).prev_states_stored = o.prev_states_stored ∧
    (mma_iteration S dt o).mma_iterations = o.mma_iterations + 1 ∧
    (mma_iteration S dt o).lbfgs_iterations = o.lbfgs_iterations ∧
    (mma_iteration S dt o).solver = S.iteration o.solver ∧
    (mma_iteration S dt o).num_unsuccessful_lbfgs_updates_ =
      o.num_unsuccessful_lbfgs_updates_ :=
  ⟨rfl, rfl, rfl, rfl, rfl, rfl, rfl, rfl⟩

/-- One call of `iteration()` while the history is short runs the base solver. -/
theorem iteration_warming_up (S : Solver σ) (dt : ℚ) (j : Nat) (o : lbfgs σ)
    (hm : 0 < o.m) (hj : j ≤ o.m) (h : warming_up j o) :
    ∃ o1, iteration S dt o = some o1 ∧ warming_up (j + 1) o1 ∧ o1.m = o.m ∧
      o1.lbfgs_iterations = o.lbfgs_iterations ∧
      o1.mma_iterations = o.mma_iterations + 1 := by
  obtain ⟨s1, s2, -, s4, -, s6, s7, -⟩ := seed_lb_history_fields S o
  have hshort : (seed_lb_history S o).history.length < (seed_lb_history S o).m := by
    rw [s1, s2]
    rcases h with ⟨-, h0, -⟩ | h
    · rw [h0]
      exact hm
    · omega
  obtain ⟨m1, m2, -, m4, m5, m6, -, -⟩ := mma_iteration_fields S dt (seed_lb_history S o)
  obtain ⟨-, r2, -, -, -, -, -, r8, r9, r10⟩ :=
    record_iterate_frame S (mma_iteration S dt (seed_lb_history S o))
  refine ⟨record_iterate S (mma_iteration S dt (seed_lb_history S o)), ?_, ?_, ?_, ?_, ?_⟩
  · rw [iteration_eq, chosen_iteration_short_history S dt _ hshort]
  · right
    rw [r10]
    rcases h with ⟨-, h0, hp⟩ | h
    · rw [store_iterate_first S _ (by rw [m4, s4]; exact hp)]
      show (mma_iteration S dt (seed_lb_history S o)).history.length + 1 ≤ j + 1
      rw [m1, s1, h0]
      simp
    · obtain ⟨-, -, -, q4⟩ := store_iterate_history S (mma_iteration S dt (seed_lb_history S o))
      rcases q4 with q4 | ⟨e, -, -, q4⟩
      · rw [q4, m1, s1]
        omega
      · rw [q4, m1, m2, s1, s2]
        have := (push_history_length o.history o.m e (by omega)).2
        omega
  · rw [r2, m2, s2]
  · rw [r9, m6, s7]
  · rw [r8, m5, s6]

/-- The calls of `iteration()` while the history is short all run the base solver. -/
theorem run_warming_up (S : Solver σ) (dts : List ℚ) (j : Nat) (o : lbfgs σ)
    (hm : 0 < o.m) (hj : j + dts.length ≤ o.m + 1) (h : warming_up j o) :
    ∃ o1, run S o (dts.map call.iteration) = some o1 ∧ warming_up (j + dts.length) o1 ∧
      o1.m = o.m ∧ o1.lbfgs_iterations = o.lbfgs_iterations ∧
      o1.mma_iterations = o.mma_iterations + dts.length := by
  induction dts generalizing j o with
  | nil => exact ⟨o, rfl, h, rfl, rfl, rfl⟩
  | cons dt rest ih =>
    rw [List.length_cons] at hj
    obtain ⟨o1, h1, h2, h3, h4, h5⟩ := iteration_warming_up S dt j o hm (by omega) h
    obtain ⟨o2, g1, g2, g3, g4, g5⟩ := ih (j + 1) o1 (by rw [h3]; exact hm)
      (by rw [h3]; omega) h2
    refine ⟨o2, ?_, ?_, g3.trans h3, g4.trans h4, ?_⟩
    · show run S o (call.iteration dt :: rest.map call.iteration) = some o2
      rw [run]
      show (match iteration S dt o with
        | none => none
        | some o1 => run S o1 (rest.map call.iteration)) = some o2
      rw [h1]
      exact g1
    · rw [List.length_cons]
      have : j + (rest.length + 1) = j + 1 + rest.length := by omega
      rw [this]
      exact g2
    · rw [g5, h5, List.length_cons]
      omega

theorem warming_up_not_possible (j : Nat) (o : lbfgs σ) (hm : 0 < o.m) (hj : j ≤ o.m)
    (h : warming_up j o) : lbfgs_update_possible o = false := by
  unfold lbfgs_update_possible
  rw [if_pos]
  left
  rcases h with ⟨-, h0, -⟩ | h
  · rw [h0]
    exact hm
  · omega

theorem run_append (S : Solver σ) (cs1 cs2 : List call) (o o1 : lbfgs σ)
    (h : run S o cs1 = some o1) : run S o (cs1 ++ cs2) = run S o1 cs2 := by
  induction cs1 generalizing o with
  | nil =>
    rw [run] at h
    cases h
    rfl
  | cons c cs ih =>
    rw [run] at h
    rw [List.cons_append, run]
    cases hc : c.apply S o with
    | none =>
      rw [hc] at h
      cases h
    | some o2 =>
      rw [hc] at h
      exact ih o2 h

/-- C16: for every `m > 1` and every behaviour of the base solver. (1) Each of the first
`m + 1` calls of `iteration()` after construction runs the base (`mma`) path, and
`lbfgs_update_possible()` is false after each of the first `m` of them. (2) The same holds
after a flush, that is, after `update_costs` called in any reachable state. (3) In every
reachable state, `lbfgs_update_possible()` being true implies that the history holds `m`
pairs, each with `rho_inv > 1e-8`; and it is true once the history holds `m` pairs and no
search has failed. -/
theorem first_iterations_run_base (S : Solver σ) (solver : σ) (m : Nat)
    (step req dec inc : ℚ) (hm : 1 < m) (calls : List call) (c0 c1 : Vec) (dts : List ℚ)
    (hk : dts.length ≤ m + 1) :
    (∃ o, run S (lbfgs.construct S solver m step req dec inc) (dts.map call.iteration) =
        some o ∧
      o.lbfgs_iterations = 0 ∧ o.mma_iterations = dts.length ∧
      (dts.length ≤ m → lbfgs_update_possible o = false)) ∧
    (∃ o1 o, run S (lbfgs.construct S solver m step req dec inc)
        (calls ++ [call.update_costs c0 c1]) = some o1 ∧
      run S o1 (dts.map call.iteration) = some o ∧
      o.lbfgs_iterations = o1.lbfgs_iterations ∧
      o.mma_iterations = o1.mma_iterations + dts.length ∧
      (dts.length ≤ m → lbfgs_update_possible o = false)) ∧
    (∃ o, run S (lbfgs.construct S solver m step req dec inc) calls = some o ∧
      (lbfgs_update_possible o = true →
        o.history.length = m ∧ ∀ e ∈ o.history, e.rho_inv > 1 / 100000000) ∧
      (o.history.length = m ∧ o.num_unsuccessful_lbfgs_updates_ = 0 →
        lbfgs_update_possible o = true)) := by
  obtain ⟨o', hrun, hinv1, hinv2, -, hinv4⟩ := run_invariant S m hm calls _
    (construct_invariant S solver m step req dec inc)
  refine ⟨?_, ?_, ?_⟩
  · obtain ⟨o, h1, h2, h3, h4, h5⟩ := run_warming_up S dts 0
      (lbfgs.construct S solver m step req dec inc) (by show 0 < m; omega)
      (by show 0 + dts.length ≤ m + 1; omega) (Or.inl ⟨rfl, rfl, rfl⟩)
    refine ⟨o, h1, h4, ?_, ?_⟩
    · rw [h5]
      show 0 + dts.length = dts.length
      omega
    · intro hle
      apply warming_up_not_possible (0 + dts.length) o
      · rw [h3]
        show 0 < m
        omega
      · rw [h3]
        show 0 + dts.length ≤ m
        omega
      · exact h2
  · have hm' : (update_costs S o' c0 c1).m = m := hinv1
    obtain ⟨o, h1, h2, h3, h4, h5⟩ := run_warming_up S dts 0 (update_costs S o' c0 c1)
      (by rw [hm']; omega) (by rw [hm']; omega) (Or.inl ⟨rfl, rfl, rfl⟩)
    refine ⟨update_costs S o' c0 c1, o, ?_, h1, h4, h5, ?_⟩
    · rw [run_append S calls _ _ o' hrun]
      rfl
    · intro hle
      apply warming_up_not_possible (0 + dts.length) o
      · rw [h3, hm']
        omega
      · rw [h3, hm']
        omega
      · exact h2
  · refine ⟨o', hrun, ?_, ?_⟩
    · intro hp
      refine ⟨?_, fun e he => (hinv4 e he).1⟩
      unfold lbfgs_update_possible at hp
      by_contra hne
      rw [if_pos (Or.inl (by omega))] at hp
      cases hp
    · rintro ⟨h1, h2⟩
      unfold lbfgs_update_possible
      rw [if_neg (by omega)]

/-- C16 at a concrete run, with `m = 2`: three calls of `iteration()` after construction,
and three calls after a change of the costs. -/
theorem first_iterations_run_base_witness :
    ∃ o, run ascent_solver
        (lbfgs.construct ascent_solver 0 2 (1 / 1000000) (1 / 1000000) (4 / 5) (11 / 10))
        ([1, 2, 1].map call.iteration) = some o ∧
      o.lbfgs_iterations = 0 ∧ o.mma_iterations = [(1 : ℚ), 2, 1].length ∧
      ([(1 : ℚ), 2, 1].length ≤ 2 → lbfgs_update_possible o = false) :=
  (first_iterations_run_base ascent_solver 0 2 (1 / 1000000) (1 / 1000000) (4 / 5) (11 / 10)
    (by decide) [call.iteration 1, call.iteration 1, call.iteration 1, call.iteration 1]
    [1, 0] [0, 1] [1, 2, 1] (by decide)).1

/-! ## The history of the lower bounds -/

theorem seed_lb_history_lb_history (S : Solver σ) (o : lbfgs σ) :
    (o.lb_history = [] ∧ (seed_lb_history S o).lb_history = [S.lower_bound o.solver]) ∨
    (o.lb_history ≠ [] ∧ (seed_lb_history S o).lb_history = o.lb_history) := by
  unfold seed_lb_history
  by_cases h : o.lb_history = []
  · left
    refine ⟨h, ?_⟩
    rw [if_pos (by rw [h]; rfl)]
    show o.lb_history ++ [S.lower_bound o.solver] = [S.lower_bound o.solver]
    rw [h]
    rfl
  · right
    refine ⟨h, ?_⟩
    rw [if_neg (by simpa using h)]

theorem chosen_iteration_lb_history (S : Solver σ) (dt : ℚ) (o o2 : lbfgs σ)
    (h : chosen_iteration S dt o = some o2) : o2.lb_history = o.lb_history := by
  rcases chosen_iteration_cases S dt o o2 h with ⟨-, rfl⟩ | ⟨-, hl⟩
  · rfl
  · obtain ⟨d, past, -, -, rfl⟩ := lbfgs_iteration_eq_some S dt o o2 hl
    obtain ⟨k, q, p1, -, -, -, -, -, hsame, -⟩ :=
      search_with_cases S (S.make_dual_feasible o.solver d) past o (fun _ => True) trivial
        (fun _ _ => trivial)
    exact (same_parameters_fields hsame).2.2.1

/-- What one call of `iteration()` does to `lb_history`: it seeds it with the lower bound
at the start when it is empty, and appends the lower bound at the end. -/
theorem iteration_lb_history (S : Solver σ) (dt : ℚ) (o o1 : lbfgs σ)
    (h : iteration S dt o = some o1) :
    o1.lb_history = (seed_lb_history S o).lb_history ++ [S.lower_bound o1.solver] := by
  obtain ⟨o2, hc, rfl⟩ := iteration_eq_some S dt o o1 h
  obtain ⟨r1, -, r3, -⟩ := record_iterate_frame S o2
  rw [r3, r1, chosen_iteration_lb_history S dt _ o2 hc]

theorem iteration_lb_history_extends (S : Solver σ) (dt : ℚ) (o o1 : lbfgs σ)
    (h : iteration S dt o = some o1) : ∃ l, o1.lb_history = o.lb_history ++ l := by
  have h1 := iteration_lb_history S dt o o1 h
  rcases seed_lb_history_lb_history S o with ⟨e1, e2⟩ | ⟨-, e2⟩
  · rw [e2] at h1
    exact ⟨_, by rw [h1, e1]; rfl⟩
  · rw [e2] at h1
    exact ⟨_, h1⟩

theorem iteration_lb_history_after (S : Solver σ) (dt : ℚ) (n : Nat) (o o1 : lbfgs σ)
    (h : iteration S dt o = some o1) (hn : lb_history_after n o) :
    lb_history_after (n + 1) o1 := by
  have h1 := iteration_lb_history S dt o o1 h
  rcases seed_lb_history_lb_history S o with ⟨e1, e2⟩ | ⟨e1, e2⟩
  · rw [e2] at h1
    rcases hn with ⟨hn0, -⟩ | ⟨-, hlen⟩
    · refine Or.inr ⟨by omega, ?_⟩
      rw [h1, hn0]
      rfl
    · rw [e1] at hlen
      simp only [List.length_nil] at hlen
      omega
  · rw [e2] at h1
    rcases hn with ⟨-, hnil⟩ | ⟨hn1, hlen⟩
    · exact absurd hnil e1
    · refine Or.inr ⟨by omega, ?_⟩
      rw [h1, List.length_append, List.length_singleton, hlen]

/-- Along a sequence of calls, `lb_history` only grows at its back. -/
theorem run_lb_history_extends (S : Solver σ) (calls : List call) (o o1 : lbfgs σ)
    (h : run S o calls = some o1) : ∃ l, o1.lb_history = o.lb_history ++ l := by
  induction calls generalizing o with
  | nil =>
    rw [run] at h
    cases h
    exact ⟨[], (List.append_nil _).symm⟩
  | cons c cs ih =>
    rw [run] at h
    cases hc : c.apply S o with
    | none =>
      rw [hc] at h
      cases h
    | some o2 =>
      rw [hc] at h
      obtain ⟨l2, g4⟩ := ih o2 h
      cases c with
      | iteration dt =>
        obtain ⟨l1, g2⟩ := iteration_lb_history_extends S dt o o2 hc
        exact ⟨l1 ++ l2, by rw [g4, g2, List.append_assoc]⟩
      | update_costs c0 c1 =>
        have ho2 : some (update_costs S o c0 c1) = some o2 := hc
        cases ho2
        exact ⟨l2, g4⟩

/-- Along a sequence of calls, `lb_history` gets one entry for each call of `iteration()`
and one more entry for the first one. -/
theorem run_lb_history_after (S : Solver σ) (calls : List call) (n : Nat) (o o1 : lbfgs σ)
    (h : run S o calls = some o1) (hn : lb_history_after n o) :
    lb_history_after (n + count_iterations calls) o1 := by
  induction calls generalizing n o with
  | nil =>
    rw [run] at h
    cases h
    exact hn
  | cons c cs ih =>
    rw [run] at h
    cases hc : c.apply S o with
    | none =>
      rw [hc] at h
      cases h
    | some o2 =>
      rw [hc] at h
      cases c with
      | iteration dt =>
        have g3 := ih (n + 1) o2 h (iteration_lb_history_after S dt n o o2 hc hn)
        have : n + count_iterations (call.iteration dt :: cs) = n + 1 + count_iterations cs := by
          rw [count_iterations]
          omega
        rw [this]
        exact g3
      | update_costs c0 c1 =>
        have ho2 : some (update_costs S o c0 c1) = some o2 := hc
        cases ho2
        exact ih n _ h hn

/-- C18: `lb_history` is append-only, with one entry for each completed iteration on top of
one seed. In a run from construction (with `m > 1`) by any calls of `iteration()` and
`update_costs()`: the `lb_history` after more calls extends, at its back, the one after
fewer calls; after `k >= 1` calls of `iteration()` it has exactly `k + 1` entries; and a
further call of `iteration()` leaves as its last entry the lower bound at the end of this
iteration. -/
theorem lb_history_append_only (S : Solver σ) (solver : σ) (m : Nat)
    (step req dec inc : ℚ) (hm : 1 < m) (cs1 cs2 : List call) (dt : ℚ) :
    ∃ o1 o2 o3, run S (lbfgs.construct S solver m step req dec inc) cs1 = some o1 ∧
      run S (lbfgs.construct S solver m step req dec inc) (cs1 ++ cs2) = some o2 ∧
      iteration S dt o2 = some o3 ∧
      (∃ l, o2.lb_history = o1.lb_history ++ l) ∧
      (count_iterations (cs1 ++ cs2) = 0 → o2.lb_history = []) ∧
      (1 ≤ count_iterations (cs1 ++ cs2) →
        o2.lb_history.length = count_iterations (cs1 ++ cs2) + 1) ∧
      o3.lb_history.length = count_iterations (cs1 ++ cs2) + 2 ∧
      (∃ l, o3.lb_history = o2.lb_history ++ l) ∧
      o3.lb_history.getLast? = some (S.lower_bound o3.solver) := by
  obtain ⟨o1, hrun1, hinv1⟩ := run_invariant S m hm cs1 _
    (construct_invariant S solver m step req dec inc)
  obtain ⟨o2, hrun2, hinv2⟩ := run_invariant S m hm cs2 o1 hinv1
  obtain ⟨o3, hit, -⟩ := iteration_invariant S dt m hm o2 hinv2
  have hrun12 : run S (lbfgs.construct S solver m step req dec inc) (cs1 ++ cs2) = some o2 := by
    rw [run_append S cs1 cs2 _ o1 hrun1]
    exact hrun2
  have hafter := run_lb_history_after S (cs1 ++ cs2) 0 _ o2 hrun12 (Or.inl ⟨rfl, rfl⟩)
  have hafter3 := iteration_lb_history_after S dt _ o2 o3 hit hafter
  refine ⟨o1, o2, o3, hrun1, hrun12, hit, run_lb_history_extends S cs2 o1 o2 hrun2, ?_, ?_, ?_,
    iteration_lb_history_extends S dt o2 o3 hit, ?_⟩
  · intro h0
    rcases hafter with ⟨-, h⟩ | ⟨h, -⟩
    · exact h
    · omega
  · intro h1
    rcases hafter with ⟨h, -⟩ | ⟨-, h⟩
    · omega
    · rw [h]
      omega
  · rcases hafter3 with ⟨h, -⟩ | ⟨-, h⟩
    · omega
    · rw [h]
      omega
  · rw [iteration_lb_history S dt o2 o3 hit, List.getLast?_append, List.getLast?_singleton]
    rfl

/-- C18 at a concrete run, with `m = 2`: two calls of `iteration()`, then a change of the
costs and two more calls, then a fifth call. -/
theorem lb_history_append_only_witness :
    ∃ o1 o2 o3, run ascent_solver
        (lbfgs.construct ascent_solver 0 2 (1 / 1000000) (1 / 1000000) (4 / 5) (11 / 10))
        [call.iteration 1, call.iteration 1] = some o1 ∧
      run ascent_solver
        (lbfgs.construct ascent_solver 0 2 (1 / 1000000) (1 / 1000000) (4 / 5) (11 / 10))
        ([call.iteration 1, call.iteration 1] ++
          [call.update_costs [1, 0] [0, 1], call.iteration 1, call.iteration 1]) = some o2 ∧
      iteration ascent_solver 1 o2 = some o3 ∧
      (∃ l, o2.lb_history = o1.lb_history ++ l) ∧ o2.lb_history.length = 5 ∧
      o3.lb_history.getLast? = some (ascent_solver.lower_bound o3.solver) := by
  obtain ⟨o1, o2, o3, h1, h2, h3, h4, -, h5, -, -, h6⟩ :=
    lb_history_append_only ascent_solver 0 2 (1 / 1000000) (1 / 1000000) (4 / 5) (11 / 10)
      (by decide) [call.iteration 1, call.iteration 1]
      [call.update_costs [1, 0] [0, 1], call.iteration 1, call.iteration 1] 1
  exact ⟨o1, o2, o3, h1, h2, h3, h4, h5 (by decide), h6⟩

/-! ## The calls of the base solver and the counters of iterations -/

theorem apply_update_traced (S : Solver σ) (update : Vec) (c : ℚ) (t0 : List solver_call)
    (p : lbfgs (σ × List solver_call) × search_locals)
    (h : gradient_steps_since t0 p.1.solver.2) :
    gradient_steps_since t0 (apply_update (traced S) update c p).1.solver.2 := by
  unfold apply_update
  dsimp only
  split_ifs
  · obtain ⟨l, hl, ht⟩ := h
    refine ⟨l ++ [solver_call.gradient_step], ?_, ?_⟩
    · intro e he
      rw [List.mem_append, List.mem_singleton] at he
      rcases he with he | he
      · exact hl e he
      · exact he
    · show p.1.solver.2 ++ [solver_call.gradient_step] =
        t0 ++ (l ++ [solver_call.gradient_step])
      rw [ht, List.append_assoc]
  · exact h

/-- The search calls no state-changing method of the base solver but `gradient_step`. -/
theorem search_with_traced (S : Solver σ) (update : Vec) (past : ℚ)
    (o : lbfgs (σ × List solver_call)) :
    gradient_steps_since o.solver.2 (search_with (traced S) update past o).1.solver.2 := by
  obtain ⟨k, q, p1, -, -, hJ, -, -, -, -, hcases⟩ :=
    search_with_cases (traced S) update past o
      (fun p => gradient_steps_since o.solver.2 p.1.solver.2)
      ⟨[], by simp, (List.append_nil _).symm⟩
      (fun p hp => by
        show gradient_steps_since o.solver.2 (search_trial (traced S) update _ past p).1.solver.2
        rw [(search_trial_object (traced S) update _ past p).1]
        exact apply_update_traced S update _ _ p hp)
  rcases hcases with ⟨-, -, -, -, hs⟩ | ⟨-, -, -, -, hs, -⟩ | ⟨-, -, -, -, hs, -⟩
  · rw [hs]
    exact hJ
  · rw [hs]
    exact apply_update_traced S update _ _ p1 hJ
  · rw [hs]
    exact apply_update_traced S update _ _ p1 hJ

/-- One call of `iteration()` with the traced solver: some calls of `gradient_step`, none
in the base path, then one call of the iteration of the base solver. -/
theorem iteration_traced (S : Solver σ) (dt : ℚ) (o o1 : lbfgs (σ × List solver_call))
    (h : iteration (traced S) dt o = some o1) :
    ∃ l : List solver_call, (∀ e ∈ l, e = solver_call.gradient_step) ∧
      o1.solver.2 = o.solver.2 ++ l ++ [solver_call.iteration] ∧
      (choose_solver (seed_lb_history (traced S) o) = solver_type.mma → l = []) := by
  obtain ⟨o2, hc, rfl⟩ := iteration_eq_some (traced S) dt o o1 h
  obtain ⟨r1, -⟩ := record_iterate_frame (traced S) o2
  obtain ⟨-, -, s3, -⟩ := seed_lb_history_fields (traced S) o
  rw [r1]
  rcases chosen_iteration_cases (traced S) dt _ o2 hc with ⟨-, rfl⟩ | ⟨hl, hit⟩
  · refine ⟨[], by simp, ?_, fun _ => rfl⟩
    show (seed_lb_history (traced S) o).solver.2 ++ [solver_call.iteration] =
      o.solver.2 ++ [] ++ [solver_call.iteration]
    rw [s3, List.append_nil]
  · obtain ⟨d, past, -, -, rfl⟩ := lbfgs_iteration_eq_some (traced S) dt _ o2 hit
    obtain ⟨l, hl1, hl2⟩ := search_with_traced S
      ((traced S).make_dual_feasible (seed_lb_history (traced S) o).solver d) past
      (seed_lb_history (traced S) o)
    refine ⟨l, hl1, ?_, ?_⟩
    · show (search_with (traced S) _ past (seed_lb_history (traced S) o)).1.solver.2 ++
        [solver_call.iteration] = o.solver.2 ++ l ++ [solver_call.iteration]
      rw [hl2, s3]
    · intro hm
      rw [hm] at hl
      cases hl

/-- One call of `iteration()` increments one of the two counters of iterations by one: the
one of the path chosen by `choose_solver`. -/
theorem iteration_counters (S : Solver σ) (dt : ℚ) (o o1 : lbfgs σ)
    (h : iteration S dt o = some o1) :
    (choose_solver (seed_lb_history S o) = solver_type.mma ∧
      o1.mma_iterations = o.mma_iterations + 1 ∧ o1.lbfgs_iterations = o.lbfgs_iterations) ∨
    (choose_solver (seed_lb_history S o) = solver_type.lbfgs ∧
      o1.mma_iterations = o.mma_iterations ∧
      o1.lbfgs_iterations = o.lbfgs_iterations + 1) := by
  obtain ⟨o2, hc, rfl⟩ := iteration_eq_some S dt o o1 h
  obtain ⟨-, -, -, -, -, -, -, r8, r9, -⟩ := record_iterate_frame S o2
  obtain ⟨-, -, -, -, -, s6, s7, -⟩ := seed_lb_history_fields S o
  rw [r8, r9]
  rcases chosen_iteration_cases S dt _ o2 hc with ⟨hm, rfl⟩ | ⟨hl, hit⟩
  · left
    refine ⟨hm, ?_, ?_⟩
    · show (seed_lb_history S o).mma_iterations + 1 = o.mma_iterations + 1
      rw [s6]
    · exact s7
  · right
    obtain ⟨d, past, -, -, rfl⟩ := lbfgs_iteration_eq_some S dt _ o2 hit
    obtain ⟨k, q, p1, -, -, -, -, -, hsame, -⟩ :=
      search_with_cases S (S.make_dual_feasible (seed_lb_history S o).solver d) past
        (seed_lb_history S o) (fun _ => True) trivial (fun _ _ => trivial)
    obtain ⟨-, -, -, -, -, -, -, f8, f9⟩ := same_parameters_fields hsame
    refine ⟨hl, ?_, ?_⟩
    · show (search_with S _ past (seed_lb_history S o)).1.mma_iterations = o.mma_iterations
      rw [f8, s6]
    · show (search_with S _ past (seed_lb_history S o)).1.lbfgs_iterations + 1 =
        o.lbfgs_iterations + 1
      rw [f9, s7]

/-- Along a sequence of calls, the two counters of iterations together count the calls of
`iteration()`. -/
theorem run_counters (S : Solver σ) (calls : List call) (o o1 : lbfgs σ)
    (h : run S o calls = some o1) :
    o1.mma_iterations + o1.lbfgs_iterations =
      o.mma_iterations + o.lbfgs_iterations + count_iterations calls := by
  induction calls generalizing o with
  | nil =>
    rw [run] at h
    cases h
    rfl
  | cons c cs ih =>
    rw [run] at h
    cases hc : c.apply S o with
    | none =>
      rw [hc] at h
      cases h
    | some o2 =>
      rw [hc] at h
      have h2 := ih o2 h
      cases c with
      | iteration dt =>
        rw [count_iterations, h2]
        rcases iteration_counters S dt o o2 hc with ⟨-, g1, g2⟩ | ⟨-, g1, g2⟩
        · rw [g1, g2]
          omega
        · rw [g1, g2]
          omega
      | update_costs c0 c1 =>
        have ho2 : some (update_costs S o c0 c1) = some o2 := hc
        cases ho2
        rw [count_iterations, h2]
        rfl

/-- C17: in a run from construction (with `m > 1`), for every solver. (1) Every call of
`iteration()` increments exactly one of `mma_iterations` and `lbfgs_iterations` by one, the
one of the path chosen, and `mma_iterations + lbfgs_iterations` equals the number of
`iteration()` calls made. (2) With the calls of the base solver recorded, every call of
`iteration()` makes exactly one call of the iteration of the base solver, as its last call
of the base solver, after the calls of `gradient_step` made by the step-size search, of
which there are none in the base path. -/
theorem iteration_runs_base_solver_once (S : Solver σ) (solver : σ) (m : Nat)
    (step req dec inc : ℚ) (hm : 1 < m) (calls : List call) (dt : ℚ) :
    (∃ o o1, run S (lbfgs.construct S solver m step req dec inc) calls = some o ∧
      iteration S dt o = some o1 ∧
      o.mma_iterations + o.lbfgs_iterations = count_iterations calls ∧
      o1.mma_iterations + o1.lbfgs_iterations = count_iterations calls + 1 ∧
      ((choose_solver (seed_lb_history S o) = solver_type.mma ∧
          o1.mma_iterations = o.mma_iterations + 1 ∧
          o1.lbfgs_iterations = o.lbfgs_iterations) ∨
        (choose_solver (seed_lb_history S o) = solver_type.lbfgs ∧
          o1.mma_iterations = o.mma_iterations ∧
          o1.lbfgs_iterations = o.lbfgs_iterations + 1))) ∧
    (∃ o o1, run (traced S) (lbfgs.construct (traced S) (solver, []) m step req dec inc) calls =
        some o ∧
      iteration (traced S) dt o = some o1 ∧
      ∃ l : List solver_call, (∀ e ∈ l, e = solver_call.gradient_step) ∧
        o1.solver.2 = o.solver.2 ++ l ++ [solver_call.iteration] ∧
        (choose_solver (seed_lb_history (traced S) o) = solver_type.mma → l = [])) := by
  constructor
  · obtain ⟨o, hrun, hinv⟩ := run_invariant S m hm calls _
      (construct_invariant S solver m step req dec inc)
    obtain ⟨o1, hit, -⟩ := iteration_invariant S dt m hm o hinv
    have hc := run_counters S calls _ o hrun
    have hc0 : o.mma_iterations + o.lbfgs_iterations = count_iterations calls := by
      rw [hc]
      show 0 + 0 + count_iterations calls = count_iterations calls
      omega
    have h1 := iteration_counters S dt o o1 hit
    refine ⟨o, o1, hrun, hit, hc0, ?_, h1⟩
    rcases h1 with ⟨-, g1, g2⟩ | ⟨-, g1, g2⟩
    · rw [g1, g2]
      omega
    · rw [g1, g2]
      omega
  · obtain ⟨o, hrun, hinv⟩ := run_invariant (traced S) m hm calls _
      (construct_invariant (traced S) (solver, []) m step req dec inc)
    obtain ⟨o1, hit, -⟩ := iteration_invariant (traced S) dt m hm o hinv
    exact ⟨o, o1, hrun, hit, iteration_traced S dt o o1 hit⟩

/-- C17 at a concrete run, with `m = 2`: after four calls of `iteration()` a fifth call
brings the sum of the two counters from 4 to 5. -/
theorem iteration_runs_base_solver_once_witness :
    ∃ o o1, run ascent_solver
        (lbfgs.construct ascent_solver 0 2 (1 / 1000000) (1 / 1000000) (4 / 5) (11 / 10))
        [call.iteration 1, call.iteration 1, call.iteration 1, call.iteration 1] = some o ∧
      iteration ascent_solver 1 o = some o1 ∧
      o.mma_iterations + o.lbfgs_iterations = 4 ∧
      o1.mma_iterations + o1.lbfgs_iterations = 5 := by
  obtain ⟨o, o1, h1, h2, h3, h4, -⟩ :=
    (iteration_runs_base_solver_once ascent_solver 0 2 (1 / 1000000) (1 / 1000000) (4 / 5)
      (11 / 10) (by decide)
      [call.iteration 1, call.iteration 1, call.iteration 1, call.iteration 1] 1).1
  exact ⟨o, o1, h1, h2, h3, h4⟩

/-! ## The two-loop recursion as a recurrence -/

theorem update_q_eq (alpha : ℚ) (y q : Vec) : update_q alpha y q = minus q (scale alpha y) := by
  unfold update_q minus scale
  rw [List.zipWith_map_right]

theorem update_r_eq (alpha beta : ℚ) (s r : Vec) :
    update_r alpha beta s r = plus r (scale (alpha - beta) s) := by
  unfold update_r plus scale
  rw [List.zipWith_map_right]
  congr 1
  funext a b
  rw [mul_comm]

theorem first_loop_cons (e : history_entry) (rest : List history_entry) (g : Vec) :
    first_loop (e :: rest) g = first_loop_body (first_loop rest g) e := by
  unfold first_loop
  rw [List.reverse_cons, List.foldl_append]
  rfl

theorem recurrence_alpha_succ (e : history_entry) (rest : List history_entry) (g : Vec)
    (i : Nat) : recurrence_alpha (e :: rest) g (i + 1) = recurrence_alpha rest g i := rfl

/-- The first loop computes `q_0`, and the reversed `alpha_history` holds at the index `i`
the scalar `alpha_i` of the entry `h_i`. -/
theorem first_loop_recurrence (history : List history_entry) (g : Vec) :
    (first_loop history g).1 = recurrence_q history g ∧
    (first_loop history g).2.length = history.length ∧
    ∀ i : Nat, i < history.length →
      (first_loop history g).2.reverse[i]? = some (recurrence_alpha history g i) := by
  induction history with
  | nil =>
    refine ⟨rfl, rfl, ?_⟩
    intro i hi
    exact absurd hi (Nat.not_lt_zero _)
  | cons e rest ih =>
    obtain ⟨h1, h2, h3⟩ := ih
    rw [first_loop_cons]
    unfold first_loop_body
    dsimp only
    refine ⟨?_, ?_, ?_⟩
    · rw [update_q_eq, h1]
      rfl
    · rw [List.length_append, h2]
      rfl
    · intro i hi
      rw [List.reverse_append, List.reverse_singleton, List.singleton_append]
      cases i with
      | zero =>
        rw [List.getElem?_cons_zero, h1]
        rfl
      | succ j =>
        rw [List.getElem?_cons_succ, recurrence_alpha_succ]
        exact h3 j (Nat.lt_of_succ_lt_succ hi)

/-- The second loop, run over the first `i` entries, computes `r_i`. -/
theorem second_loop_take (history : List history_entry) (g : Vec) (gamma : ℚ) (i : Nat)
    (hi : i ≤ history.length) :
    ((List.enum (List.zip history (first_loop history g).2.reverse)).take i).foldl
      (second_loop_body gamma) (first_loop history g).1 = recurrence_r history g gamma i := by
  obtain ⟨h1, h2, h3⟩ := first_loop_recurrence history g
  induction i with
  | zero =>
    rw [List.take_zero, List.foldl_nil, h1]
    rfl
  | succ j ih =>
    have hj : j < history.length := hi
    obtain ⟨e, he⟩ : ∃ e, history[j]? = some e :=
      ⟨history[j], List.getElem?_eq_getElem hj⟩
    have hz : (List.zip history (first_loop history g).2.reverse)[j]? =
        some (e, recurrence_alpha history g j) :=
      List.getElem?_zip_eq_some.mpr ⟨he, h3 j hj⟩
    rw [List.take_succ, List.foldl_append, ih (Nat.le_of_lt hj), List.getElem?_enum, hz]
    show second_loop_body gamma (recurrence_r history g gamma j)
      (j, e, recurrence_alpha history g j) = recurrence_r history g gamma (j + 1)
    rw [recurrence_r, he]
    unfold second_loop_body
    dsimp only
    rw [update_r_eq]
    by_cases h0 : j = 0
    · rw [if_pos h0, if_pos h0, one_div, div_eq_mul_inv, mul_comm gamma]
    · rw [if_neg h0, if_neg h0]

/-- C21: for every history `h_0 .. h_{k-1}` which is not empty, given oldest first, and
every input `g`, the method `compute_update_direction` returns the vector `r_k` of the
recurrence `q_k = g`, `alpha_i = <s_i, q_{i+1}> / rho_inv_i`,
`q_i = q_{i+1} - alpha_i * y_i` for `i = k-1 .. 0`, `r_0 = q_0`,
`beta_i = c_i * <y_i, r_i>`, `r_{i+1} = r_i + (alpha_i - beta_i) * s_i` for `i = 0 .. k-1`,
where `c_0 = gamma / rho_inv_0`, `c_i = 1 / rho_inv_i` for `i > 0` and
`gamma = rho_inv_{k-1} / (1e-8 + <y_{k-1}, y_{k-1}>)`. -/
theorem compute_update_direction_recurrence (history : List history_entry) (g : Vec)
    (hne : history ≠ []) :
    ∃ last : history_entry, history.getLast? = some last ∧
      compute_update_direction history g =
        some (recurrence_r history g
          (last.rho_inv / (1 / 100000000 + inner_product last.y last.y)) history.length) ∧
      compute_update_direction history g = recurrence_two_loop history g := by
  cases hl : history.getLast? with
  | none => exact absurd (List.getLast?_eq_none_iff.mp hl) hne
  | some last =>
    have hlen : (List.enum (List.zip history (first_loop history g).2.reverse)).length =
        history.length := by
      rw [List.enum_length, List.length_zip, List.length_reverse,
        (first_loop_recurrence history g).2.1, Nat.min_self]
    have h := second_loop_take history g
      (last.rho_inv / (1 / 100000000 + inner_product last.y last.y)) history.length
      (Nat.le_refl _)
    rw [← hlen, List.take_length] at h
    have hc : compute_update_direction history g =
        some (recurrence_r history g
          (last.rho_inv / (1 / 100000000 + inner_product last.y last.y))
          history.length) := by
      unfold compute_update_direction
      rw [hl]
      dsimp only
      unfold second_loop
      rw [h, hlen]
    refine ⟨last, rfl, hc, ?_⟩
    rw [hc]
    unfold recurrence_two_loop
    rw [hl]

/-- C21 at the history `two_entry_history` and the input `(0, 1)`. -/
theorem compute_update_direction_recurrence_witness :
    ∃ last : history_entry, two_entry_history.getLast? = some last ∧
      compute_update_direction two_entry_history [0, 1] =
        some (recurrence_r two_entry_history [0, 1]
          (last.rho_inv / (1 / 100000000 + inner_product last.y last.y))
          two_entry_history.length) ∧
      compute_update_direction two_entry_history [0, 1] =
        recurrence_two_loop two_entry_history [0, 1] :=
  compute_update_direction_recurrence two_entry_history [0, 1] (by decide)

/-! ## The readiness of the acceleration -/

theorem seed_lb_history_update_possible (S : Solver σ) (o : lbfgs σ) :
    lbfgs_update_possible (seed_lb_history S o) = lbfgs_update_possible o := by
  obtain ⟨h1, h2, -, -, -, -, -, -, -, -, h11⟩ := seed_lb_history_fields S o
  unfold lbfgs_update_possible
  rw [h1, h2, h11]

theorem update_possible_fields (o : lbfgs σ) (h : lbfgs_update_possible o = true) :
    o.m ≤ o.history.length ∧ o.num_unsuccessful_lbfgs_updates_ ≤ 5 := by
  unfold lbfgs_update_possible at h
  by_contra hc
  rw [if_pos (by omega)] at h
  cases h

theorem choose_solver_lbfgs_possible (o : lbfgs σ) (h : choose_solver o = solver_type.lbfgs) :
    lbfgs_update_possible o = true := by
  cases hp : lbfgs_update_possible o with
  | true => rfl
  | false =>
    rw [choose_solver_possible_false o hp] at h
    cases h

/-- With no accelerated iteration and at least one base iteration counted, a ready
optimizer chooses the accelerated path, whatever the two rates. -/
theorem choose_solver_no_lbfgs_iterations (o : lbfgs σ) (hp : lbfgs_update_possible o = true)
    (h0 : o.lbfgs_iterations = 0) (h1 : 1 ≤ o.mma_iterations) :
    choose_solver o = solver_type.lbfgs := by
  have hc : (1 : ℚ) ≤ (o.mma_iterations : ℚ) := by exact_mod_cast h1
  unfold choose_solver
  rw [hp, h0]
  simp only [Bool.not_true, Bool.false_eq_true, if_false, Nat.cast_zero, zero_div, zero_add]
  rw [if_neg (by norm_num), if_pos]
  rw [gt_iff_lt, lt_div_iff₀ (by norm_num)]
  linarith

theorem seed_lb_history_length (S : Solver σ) (o : lbfgs σ) :
    o.lb_history.length ≤ (seed_lb_history S o).lb_history.length := by
  rcases seed_lb_history_lb_history S o with ⟨h1, h2⟩ | ⟨-, h2⟩
  · rw [h1]
    exact Nat.zero_le _
  · rw [h2]

/-- A call of `iteration()` adds at most one entry to the history. -/
theorem iteration_history_length (S : Solver σ) (dt : ℚ) (m : Nat) (hm : 1 < m)
    (o o1 : lbfgs σ) (h : history_invariant m o) (hit : iteration S dt o = some o1) :
    o1.history.length ≤ o.history.length + 1 := by
  obtain ⟨h1, h2, h3, h4⟩ := h
  obtain ⟨o2, hc, rfl⟩ := iteration_eq_some S dt o o1 hit
  obtain ⟨s1, s2, -⟩ := seed_lb_history_fields S o
  have hl := seed_lb_history_length S o
  obtain ⟨o3, hstep, g1, g2, -⟩ := iteration_step_history S dt (seed_lb_history S o)
    (by rw [s2, h1]; exact hm)
    (by rw [s1]; exact le_trans h3 hl)
  unfold chosen_iteration at hc
  rw [hstep] at hc
  cases hc
  obtain ⟨-, -, t3, -⟩ := store_iterate_invariant S m o2
    ⟨by rw [g2, s2, h1], by rw [g1, s1]; exact h2, by rw [g1, s1]; exact h4⟩
  rw [g1, s1] at t3
  exact t3

/-- The history holds no more entries than iterations were counted. -/
theorem run_history_counted (S : Solver σ) (solver : σ) (m : Nat) (step req dec inc : ℚ)
    (hm : 1 < m) (calls : List call) :
    ∃ o1, run S (lbfgs.construct S solver m step req dec inc) calls = some o1 ∧
      history_invariant m o1 ∧
      o1.history.length ≤ o1.mma_iterations + o1.lbfgs_iterations := by
  refine run_invariant_with S m hm
    (fun o => o.history.length ≤ o.mma_iterations + o.lbfgs_iterations) ?_ ?_ calls _
    (construct_invariant S solver m step req dec inc) (Nat.zero_le _)
  · intro dt o o1 hinv hQ hit
    have hlen := iteration_history_length S dt m hm o o1 hinv hit
    rcases iteration_counters S dt o o1 hit with ⟨-, c1, c2⟩ | ⟨-, c1, c2⟩
    · show o1.history.length ≤ o1.mma_iterations + o1.lbfgs_iterations
      rw [c1, c2]
      have hQ1 : o.history.length ≤ o.mma_iterations + o.lbfgs_iterations := hQ
      omega
    · show o1.history.length ≤ o1.mma_iterations + o1.lbfgs_iterations
      rw [c1, c2]
      have hQ1 : o.history.length ≤ o.mma_iterations + o.lbfgs_iterations := hQ
      omega
  · intro c0 c1 o _ _
    exact Nat.zero_le _

/-- As long as the optimizer was never ready before a call, no accelerated iteration is
counted. -/
theorem run_never_ready (S : Solver σ) (calls : List call) (o o1 : lbfgs σ)
    (h : run S o calls = some o1)
    (hnever : ∀ (pre rest : List call) (o2 : lbfgs σ), calls = pre ++ rest → rest ≠ [] →
      run S o pre = some o2 → lbfgs_update_possible o2 = false) :
    o1.lbfgs_iterations = o.lbfgs_iterations := by
  induction calls generalizing o with
  | nil =>
    cases h
    rfl
  | cons c cs ih =>
    have h0 : lbfgs_update_possible o = false :=
      hnever [] (c :: cs) o rfl (List.cons_ne_nil _ _) rfl
    rw [run] at h
    cases hc : c.apply S o with
    | none =>
      rw [hc] at h
      cases h
    | some o2 =>
      rw [hc] at h
      have h2 : o2.lbfgs_iterations = o.lbfgs_iterations := by
        cases c with
        | iteration dt =>
          rcases iteration_counters S dt o o2 hc with ⟨-, -, c2⟩ | ⟨hl, -, -⟩
          · exact c2
          · have hp := choose_solver_lbfgs_possible _ hl
            rw [seed_lb_history_update_possible, h0] at hp
            cases hp
        | update_costs c0 c1 =>
          cases hc
          rfl
      rw [← h2]
      refine ih o2 h ?_
      intro pre rest o3 hsplit hrest hrun
      refine hnever (c :: pre) rest o3 (by rw [hsplit]; rfl) hrest ?_
      rw [run, hc]
      exact hrun

/-- C24: if `lbfgs_update_possible()` holds, `lbfgs_iterations == 0` and
`mma_iterations >= 1`, then `choose_solver` returns `solver_type::lbfgs`, whatever the two
rates are. And in a state reached from construction (with `m > 1`) in which
`lbfgs_update_possible()` holds while it held in no state before, these conditions are
met, so that the next `iteration()` selects the accelerated path. -/
theorem choose_solver_first_accelerated (S : Solver σ) (solver : σ) (m : Nat)
    (step req dec inc : ℚ) (hm : 1 < m) (calls : List call) :
    (∀ o : lbfgs σ, lbfgs_update_possible o = true → o.lbfgs_iterations = 0 →
      1 ≤ o.mma_iterations → choose_solver o = solver_type.lbfgs) ∧
    ∃ o1, run S (lbfgs.construct S solver m step req dec inc) calls = some o1 ∧
      ((∀ (pre rest : List call) (o2 : lbfgs σ), calls = pre ++ rest → rest ≠ [] →
          run S (lbfgs.construct S solver m step req dec inc) pre = some o2 →
          lbfgs_update_possible o2 = false) →
        lbfgs_update_possible o1 = true →
        o1.lbfgs_iterations = 0 ∧ 1 ≤ o1.mma_iterations ∧
          choose_solver (seed_lb_history S o1) = solver_type.lbfgs) := by
  refine ⟨choose_solver_no_lbfgs_iterations, ?_⟩
  obtain ⟨o1, hrun, hinv, hQ⟩ := run_history_counted S solver m step req dec inc hm calls
  refine ⟨o1, hrun, ?_⟩
  intro hnever hp
  have h0 : o1.lbfgs_iterations = 0 := run_never_ready S calls _ o1 hrun hnever
  obtain ⟨hlen, -⟩ := update_possible_fields o1 hp
  have h1 : 1 ≤ o1.mma_iterations := by
    rw [hinv.1] at hlen
    omega
  obtain ⟨-, -, -, -, -, s6, s7, -⟩ := seed_lb_history_fields S o1
  refine ⟨h0, h1, choose_solver_no_lbfgs_iterations _ ?_ ?_ ?_⟩
  · rw [seed_lb_history_update_possible]
    exact hp
  · rw [s7]
    exact h0
  · rw [s6]
    exact h1

/-- Three iterations of the optimizer constructed with `m = 2` on `ascent_solver`: all
three run the base solver, and the history is full afterwards. -/
theorem ascent_three_iterations :
    run ascent_solver
        (lbfgs.construct ascent_solver 0 2 (1 / 1000000) (1 / 1000000) (4 / 5) (11 / 10))
        [call.iteration 1, call.iteration 1, call.iteration 1] =
      some
        { solver := 3
          history := [⟨[1, 0], [1, 0], 1⟩, ⟨[1, 0], [1, 0], 1⟩]
          prev_x := [3, 0]
          prev_grad_f := [-3, 0]
          m := 2
          step_size := 1 / 1000000
          required_relative_lb_increase := 1 / 1000000
          step_size_decrease_factor := 4 / 5
          step_size_increase_factor := 11 / 10
          num_unsuccessful_lbfgs_updates_ := 0
          initial_rho_inv := 1
          lb_history := [0, 1, 2, 3]
          prev_states_stored := true
          initial_rho_inv_valid := true
          mma_lb_increase_per_time := 1
          lbfgs_lb_increase_per_time := 0
          mma_iterations := 3
          lbfgs_iterations := 0 } := by
  norm_num [run, call.apply, iteration, choose_solver, lbfgs_update_possible, mma_iteration,
    store_iterate, push_history, minus, inner_product, ascent_solver, lbfgs.construct,
    (by decide : ¬ solver_type.mma = solver_type.lbfgs)]

/-- Before the end of these three iterations `lbfgs_update_possible()` is false. -/
theorem ascent_never_ready (pre rest : List call) (o2 : lbfgs ℚ)
    (hsplit : [call.iteration 1, call.iteration 1, call.iteration 1] = pre ++ rest)
    (hrest : rest ≠ [])
    (hrun : run ascent_solver
      (lbfgs.construct ascent_solver 0 2 (1 / 1000000) (1 / 1000000) (4 / 5) (11 / 10)) pre =
        some o2) :
    lbfgs_update_possible o2 = false := by
  have hlen : pre.length + rest.length = 3 := by
    rw [← List.length_append, ← hsplit]
    rfl
  have hr : 0 < rest.length := List.length_pos.mpr hrest
  have hpre : pre = (List.replicate pre.length (1 : ℚ)).map call.iteration := by
    have h1 : pre = List.take pre.length [call.iteration 1, call.iteration 1, call.iteration 1] := by
      rw [hsplit, List.take_left]
    rcases hp : pre.length with _ | _ | _ | n
    · exact List.length_eq_zero.mp hp
    · rw [h1, hp]
      rfl
    · rw [h1, hp]
      rfl
    · omega
  obtain ⟨o1, h1, h2, h3, -⟩ := run_warming_up ascent_solver (List.replicate pre.length 1) 0
    (lbfgs.construct ascent_solver 0 2 (1 / 1000000) (1 / 1000000) (4 / 5) (11 / 10))
    (by decide) (by rw [List.length_replicate]; show 0 + pre.length ≤ 2 + 1; omega)
    (Or.inl ⟨rfl, rfl, rfl⟩)
  rw [← hpre, hrun] at h1
  cases h1
  rw [List.length_replicate, Nat.zero_add] at h2
  exact warming_up_not_possible pre.length o2 (by rw [h3]; decide) (by rw [h3]; show pre.length ≤ 2; omega) h2

/-- C24 at a concrete state and at a concrete run: with a full history, no accelerated
iteration, one base iteration and the rates `5` and `1`, for which the comparison of the
rates alone would choose the base solver, `choose_solver` returns `solver_type::lbfgs`;
and after three iterations with `m = 2` the optimizer is ready for the first time, and
the next `iteration()` selects the accelerated path. -/
theorem choose_solver_first_accelerated_witness :
    choose_solver (sample_state (0 : ℚ) two_entry_history 0 1 0 5 1) = solver_type.lbfgs ∧
    ∃ o1, run ascent_solver
        (lbfgs.construct ascent_solver 0 2 (1 / 1000000) (1 / 1000000) (4 / 5) (11 / 10))
        [call.iteration 1, call.iteration 1, call.iteration 1] = some o1 ∧
      lbfgs_update_possible o1 = true ∧ o1.lbfgs_iterations = 0 ∧ 1 ≤ o1.mma_iterations ∧
      choose_solver (seed_lb_history ascent_solver o1) = solver_type.lbfgs := by
  obtain ⟨h1, o1, hrun, h2⟩ := choose_solver_first_accelerated ascent_solver 0 2
    (1 / 1000000) (1 / 1000000) (4 / 5) (11 / 10) (by decide)
    [call.iteration 1, call.iteration 1, call.iteration 1]
  have hp : lbfgs_update_possible o1 = true := by
    have he := hrun
    rw [ascent_three_iterations] at he
    cases he
    decide
  exact ⟨h1 _ (by decide) rfl (by decide), o1, hrun, hp, h2 ascent_never_ready hp⟩

/-! ## The reads of the history of the lower bounds -/

/-- C22: in every state reached from construction (with `m > 1`) by any sequence of
`iteration()` and `update_costs()` calls, if the next `iteration()` selects the
accelerated path, then `lb_history` holds at least `m` entries, the first statement of
`iteration()` leaves it as it is, the two reads of `search_step_size_and_apply` at the
offsets `m-2` and `m-1` from the back are inside of the deque, and the call of
`iteration()` is defined. -/
theorem accelerated_path_lb_history (S : Solver σ) (solver : σ) (m : Nat)
    (step req dec inc : ℚ) (hm : 1 < m) (calls : List call) :
    ∃ o, run S (lbfgs.construct S solver m step req dec inc) calls = some o ∧
      (choose_solver (seed_lb_history S o) = solver_type.lbfgs →
        o.m ≤ o.lb_history.length ∧
        (seed_lb_history S o).lb_history = o.lb_history ∧
        (seed_lb_history S o).m = o.m ∧
        (∃ a b : ℚ, rbegin_plus o.lb_history ((o.m : Int) - 2) = some a ∧
          rbegin_plus o.lb_history ((o.m : Int) - 1) = some b ∧
          past_lb_increase (seed_lb_history S o) = some (a - b)) ∧
        ∀ dt, ∃ o1, iteration S dt o = some o1) := by
  obtain ⟨o, hrun, h1, h2, h3, h4⟩ := run_invariant S m hm calls _
    (construct_invariant S solver m step req dec inc)
  refine ⟨o, hrun, ?_⟩
  intro hc
  obtain ⟨s1, s2, -⟩ := seed_lb_history_fields S o
  have hlen := choose_solver_lbfgs_history _ hc
  rw [s1, s2] at hlen
  have hlb : o.m ≤ o.lb_history.length := le_trans hlen h3
  have hne : o.lb_history ≠ [] := by
    intro h0
    rw [h0, h1] at hlb
    simp only [List.length_nil] at hlb
    omega
  have hseed : (seed_lb_history S o).lb_history = o.lb_history := by
    rcases seed_lb_history_lb_history S o with ⟨h0, -⟩ | ⟨-, h0⟩
    · exact absurd h0 hne
    · exact h0
  refine ⟨hlb, hseed, s2, ?_, ?_⟩
  · obtain ⟨a, ha⟩ := rbegin_plus_some o.lb_history ((o.m : Int) - 2) (by omega) (by omega)
    obtain ⟨b, hb⟩ := rbegin_plus_some o.lb_history ((o.m : Int) - 1) (by omega) (by omega)
    refine ⟨a, b, ha, hb, ?_⟩
    unfold past_lb_increase
    rw [hseed, s2, ha, hb]
  · intro dt
    obtain ⟨o1, hit, -⟩ := iteration_invariant S dt m hm o ⟨h1, h2, h3, h4⟩
    exact ⟨o1, hit⟩

/-- C22 at a concrete run: after three iterations with `m = 2` the next `iteration()`
selects the accelerated path, and `lb_history` holds four entries. -/
theorem accelerated_path_lb_history_witness :
    ∃ o, run ascent_solver
        (lbfgs.construct ascent_solver 0 2 (1 / 1000000) (1 / 1000000) (4 / 5) (11 / 10))
        [call.iteration 1, call.iteration 1, call.iteration 1] = some o ∧
      choose_solver (seed_lb_history ascent_solver o) = solver_type.lbfgs ∧
      o.m ≤ o.lb_history.length ∧
      ∃ a b : ℚ, rbegin_plus o.lb_history ((o.m : Int) - 2) = some a ∧
        rbegin_plus o.lb_history ((o.m : Int) - 1) = some b ∧
        past_lb_increase (seed_lb_history ascent_solver o) = some (a - b) := by
  obtain ⟨o, hrun, h⟩ := accelerated_path_lb_history ascent_solver 0 2 (1 / 1000000)
    (1 / 1000000) (4 / 5) (11 / 10) (by decide)
    [call.iteration 1, call.iteration 1, call.iteration 1]
  have hc : choose_solver (seed_lb_history ascent_solver o) = solver_type.lbfgs := by
    have he := hrun
    rw [ascent_three_iterations] at he
    cases he
    norm_num [choose_solver, seed_lb_history, lbfgs_update_possible]
  exact ⟨o, hrun, hc, (h hc).1, (h hc).2.2.2.1⟩

/-! ## The number of unsuccessful updates -/

/-- A call of `iteration()` keeps the number of unsuccessful updates at most six. -/
theorem iteration_unsuccessful_le (S : Solver σ) (dt : ℚ) (o o1 : lbfgs σ)
    (hQ : o.num_unsuccessful_lbfgs_updates_ ≤ 6) (h : iteration S dt o = some o1) :
    o1.num_unsuccessful_lbfgs_updates_ ≤ 6 := by
  obtain ⟨o2, hc, rfl⟩ := iteration_eq_some S dt o o1 h
  obtain ⟨-, -, -, -, -, -, r7, -⟩ := record_iterate_frame S o2
  obtain ⟨-, -, -, -, -, -, -, -, -, -, s11⟩ := seed_lb_history_fields S o
  rw [r7]
  rcases chosen_iteration_cases S dt _ o2 hc with ⟨-, rfl⟩ | ⟨hl, hit⟩
  · show (seed_lb_history S o).num_unsuccessful_lbfgs_updates_ ≤ 6
    rw [s11]
    exact hQ
  · obtain ⟨-, h5⟩ := update_possible_fields _ (choose_solver_lbfgs_possible _ hl)
    obtain ⟨d, past, -, -, rfl⟩ := lbfgs_iteration_eq_some S dt _ o2 hit
    obtain ⟨k, q, p1, -, -, -, -, -, -, -, hcase⟩ :=
      search_with_cases S (S.make_dual_feasible (seed_lb_history S o).solver d) past
        (seed_lb_history S o) (fun _ => True) trivial (fun _ _ => trivial)
    show (search_with S _ past (seed_lb_history S o)).1.num_unsuccessful_lbfgs_updates_ ≤ 6
    rcases hcase with ⟨-, -, -, h0, -⟩ | ⟨-, -, -, h0, -⟩ | ⟨-, -, -, h0, -⟩
    · rw [h0]
      exact Nat.zero_le _
    · rw [h0]
      omega
    · rw [h0]
      omega

/-- With more than five unsuccessful updates counted, a call of `iteration()` is defined,
runs the base path and leaves the number of unsuccessful updates as it is. -/
theorem iteration_disabled (S : Solver σ) (dt : ℚ) (o : lbfgs σ)
    (h : 5 < o.num_unsuccessful_lbfgs_updates_) :
    choose_solver (seed_lb_history S o) = solver_type.mma ∧
    ∃ o1, iteration S dt o = some o1 ∧
      o1.num_unsuccessful_lbfgs_updates_ = o.num_unsuccessful_lbfgs_updates_ ∧
      o1.lbfgs_iterations = o.lbfgs_iterations ∧
      o1.mma_iterations = o.mma_iterations + 1 := by
  obtain ⟨-, -, -, -, -, s6, s7, -, -, -, s11⟩ := seed_lb_history_fields S o
  have hp : lbfgs_update_possible (seed_lb_history S o) = false := by
    rw [seed_lb_history_update_possible]
    unfold lbfgs_update_possible
    rw [if_pos (Or.inr h)]
  have hc := choose_solver_possible_false _ hp
  refine ⟨hc, record_iterate S (mma_iteration S dt (seed_lb_history S o)), ?_, ?_⟩
  · rw [iteration_eq]
    unfold chosen_iteration
    rw [hc, if_neg (by decide)]
  · obtain ⟨-, -, -, -, -, -, r7, r8, r9, -⟩ :=
      record_iterate_frame S (mma_iteration S dt (seed_lb_history S o))
    rw [r7, r8, r9]
    refine ⟨s11, s7, ?_⟩
    show (seed_lb_history S o).mma_iterations + 1 = o.mma_iterations + 1
    rw [s6]

/-- With six unsuccessful updates counted, every sequence of calls of `iteration()` is
defined, runs the base path only and leaves the number at six. -/
theorem run_disabled (S : Solver σ) (dts : List ℚ) (o : lbfgs σ)
    (h : o.num_unsuccessful_lbfgs_updates_ = 6) :
    ∃ o2, run S o (dts.map call.iteration) = some o2 ∧
      o2.num_unsuccessful_lbfgs_updates_ = 6 ∧
      o2.lbfgs_iterations = o.lbfgs_iterations ∧
      o2.mma_iterations = o.mma_iterations + dts.length := by
  induction dts generalizing o with
  | nil => exact ⟨o, rfl, h, rfl, rfl⟩
  | cons dt dts ih =>
    obtain ⟨-, o1, hit, h1, h2, h3⟩ := iteration_disabled S dt o (by omega)
    obtain ⟨o2, hrun, g1, g2, g3⟩ := ih o1 (by rw [h1]; exact h)
    refine ⟨o2, ?_, g1, ?_, ?_⟩
    · rw [List.map_cons, run]
      show (match iteration S dt o with
        | none => none
        | some o1 => run S o1 (dts.map call.iteration)) = some o2
      rw [hit]
      exact hrun
    · rw [g2, h2]
    · rw [g3, h3, List.length_cons]
      omega

/-- C23: in every state reached from construction (with `m > 1`) by any sequence of
`iteration()` and `update_costs()` calls, `num_unsuccessful_lbfgs_updates_ <= 6`. If it
equals six, then after any number of further calls of `iteration()` it still equals six,
no accelerated iteration has been counted, every call having run the base path, and the
next call of `iteration()` selects the base path again. A call of `update_costs()` sets it
to zero. -/
theorem unsuccessful_updates_at_most_six (S : Solver σ) (solver : σ) (m : Nat)
    (step req dec inc : ℚ) (hm : 1 < m) (calls : List call) :
    ∃ o, run S (lbfgs.construct S solver m step req dec inc) calls = some o ∧
      o.num_unsuccessful_lbfgs_updates_ ≤ 6 ∧
      (o.num_unsuccessful_lbfgs_updates_ = 6 →
        ∀ dts : List ℚ, ∃ o2, run S o (dts.map call.iteration) = some o2 ∧
          o2.num_unsuccessful_lbfgs_updates_ = 6 ∧
          o2.lbfgs_iterations = o.lbfgs_iterations ∧
          o2.mma_iterations = o.mma_iterations + dts.length ∧
          choose_solver (seed_lb_history S o2) = solver_type.mma) ∧
      ∀ c0 c1, (update_costs S o c0 c1).num_unsuccessful_lbfgs_updates_ = 0 := by
  obtain ⟨o, hrun, -, hQ⟩ := run_invariant_with S m hm
    (fun o => o.num_unsuccessful_lbfgs_updates_ ≤ 6)
    (fun dt o o1 _ hQ hit => iteration_unsuccessful_le S dt o o1 hQ hit)
    (fun _ _ _ _ _ => Nat.zero_le _) calls _
    (construct_invariant S solver m step req dec inc) (Nat.zero_le _)
  refine ⟨o, hrun, hQ, ?_, fun _ _ => rfl⟩
  intro h6 dts
  obtain ⟨o2, h2, g1, g2, g3⟩ := run_disabled S dts o h6
  exact ⟨o2, h2, g1, g2, g3, (iteration_disabled S 1 o2 (by omega)).1⟩

/-! ## A run which disables the acceleration -/

/-- On a solver whose lower bound is constantly zero every search fails: the update is
taken back and the number of unsuccessful updates is incremented. -/
theorem search_flat_fails (S : Solver σ) (hflat : ∀ s, S.lower_bound s = 0) (update : Vec)
    (past : ℚ) (o : lbfgs σ) (hreq : 0 < o.required_relative_lb_increase) :
    (search_with S update past o).1.num_unsuccessful_lbfgs_updates_ =
      o.num_unsuccessful_lbfgs_updates_ + 1 := by
  have htrial : ∀ p, trial_rel_change S update (S.lower_bound o.solver) past p = 0 := by
    intro p
    unfold trial_rel_change calculate_rel_change
    dsimp only
    rw [hflat, hflat, sub_self, zero_div]
  obtain ⟨k, q, p1, -, -, ⟨j1, j2⟩, -, -, -, -, hcase⟩ :=
    search_with_cases S update past o
      (fun p => p.2.curr_rel_change = 0 ∧ p.2.best_rel_improvement = 0)
      ⟨rfl, rfl⟩
      (fun p hp => by
        refine ⟨?_, ?_⟩
        · rw [(search_trial_locals S update _ past p).2.1]
          exact htrial p
        · rw [(search_trial_best S update _ past p).1, htrial p, hp.2, if_neg (lt_irrefl _)])
  rcases hcase with ⟨-, h, -⟩ | ⟨-, h, -⟩ | ⟨-, -, -, h, -⟩
  · rw [j1] at h
    exact absurd hreq h
  · rw [j2] at h
    exact absurd h (not_lt.mpr (le_of_lt (div_pos hreq (by norm_num))))
  · exact h

theorem seed_lb_history_self (S : Solver σ) (o : lbfgs σ) (h : o.lb_history ≠ []) :
    seed_lb_history S o = o := by
  unfold seed_lb_history
  rw [if_neg (by simpa using h)]

theorem store_iterate_rates (S : Solver σ) (o : lbfgs σ) :
    (store_iterate S o).mma_lb_increase_per_time = o.mma_lb_increase_per_time ∧
    (store_iterate S o).lbfgs_lb_increase_per_time = o.lbfgs_lb_increase_per_time ∧
    (store_iterate S o).required_relative_lb_increase = o.required_relative_lb_increase := by
  unfold store_iterate
  dsimp only
  split_ifs <;> exact ⟨rfl, rfl, rfl⟩

theorem store_iterate_full_history (S : Solver σ) (o : lbfgs σ)
    (h : o.history.length = o.m) : (store_iterate S o).history.length = o.m := by
  obtain ⟨-, -, -, h4⟩ := store_iterate_history S o
  rcases h4 with h4 | ⟨e, -, -, h4⟩
  · rw [h4, h]
  · rw [h4]
    unfold push_history
    dsimp only
    rw [if_pos (by rw [List.length_append, List.length_singleton, h]; exact Nat.lt_succ_self _),
      List.length_tail, List.length_append, List.length_singleton, h]
    rfl

/-- One more accelerated iteration whose search fails. -/
theorem iteration_stalled (k : Nat) (hk : k ≤ 5) (o : lbfgs ℚ) (h : stalled k o) :
    ∃ o1, iteration flat_solver 1 o = some o1 ∧ stalled (k + 1) o1 := by
  obtain ⟨h1, h2, h3, h4, h5, h6, h7, h8, h9⟩ := h
  have hne : o.lb_history ≠ [] := by
    intro h0
    rw [h0] at h3
    exact absurd h3 (by decide)
  have hc : choose_solver o = solver_type.lbfgs := by
    have hp : lbfgs_update_possible o = true := by
      unfold lbfgs_update_possible
      rw [if_neg (by omega)]
    have hk6 : (k : ℚ) ≤ 5 := by exact_mod_cast hk
    unfold choose_solver
    rw [hp, h5, h6, h7, h8]
    simp only [Bool.not_true, Bool.false_eq_true, if_false]
    rw [if_neg]
    · split_ifs with ha hb
      · rfl
      · exact absurd hb (by norm_num)
      · rfl
    · rw [gt_iff_lt, not_lt, div_le_iff₀ (by norm_num)]
      push_cast
      linarith
  obtain ⟨o2, hit, g1, g2, g3⟩ := lbfgs_iteration_history flat_solver 1 o
    (by intro h0; rw [h0] at h2; cases h2) (by rw [h1]; decide) (by rw [h1]; exact h3)
  obtain ⟨d, past, -, -, ho2⟩ := lbfgs_iteration_eq_some flat_solver 1 o o2 hit
  obtain ⟨-, -, -, -, -, -, -, -, hsame, -⟩ :=
    search_with_cases flat_solver (flat_solver.make_dual_feasible o.solver d) past o
      (fun _ => True) trivial (fun _ _ => trivial)
  have hfail := search_flat_fails flat_solver (fun _ => rfl)
    (flat_solver.make_dual_feasible o.solver d) past o h9
  have hfields : o2.num_unsuccessful_lbfgs_updates_ = k + 1 ∧ o2.mma_iterations = 3 ∧
      o2.lbfgs_iterations = k + 1 ∧ o2.mma_lb_increase_per_time = 0 ∧
      o2.lbfgs_lb_increase_per_time = 0 ∧ 0 < o2.required_relative_lb_increase := by
    obtain ⟨-, -, -, f4, -, -, -, f8, f9⟩ := same_parameters_fields hsame
    have f10 : (search_with flat_solver (flat_solver.make_dual_feasible o.solver d) past
        o).1.mma_lb_increase_per_time = o.mma_lb_increase_per_time := by
      unfold same_parameters at hsame
      rw [hsame]
    rw [ho2]
    refine ⟨?_, ?_, ?_, ?_, ?_, ?_⟩
    · show (search_with flat_solver _ past o).1.num_unsuccessful_lbfgs_updates_ = k + 1
      rw [hfail, h4]
    · show (search_with flat_solver _ past o).1.mma_iterations = 3
      rw [f8, h5]
    · show (search_with flat_solver _ past o).1.lbfgs_iterations + 1 = k + 1
      rw [f9, h6]
    · show (search_with flat_solver _ past o).1.mma_lb_increase_per_time = 0
      rw [f10, h7]
    · show ((0 : ℚ) - 0) / 1 = 0
      norm_num
    · show 0 < (search_with flat_solver _ past o).1.required_relative_lb_increase
      rw [f4]
      exact h9
  obtain ⟨q1, q2, q3, q4, q5, q6⟩ := hfields
  refine ⟨record_iterate flat_solver o2, ?_, ?_⟩
  · rw [iteration_eq, seed_lb_history_self flat_solver o hne]
    unfold chosen_iteration
    rw [if_pos hc, hit]
  · obtain ⟨-, r2, r3, -, -, -, r7, r8, r9, r10⟩ := record_iterate_frame flat_solver o2
    obtain ⟨s1, s2, s3⟩ := store_iterate_rates flat_solver o2
    refine ⟨by rw [r2, g2, h1], ?_, ?_, by rw [r7, q1], by rw [r8, q2], by rw [r9, q3], ?_, ?_, ?_⟩
    · rw [r10, store_iterate_full_history flat_solver o2 (by rw [g1, g2, h2, h1]), g2, h1]
    · rw [r3, List.length_append, g3]
      omega
    · show (store_iterate flat_solver o2).mma_lb_increase_per_time = 0
      rw [s1, q4]
    · show (store_iterate flat_solver o2).lbfgs_lb_increase_per_time = 0
      rw [s2, q5]
    · show 0 < (store_iterate flat_solver o2).required_relative_lb_increase
      rw [s3]
      exact q6

/-- Three iterations of the optimizer constructed with `m = 2` on `flat_solver`: all
three run the base solver, and the history is full afterwards. -/
theorem flat_three_iterations :
    run flat_solver
        (lbfgs.construct flat_solver 0 2 (1 / 1000000) (1 / 1000000) (4 / 5) (11 / 10))
        [call.iteration 1, call.iteration 1, call.iteration 1] =
      some
        { solver := 3
          history := [⟨[1, 0], [1, 0], 1⟩, ⟨[1, 0], [1, 0], 1⟩]
          prev_x := [3, 0]
          prev_grad_f := [-3, 0]
          m := 2
          step_size := 1 / 1000000
          required_relative_lb_increase := 1 / 1000000
          step_size_decrease_factor := 4 / 5
          step_size_increase_factor := 11 / 10
          num_unsuccessful_lbfgs_updates_ := 0
          initial_rho_inv := 1
          lb_history := [0, 0, 0, 0]
          prev_states_stored := true
          initial_rho_inv_valid := true
          mma_lb_increase_per_time := 0
          lbfgs_lb_increase_per_time := 0
          mma_iterations := 3
          lbfgs_iterations := 0 } := by
  norm_num [run, call.apply, iteration, choose_solver, lbfgs_update_possible, mma_iteration,
    store_iterate, push_history, minus, inner_product, flat_solver, lbfgs.construct,
    (by decide : ¬ solver_type.mma = solver_type.lbfgs)]

/-- Up to six accelerated iterations follow, each with a search which fails. -/
theorem run_stalled (n k : Nat) (o : lbfgs ℚ) (hk : k + n ≤ 6) (h : stalled k o) :
    ∃ o1, run flat_solver o (List.replicate n (call.iteration 1)) = some o1 ∧
      stalled (k + n) o1 := by
  induction n generalizing k o with
  | zero => exact ⟨o, rfl, h⟩
  | succ n ih =>
    obtain ⟨o1, h1, h2⟩ := iteration_stalled k (by omega) o h
    obtain ⟨o2, g1, g2⟩ := ih (k + 1) o1 (by omega) h2
    refine ⟨o2, ?_, ?_⟩
    · have e : (call.iteration 1).apply flat_solver o = some o1 := h1
      rw [List.replicate_succ, run, e]
      exact g1
    · have e : k + (n + 1) = k + 1 + n := by omega
      rw [e]
      exact g2

/-- Nine iterations of the optimizer constructed with `m = 2` on `flat_solver` count six
unsuccessful updates. -/
theorem flat_nine_iterations :
    ∃ o, run flat_solver
        (lbfgs.construct flat_solver 0 2 (1 / 1000000) (1 / 1000000) (4 / 5) (11 / 10))
        (List.replicate 9 (call.iteration 1)) = some o ∧ stalled 6 o := by
  have hs : stalled 0
      { solver := 3
        history := [⟨[1, 0], [1, 0], 1⟩, ⟨[1, 0], [1, 0], 1⟩]
        prev_x := [3, 0]
        prev_grad_f := [-3, 0]
        m := 2
        step_size := 1 / 1000000
        required_relative_lb_increase := 1 / 1000000
        step_size_decrease_factor := 4 / 5
        step_size_increase_factor := 11 / 10
        num_unsuccessful_lbfgs_updates_ := 0
        initial_rho_inv := 1
        lb_history := [0, 0, 0, 0]
        prev_states_stored := true
        initial_rho_inv_valid := true
        mma_lb_increase_per_time := 0
        lbfgs_lb_increase_per_time := 0
        mma_iterations := 3
        lbfgs_iterations := 0 } := by
    refine ⟨rfl, rfl, by decide, rfl, rfl, rfl, rfl, rfl, ?_⟩
    norm_num
  obtain ⟨o, h1, h2⟩ := run_stalled 6 0 _ (by decide) hs
  refine ⟨o, ?_, h2⟩
  have e : List.replicate 9 (call.iteration 1) =
      [call.iteration 1, call.iteration 1, call.iteration 1] ++
        List.replicate 6 (call.iteration 1) := rfl
  rw [e, run_append flat_solver _ _ _ _ flat_three_iterations]
  exact h1

/-- C23 at a concrete run: nine iterations with `m = 2` on a solver which makes no
progress count six unsuccessful updates; every further `iteration()` runs the base path
and leaves the number at six, and `update_costs()` sets it to zero. -/
theorem unsuccessful_updates_at_most_six_witness :
    ∃ o, run flat_solver
        (lbfgs.construct flat_solver 0 2 (1 / 1000000) (1 / 1000000) (4 / 5) (11 / 10))
        (List.replicate 9 (call.iteration 1)) = some o ∧
      o.num_unsuccessful_lbfgs_updates_ = 6 ∧
      (∀ dts : List ℚ, ∃ o2, run flat_solver o (dts.map call.iteration) = some o2 ∧
        o2.num_unsuccessful_lbfgs_updates_ = 6 ∧
        o2.lbfgs_iterations = o.lbfgs_iterations ∧
        o2.mma_iterations = o.mma_iterations + dts.length ∧
        choose_solver (seed_lb_history flat_solver o2) = solver_type.mma) ∧
      (update_costs flat_solver o [1, 0] [0, 1]).num_unsuccessful_lbfgs_updates_ = 0 := by
  obtain ⟨o, hrun, -, h6, huc⟩ := unsuccessful_updates_at_most_six flat_solver 0 2
    (1 / 1000000) (1 / 1000000) (4 / 5) (11 / 10) (by decide)
    (List.replicate 9 (call.iteration 1))
  obtain ⟨o1, hrun1, hs⟩ := flat_nine_iterations
  rw [hrun] at hrun1
  cases hrun1
  exact ⟨o, hrun, hs.2.2.2.1, h6 hs.2.2.2.1, huc _ _⟩

/-! ## The enumeration of the test of random inequalities -/

theorem min_cost_leaf_eq (ineq : inequality_type) (rhs : Int) :
    (inequality_holds ineq 0 rhs ∧ min_cost_leaf ineq rhs = 0) ∨
    (¬ inequality_holds ineq 0 rhs ∧ min_cost_leaf ineq rhs = ⊤) := by
  cases ineq <;> unfold inequality_holds min_cost_leaf <;> dsimp only
  · by_cases h : rhs = 0
    · exact Or.inl ⟨h.symm, if_pos h⟩
    · exact Or.inr ⟨fun h0 => h h0.symm, if_neg h⟩
  · by_cases h : rhs ≥ 0
    · exact Or.inl ⟨h, if_pos h⟩
    · exact Or.inr ⟨h, if_neg h⟩
  · by_cases h : rhs ≤ 0
    · exact Or.inl ⟨h, if_pos h⟩
    · exact Or.inr ⟨h, if_neg h⟩

theorem inequality_holds_sub (ineq : inequality_type) (a value rhs : Int) :
    inequality_holds ineq (a + value) rhs ↔ inequality_holds ineq value (rhs - a) := by
  cases ineq <;> unfold inequality_holds <;> dsimp only <;> constructor <;> intro h <;> omega

theorem feasible_cons_zero (ineq : inequality_type) (a : Int) (lhs : List Int) (rhs : Int)
    (x : List Nat) (h : feasible ineq lhs rhs x) : feasible ineq (a :: lhs) rhs (0 :: x) := by
  obtain ⟨h1, h2, h3⟩ := h
  refine ⟨by rw [List.length_cons, List.length_cons, h1], ?_, ?_⟩
  · intro b hb
    rcases List.mem_cons.mp hb with rfl | hb
    · exact Or.inl rfl
    · exact h2 b hb
  · rw [lhs_value, Nat.cast_zero, mul_zero, zero_add]
    exact h3

theorem feasible_cons_one (ineq : inequality_type) (a : Int) (lhs : List Int) (rhs : Int)
    (x : List Nat) (h : feasible ineq lhs (rhs - a) x) :
    feasible ineq (a :: lhs) rhs (1 :: x) := by
  obtain ⟨h1, h2, h3⟩ := h
  refine ⟨by rw [List.length_cons, List.length_cons, h1], ?_, ?_⟩
  · intro b hb
    rcases List.mem_cons.mp hb with rfl | hb
    · exact Or.inr rfl
    · exact h2 b hb
  · rw [lhs_value, Nat.cast_one, mul_one]
    exact (inequality_holds_sub ineq a _ rhs).mpr h3

theorem feasible_cons_cases (ineq : inequality_type) (a : Int) (lhs : List Int) (rhs : Int)
    (x : List Nat) (h : feasible ineq (a :: lhs) rhs x) :
    ∃ xs, (x = 0 :: xs ∧ feasible ineq lhs rhs xs) ∨
      (x = 1 :: xs ∧ feasible ineq lhs (rhs - a) xs) := by
  obtain ⟨h1, h2, h3⟩ := h
  cases x with
  | nil => cases h1
  | cons b xs =>
    have hlen : xs.length = lhs.length := by
      rw [List.length_cons, List.length_cons] at h1
      exact Nat.succ.inj h1
    have hxs : ∀ b ∈ xs, b = 0 ∨ b = 1 := fun v hv => h2 v (List.mem_cons_of_mem _ hv)
    rw [lhs_value] at h3
    rcases h2 b (List.mem_cons_self _ _) with rfl | rfl
    · rw [Nat.cast_zero, mul_zero, zero_add] at h3
      exact ⟨xs, Or.inl ⟨rfl, hlen, hxs, h3⟩⟩
    · rw [Nat.cast_one, mul_one] at h3
      exact ⟨xs, Or.inr ⟨rfl, hlen, hxs, (inequality_holds_sub ineq a _ rhs).mp h3⟩⟩

/-- The value of `best_current_sol` after the two recursive calls, each of which leaves it
as it is or lowers it to the cost of its subtree, compared with the cost of the node. -/
theorem best_chain {α : Type} [LinearOrder α] (b b1 b2 x y : α)
    (h1 : b1 = b ∨ b1 = min b x) (h2 : b2 = b1 ∨ b2 = min b1 y) :
    (min x y ≤ b2 ↔ min x y ≤ b) ∧ (¬ min x y ≤ b → b2 = b) ∧
    (min x y ≤ b → min x y ≤ b1) ∧ b2 ≤ b1 ∧ b1 ≤ b := by
  have hb1 : b1 ≤ b := by
    rcases h1 with rfl | rfl
    · exact le_refl _
    · exact min_le_left _ _
  have hb2 : b2 ≤ b1 := by
    rcases h2 with rfl | rfl
    · exact le_refl _
    · exact min_le_left _ _
  have h3 : min x y ≤ b → min x y ≤ b1 := by
    intro h
    rcases h1 with rfl | rfl
    · exact h
    · exact le_min h (min_le_left _ _)
  have h4 : min x y ≤ b → min x y ≤ b2 := by
    intro h
    rcases h2 with rfl | rfl
    · exact h3 h
    · exact le_min (h3 h) (min_le_right _ _)
  refine ⟨⟨fun h => le_trans h (le_trans hb2 hb1), h4⟩, ?_, h3, hb2, hb1⟩
  intro hn
  have hlt : b < min x y := not_le.mp hn
  have e1 : b1 = b := by
    rcases h1 with rfl | rfl
    · rfl
    · exact min_eq_left (le_trans (le_of_lt hlt) (min_le_left _ _))
  rw [e1] at h2
  rcases h2 with rfl | rfl
  · rfl
  · exact min_eq_left (le_trans (le_of_lt hlt) (min_le_right _ _))

theorem objective_cons_zero (c : ℚ) (cost : List ℚ) (x : List Nat) :
    objective (c :: cost) (0 :: x) = objective cost x := by
  rw [objective, Nat.cast_zero, mul_zero, zero_add]

theorem objective_cons_one (c : ℚ) (cost : List ℚ) (x : List Nat) :
    objective (c :: cost) (1 :: x) = c + objective cost x := by
  rw [objective, Nat.cast_one, mul_one]

theorem objective_nil (cost : List ℚ) : objective cost [] = 0 := by
  cases cost <;> rfl

/-- What a call of `min_cost_impl` returns and does, for coefficients, costs and a part of
the solution of one length: the value returned is a lower bound of the objective over the
feasible assignments; `best_current_sol` is left as it is at a leaf and lowered to the
minimum of itself and of `partial_cost` plus the value at a node; when `partial_cost`
plus the value does not exceed the new `best_current_sol` and the value is finite, the
part of the solution is a feasible assignment with the value as its objective; and the
part of the solution is left as it is when `partial_cost` plus the value exceeds the old
`best_current_sol`. -/
theorem min_cost_impl_spec (ineq : inequality_type) (lhs : List Int) :
    ∀ (rhs : Int) (cost : List ℚ) (sol : List Nat) (p : ℚ) (best : WithTop ℚ),
      cost.length = lhs.length → sol.length = lhs.length →
      ∃ (v : WithTop ℚ) (sol1 : List Nat) (best1 : WithTop ℚ),
        min_cost_impl ineq lhs rhs cost sol p best = some (v, sol1, best1) ∧
        sol1.length = lhs.length ∧
        (∀ x, feasible ineq lhs rhs x → v ≤ ((objective cost x : ℚ) : WithTop ℚ)) ∧
        ((lhs = [] ∧ best1 = best) ∨ best1 = min best ((p : WithTop ℚ) + v)) ∧
        ((p : WithTop ℚ) + v ≤ best1 → v ≠ ⊤ →
          feasible ineq lhs rhs sol1 ∧ ((objective cost sol1 : ℚ) : WithTop ℚ) = v) ∧
        (lhs = [] → sol1 = sol) ∧
        (¬ (p : WithTop ℚ) + v ≤ best → sol1 = sol) := by
  induction lhs with
  | nil =>
    intro rhs cost sol p best _ hs
    have hsol : sol = [] := List.length_eq_zero.mp hs
    refine ⟨min_cost_leaf ineq rhs, sol, best, rfl, hs, ?_, Or.inl ⟨rfl, rfl⟩, ?_,
      fun _ => rfl, fun _ => rfl⟩
    · intro x hx
      obtain ⟨h1, -, h3⟩ := hx
      have hx0 : x = [] := List.length_eq_zero.mp h1
      subst hx0
      rcases min_cost_leaf_eq ineq rhs with ⟨-, h0⟩ | ⟨hn, -⟩
      · rw [h0, objective_nil]
        exact le_refl _
      · exact absurd h3 hn
    · intro _ hv
      rcases min_cost_leaf_eq ineq rhs with ⟨hh, h0⟩ | ⟨-, h0⟩
      · subst hsol
        refine ⟨⟨rfl, fun b hb => absurd hb (List.not_mem_nil b), hh⟩, ?_⟩
        rw [h0, objective_nil]
        rfl
      · exact absurd h0 hv
  | cons a tail ih =>
    intro rhs cost sol p best hc hs
    cases cost with
    | nil => cases hc
    | cons c ctail =>
      cases sol with
      | nil => cases hs
      | cons s stail =>
        have hc1 : ctail.length = tail.length := by
          rw [List.length_cons, List.length_cons] at hc
          exact Nat.succ.inj hc
        have hs1 : stail.length = tail.length := by
          rw [List.length_cons, List.length_cons] at hs
          exact Nat.succ.inj hs
        obtain ⟨v0, sol1, best1, e0, l0, lb0, bf0, good0, -, un0⟩ :=
          ih rhs ctail stail p best hc1 hs1
        obtain ⟨v1, sol2, best2, e1, l1, lb1, bf1, good1, un1a, un1b⟩ :=
          ih (rhs - a) ctail sol1 (p + c) best1 hc1 l0
        have hcur1 : ((p + c : ℚ) : WithTop ℚ) + v1 = (p : WithTop ℚ) + (v1 + (c : WithTop ℚ)) := by
          rw [WithTop.coe_add, add_assoc, add_comm (c : WithTop ℚ)]
        rw [hcur1] at bf1 good1 un1b
        have hmin : (p : WithTop ℚ) + min v0 (v1 + (c : WithTop ℚ)) =
            min ((p : WithTop ℚ) + v0) ((p : WithTop ℚ) + (v1 + (c : WithTop ℚ))) :=
          (min_add_add_left _ _ _).symm
        obtain ⟨k1, k2, k3, k4, k5⟩ := best_chain best best1 best2 ((p : WithTop ℚ) + v0)
          ((p : WithTop ℚ) + (v1 + (c : WithTop ℚ))) (bf0.imp (fun h => h.2) id)
          (bf1.imp (fun h => h.2) id)
        rw [← hmin] at k1 k2 k3
        have hlb : ∀ x, feasible ineq (a :: tail) rhs x →
            min v0 (v1 + (c : WithTop ℚ)) ≤ ((objective (c :: ctail) x : ℚ) : WithTop ℚ) := by
          intro x hx
          obtain ⟨xs, ⟨rfl, hf⟩ | ⟨rfl, hf⟩⟩ := feasible_cons_cases ineq a tail rhs x hx
          · rw [objective_cons_zero]
            exact le_trans (min_le_left _ _) (lb0 xs hf)
          · rw [objective_cons_one, WithTop.coe_add, add_comm (c : WithTop ℚ)]
            exact le_trans (min_le_right _ _) (add_le_add_right (lb1 xs hf) _)
        rw [min_cost_impl, e0]
        dsimp only
        rw [e1]
        dsimp only
        by_cases hw : (p : WithTop ℚ) + min v0 (v1 + (c : WithTop ℚ)) ≤ best2
        · rw [if_pos hw]
          refine ⟨_, _, _, rfl, ?_, hlb, Or.inr ?_, ?_, fun h => absurd h (List.cons_ne_nil _ _),
            fun h => absurd (k1.mp hw) h⟩
          · rw [List.length_cons, List.length_cons, l1]
          · exact (min_eq_right (k1.mp hw)).symm
          · intro _ hv
            by_cases hlt : v0 < v1 + (c : WithTop ℚ)
            · rw [if_pos hlt]
              have hv0 : min v0 (v1 + (c : WithTop ℚ)) = v0 := min_eq_left (le_of_lt hlt)
              rw [hv0] at hv k3 k1 hw ⊢
              obtain ⟨f0, o0⟩ := good0 (k3 (k1.mp hw)) hv
              have hsol : sol2 = sol1 := by
                rcases bf0 with ⟨ht, -⟩ | hb
                · exact un1a ht
                · apply un1b
                  rw [hb]
                  intro hcon
                  exact absurd (le_trans hcon (min_le_right _ _))
                    (not_le.mpr (WithTop.add_lt_add_left WithTop.coe_ne_top hlt))
              rw [hsol]
              exact ⟨feasible_cons_zero ineq a tail rhs sol1 f0, by
                rw [objective_cons_zero]
                exact o0⟩
            · rw [if_neg hlt]
              have hv1 : min v0 (v1 + (c : WithTop ℚ)) = v1 + (c : WithTop ℚ) :=
                min_eq_right (not_lt.mp hlt)
              rw [hv1] at hv hw ⊢
              have hv1t : v1 ≠ ⊤ := by
                intro h
                apply hv
                rw [h]
                exact WithTop.top_add _
              obtain ⟨f1, o1⟩ := good1 hw hv1t
              exact ⟨feasible_cons_one ineq a tail rhs sol2 f1, by
                rw [objective_cons_one, WithTop.coe_add, o1, add_comm]⟩
        · rw [if_neg hw]
          have hnb : ¬ (p : WithTop ℚ) + min v0 (v1 + (c : WithTop ℚ)) ≤ best :=
            fun h => hw (k1.mpr h)
          refine ⟨_, _, _, rfl, ?_, hlb, Or.inr ?_, fun h => absurd h hw,
            fun h => absurd h (List.cons_ne_nil _ _), fun _ => ?_⟩
          · rw [List.length_cons, List.length_cons, l1]
          · rw [k2 hnb]
            exact (min_eq_left (le_of_lt (not_le.mp hnb))).symm
          · have h0 : sol1 = stail := by
              apply un0
              intro h
              apply hnb
              rw [hmin]
              exact le_trans (min_le_left _ _) h
            have h1 : sol2 = sol1 := by
              apply un1b
              intro h
              apply hnb
              rw [hmin]
              exact le_trans (min_le_right _ _) (le_trans h k5)
            rw [h1, h0]

/-- C25: for every list of integer coefficients which is not empty, every list of costs
of the same length, every type of inequality and every right-hand side, in exact
arithmetic, `min_cost` returns a pair `(v, sol)`, and the assertion
`opt_val == opt_val_2` holds; `v` is a lower bound of the objective `sum_i cost_i * x_i`
over the feasible 0/1 assignments; `v` is infinity if and only if there is no feasible
assignment; and when `v` is finite, `sol` is a feasible assignment whose objective is
`v`, so that `v` is the minimum. -/
theorem min_cost_is_minimum (lhs : List Int) (ineq : inequality_type) (rhs : Int)
    (cost : List ℚ) (hne : lhs ≠ []) (hlen : cost.length = lhs.length) :
    ∃ (v : WithTop ℚ) (sol : List Nat),
      min_cost lhs ineq rhs cost = some (v, sol) ∧
      min_cost_impl ineq lhs rhs cost (List.replicate lhs.length 0) 0 ⊤ = some (v, sol, v) ∧
      (∀ x, feasible ineq lhs rhs x → v ≤ ((objective cost x : ℚ) : WithTop ℚ)) ∧
      (v = ⊤ ↔ ¬ ∃ x, feasible ineq lhs rhs x) ∧
      (v ≠ ⊤ → feasible ineq lhs rhs sol ∧ ((objective cost sol : ℚ) : WithTop ℚ) = v) := by
  obtain ⟨v, sol, best, e, -, lb, bf, good, -, -⟩ :=
    min_cost_impl_spec ineq lhs rhs (cost) (List.replicate lhs.length 0) 0 ⊤ hlen
      (List.length_replicate _ _)
  have hbest : best = v := by
    rcases bf with ⟨h, -⟩ | h
    · exact absurd h hne
    · rw [h, WithTop.coe_zero, zero_add]
      exact min_eq_right le_top
  subst hbest
  have hgood : best ≠ ⊤ →
      feasible ineq lhs rhs sol ∧ ((objective cost sol : ℚ) : WithTop ℚ) = best := by
    intro hv
    refine good ?_ hv
    rw [WithTop.coe_zero, zero_add]
  refine ⟨best, sol, ?_, e, lb, ⟨?_, ?_⟩, hgood⟩
  · unfold min_cost
    dsimp only
    rw [e]
  · rintro hv ⟨x, hx⟩
    have h := lb x hx
    rw [hv] at h
    exact WithTop.coe_ne_top (top_le_iff.mp h)
  · intro hno
    by_contra hv
    exact hno ⟨sol, (hgood hv).1⟩

/-- C25 at a concrete input: the equation `x_0 - 2 x_1 + 3 x_2 = 1` with the costs
`(1, 1, -1)`. -/
theorem min_cost_is_minimum_witness :
    ∃ (v : WithTop ℚ) (sol : List Nat),
      min_cost [1, -2, 3] inequality_type.equal 1 [1, 1, -1] = some (v, sol) ∧
      min_cost_impl inequality_type.equal [1, -2, 3] 1 [1, 1, -1]
        (List.replicate [(1 : Int), -2, 3].length 0) 0 ⊤ = some (v, sol, v) ∧
      (∀ x, feasible inequality_type.equal [1, -2, 3] 1 x →
        v ≤ ((objective [1, 1, -1] x : ℚ) : WithTop ℚ)) ∧
      (v = ⊤ ↔ ¬ ∃ x, feasible inequality_type.equal [1, -2, 3] 1 x) ∧
      (v ≠ ⊤ → feasible inequality_type.equal [1, -2, 3] 1 sol ∧
        ((objective [1, 1, -1] sol : ℚ) : WithTop ℚ) = v) :=
  min_cost_is_minimum [1, -2, 3] inequality_type.equal 1 [1, 1, -1] (by decide) rfl

/-! ## The right-hand side of the random inequality -/

theorem do_while_loop_again {α : Type} (trial budget_block : α → α) (again : α → Prop)
    [DecidablePred again] (n : Nat) (p : α) (hn : n ≤ 5) (hc : again (trial p)) :
    do_while_loop trial budget_block again n p =
      do_while_loop trial budget_block again (n + 1) (trial p) := by
  rw [do_while_loop, if_neg (by omega), if_pos hc]

theorem do_while_loop_budget {α : Type} (trial budget_block : α → α) (again : α → Prop)
    [DecidablePred again] (n : Nat) (p : α) (hn : n > 5) :
    do_while_loop trial budget_block again n p = (budget_block (trial p), n, true) := by
  rw [do_while_loop, if_pos hn]

/-- A run of the `do`-loop in which none of the first six trials reaches the required
relative change: the loop makes seven trials and returns through the block of the retry
budget. -/
theorem do_while_loop_seven {α : Type} (trial budget_block : α → α) (again : α → Prop)
    [DecidablePred again] (p : α)
    (h : ∀ k : Nat, k < 6 → again (trial^[k + 1] p)) :
    do_while_loop trial budget_block again 0 p = (budget_block (trial^[7] p), 6, true) := by
  have step : ∀ k : Nat, k ≤ 6 →
      do_while_loop trial budget_block again 0 p =
        do_while_loop trial budget_block again k (trial^[k] p) := by
    intro k
    induction k with
    | zero => intro _; rfl
    | succ j ih =>
      intro hj
      rw [ih (by omega), do_while_loop_again trial budget_block again j _ (by omega)
        (by rw [← Function.iterate_succ_apply' trial j p]; exact h j (by omega)),
        Function.iterate_succ_apply' trial j p]
  rw [step 6 (le_refl _), do_while_loop_budget trial budget_block again 6 _ (by decide),
    ← Function.iterate_succ_apply' trial 6 p]

/-- With the identity as rounding the rounded search is the search in exact
arithmetic. -/
theorem search_with_rounded_id (S : Solver σ) (update : Vec) (past : ℚ) (o : lbfgs σ) :
    search_with_rounded id S update past o = search_with S update past o := by
  have h1 : search_trial_rounded id S update (S.lower_bound o.solver) past =
      search_trial S update (S.lower_bound o.solver) past := by
    funext p
    rfl
  have h2 : retry_budget_exit_rounded id S update = retry_budget_exit S update := by
    funext p
    rfl
  unfold search_with_rounded search_with search_loop_rounded search_loop
  simp only []
  rw [h1, h2]
  rfl

/-- A rounded search in which none of the first six trials reaches the required relative
change: seven trials, then the block of the retry budget. -/
theorem search_with_rounded_seven (fl : ℚ → ℚ) (S : Solver σ) (update : Vec) (past : ℚ)
    (o : lbfgs σ)
    (h : ∀ k : Nat, k < 6 →
      ((search_trial_rounded fl S update (S.lower_bound o.solver) past)^[k + 1]
        (o, search_locals.init)).2.curr_rel_change <
      ((search_trial_rounded fl S update (S.lower_bound o.solver) past)^[k + 1]
        (o, search_locals.init)).1.required_relative_lb_increase) :
    search_with_rounded fl S update past o =
      retry_budget_exit_rounded fl S update
        ((search_trial_rounded fl S update (S.lower_bound o.solver) past)^[7]
          (o, search_locals.init)) := by
  unfold search_with_rounded search_loop_rounded
  simp only []
  rw [do_while_loop_seven _ _ _ _ h]
  unfold search_finish_rounded
  simp only [if_true]

/-- The search in binary64 with the decrease factor `0.3`: seven trials, then the block of
the retry budget. -/
theorem binary64_search_three_tenths :
    binary64_search (3 / 10) =
      retry_budget_exit_rounded round_binary64 (scale_solver (fun _ => 0)) [1, 0]
        ((search_trial_rounded round_binary64 (scale_solver (fun _ => 0)) [1, 0]
          ((scale_solver (fun _ => 0)).lower_bound (binary64_state (3 / 10)).solver) 0)^[7]
          (binary64_state (3 / 10), search_locals.init)) := by
  unfold binary64_search
  apply search_with_rounded_seven
  intro k hk
  interval_cases k <;> decide!

/-- C6, evaluated on the code with `REAL = double`: from a state whose parameters satisfy
the assertions of the constructor, with the decrease factor `0.3`, on a solver whose lower
bound is constant, the search makes seven trials, each with the ratio `0`, which is below
`required_relative_lb_increase`; no ratio exceeds a tenth of it, the update is taken back
and `num_unsuccessful_lbfgs_updates_` is incremented by one; but the eight scales passed
to `gradient_step`, each the rounded difference of two successive step sizes, add up to
`-47 / 2^83` and not to `0`. -/
theorem search_retry_budget_binary64_counterexample :
    constructor_asserts (binary64_state (3 / 10)) ∧
    (binary64_state (3 / 10)).step_size_decrease_factor =
      5404319552844595 / 18014398509481984 ∧
    search_step_size_and_apply_rounded round_binary64 (scale_solver (fun _ => 0)) [1, 0]
      (binary64_state (3 / 10)) = some (binary64_search (3 / 10)) ∧
    (binary64_search (3 / 10)).2.trials =
      [(4722366482869645 / 4722366482869645213696, 0),
       (2833419889721787 / 9444732965739290427392, 0),
       (6800207735332289 / 75557863725914323419136, 0),
       (4080124641199373 / 151115727451828646838272, 0),
       (4896149569439247 / 604462909807314587353088, 0),
       (734422435415887 / 302231454903657293676544, 0),
       (7050455379992515 / 9671406556917033397649408, 0)] ∧
    (0 : ℚ) < (binary64_state (3 / 10)).required_relative_lb_increase ∧
    (binary64_search (3 / 10)).2.best_rel_improvement = 0 ∧
    (binary64_search (3 / 10)).1.num_unsuccessful_lbfgs_updates_ =
      (binary64_state (3 / 10)).num_unsuccessful_lbfgs_updates_ + 1 ∧
    (binary64_search (3 / 10)).2.gradient_step_scales =
      [4722366482869645 / 4722366482869645213696,
       -6611313076017503 / 9444732965739290427392,
       -1983393922805251 / 9444732965739290427392,
       -2380072707366301 / 37778931862957161709568,
       -2856087248839561 / 151115727451828646838272,
       -3427304698607473 / 604462909807314587353088,
       -4112765638328967 / 2417851639229258349412352,
       -7050455379992515 / 9671406556917033397649408] ∧
    (binary64_search (3 / 10)).2.gradient_step_scales.sum =
      -47 / 9671406556917033397649408 ∧
    (binary64_search (3 / 10)).2.gradient_step_scales.sum ≠ 0 := by
  have hpast : past_lb_increase_rounded round_binary64 (binary64_state (3 / 10)) = some 0 := by
    decide!
  have hsum : (binary64_search (3 / 10)).2.gradient_step_scales.sum =
      -47 / 9671406556917033397649408 := by
    rw [binary64_search_three_tenths]
    decide!
  refine ⟨?_, ?_, ?_, ?_, ?_, ?_, ?_, ?_, hsum, ?_⟩
  · unfold constructor_asserts
    decide!
  · decide!
  · unfold search_step_size_and_apply_rounded
    rw [hpast]
    rfl
  · rw [binary64_search_three_tenths]
    decide!
  · decide!
  · rw [binary64_search_three_tenths]
    decide!
  · rw [binary64_search_three_tenths]
    decide!
  · rw [binary64_search_three_tenths]
    decide!
  · rw [hsum]
    norm_num

/-- The search in binary64 with the decrease factor `0.2`: seven trials, then the block of
the retry budget. -/
theorem binary64_search_fifth :
    binary64_search (1 / 5) =
      retry_budget_exit_rounded round_binary64 (scale_solver (fun _ => 0)) [1, 0]
        ((search_trial_rounded round_binary64 (scale_solver (fun _ => 0)) [1, 0]
          ((scale_solver (fun _ => 0)).lower_bound (binary64_state (1 / 5)).solver) 0)^[7]
          (binary64_state (1 / 5), search_locals.init)) := by
  unfold binary64_search
  apply search_with_rounded_seven
  intro k hk
  interval_cases k <;> decide!

/-- C8, evaluated on the code with `REAL = double`: from a state with `step_size > 0` and
factors which satisfy the assertions of the constructor, with the decrease factor `0.2`,
on a solver whose lower bound is constant, the scales passed to `gradient_step` during the
search add up to `-1147 / 2^86`, which is negative. -/
theorem search_net_scale_binary64_counterexample :
    constructor_asserts (binary64_state (1 / 5)) ∧
    (binary64_state (1 / 5)).step_size_decrease_factor =
      3602879701896397 / 18014398509481984 ∧
    search_step_size_and_apply_rounded round_binary64 (scale_solver (fun _ => 0)) [1, 0]
      (binary64_state (1 / 5)) = some (binary64_search (1 / 5)) ∧
    (binary64_search (1 / 5)).2.gradient_step_scales =
      [4722366482869645 / 4722366482869645213696,
       -944473296573929 / 1180591620717411303424,
       -3022314549036573 / 18889465931478580854784,
       -4835703278458517 / 151115727451828646838272,
       -7737125245533627 / 1208925819614629174706176,
       -3094850098213451 / 2417851639229258349412352,
       -2475880078570761 / 9671406556917033397649408,
       -4951760157141523 / 77371252455336267181195264] ∧
    (binary64_search (1 / 5)).2.gradient_step_scales.sum =
      -1147 / 77371252455336267181195264 ∧
    (binary64_search (1 / 5)).2.gradient_step_scales.sum < 0 := by
  have hpast : past_lb_increase_rounded round_binary64 (binary64_state (1 / 5)) = some 0 := by
    decide!
  have hsum : (binary64_search (1 / 5)).2.gradient_step_scales.sum =
      -1147 / 77371252455336267181195264 := by
    rw [binary64_search_fifth]
    decide!
  refine ⟨?_, ?_, ?_, ?_, hsum, ?_⟩
  · unfold constructor_asserts
    decide!
  · decide!
  · unfold search_step_size_and_apply_rounded
    rw [hpast]
    rfl
  · rw [binary64_search_fifth]
    decide!
  · rw [hsum]
    norm_num

end LPMP
